import Mathlib

/-! # clabnet-converter: interface rewriting, peer resolution and link collection

A shallow embedding of `internal/device` (base.go, peer.go, cat9kv.go, n9kv.go)
and of `cmd/labbuild/main.go`, followed by theorems about the embedded code.

Conventions of the embedding.

* A Go `string` is a `Str`, a list of Unicode code points (the Go string is
  assumed to hold valid UTF-8).  Go compares strings bytewise; on valid UTF-8
  this is the code point order used by `strLt`.
* A run-time panic (index out of range, unsupported kind) is the result `none`.
* `strings.ToLower` and `strings.EqualFold` are parameters of the functions that
  call them; `asciiToLower` and `asciiEqualFold` instantiate them in examples.
* The lines of a text are those `bufio.Scanner` delivers, its token size limit
  included.
* Go slices and pointers that are mutated in place become explicit state: a
  device list is a `List Device`, and a device is identified by its position.
* File and terminal I/O is left out; a raw configuration file is represented by
  its content.
-/

namespace Clab

/-! ## Strings and the library functions used by the sources -/

/-- A Go string, as a list of code points. -/
abbrev Str := List Char

/-- The predicate `unicode.IsSpace`: the Latin-1 spaces and the characters with
the Unicode White_Space property. -/
def isSpace (c : Char) : Bool :=
  let n := c.toNat
  decide (n = 0x20 ∨ (0x09 ≤ n ∧ n ≤ 0x0d) ∨ n = 0x85 ∨ n = 0xA0 ∨ n = 0x1680 ∨
    (0x2000 ≤ n ∧ n ≤ 0x200a) ∨ n = 0x2028 ∨ n = 0x2029 ∨ n = 0x202f ∨
    n = 0x205f ∨ n = 0x3000)

/-- The regexp class `\s` of Go (RE2): tab, newline, form feed, carriage return, space. -/
def reSpace (c : Char) : Bool :=
  decide (c = ' ' ∨ c = '\t' ∨ c = '\n' ∨ c = '\x0c' ∨ c = '\r')

/-- The regexp class `\d`. -/
def reDigit (c : Char) : Bool :=
  decide ('0'.toNat ≤ c.toNat ∧ c.toNat ≤ '9'.toNat)

/-- The regexp class `\w`: ASCII letters, digits and underscore. -/
def reWord (c : Char) : Bool :=
  reDigit c || decide (('a'.toNat ≤ c.toNat ∧ c.toNat ≤ 'z'.toNat) ∨
    ('A'.toNat ≤ c.toNat ∧ c.toNat ≤ 'Z'.toNat) ∨ c = '_')

/-- The function `strings.TrimSpace`. -/
def trimSpace (s : Str) : Str :=
  (s.dropWhile isSpace).rdropWhile isSpace

/-- The function `strings.HasPrefix`. -/
def hasPrefix (s p : Str) : Bool :=
  p.isPrefixOf s

/-- The function `strings.TrimPrefix`. -/
def trimPrefix (s p : Str) : Str :=
  if hasPrefix s p then s.drop p.length else s

/-- The function `strings.TrimLeft(s, " ")`: all leading ASCII spaces removed. -/
def trimLeftSpaces (s : Str) : Str :=
  s.dropWhile (fun c => decide (c = ' '))

/-- The loop of `strings.Fields`; `cur` is the field being read. -/
def fieldsGo : Str → Str → List Str
  | [], cur => if cur = [] then [] else [cur]
  | c :: cs, cur =>
    if isSpace c then
      if cur = [] then fieldsGo cs [] else cur :: fieldsGo cs []
    else fieldsGo cs (cur ++ [c])

/-- The function `strings.Fields`: the maximal runs of non-space characters. -/
def fields (s : Str) : List Str :=
  fieldsGo s []

/-- The function `strings.Join`. -/
def join (lines : List Str) (sep : Str) : Str :=
  sep.intercalate lines

/-- The prefix slice `s[:n]` of Go, which panics unless `0 ≤ n ≤ len(s)`. -/
def sliceTo (s : Str) (n : Int) : Option Str :=
  if 0 ≤ n ∧ n ≤ (s.length : Int) then some (s.take n.toNat) else none

/-- String comparison `a < b` of Go (lexicographic). -/
def strLt : Str → Str → Bool
  | [], [] => false
  | [], _ :: _ => true
  | _ :: _, [] => false
  | a :: as, b :: bs =>
    if a.toNat < b.toNat then true
    else if b.toNat < a.toNat then false
    else strLt as bs

/-- Length in bytes of the UTF-8 encoding. -/
def byteLen (s : Str) : Nat :=
  (s.map Char.utf8Size).sum

/-- The text cut at every line feed; there is always a last piece, possibly empty. -/
def splitOnNL : Str → List Str
  | [] => [[]]
  | c :: cs =>
    if c = '\n' then [] :: splitOnNL cs
    else
      match splitOnNL cs with
      | [] => [[c]]
      | p :: ps => (c :: p) :: ps

/-- The helper `dropCR` of `bufio.ScanLines`: one trailing carriage return is removed. -/
def dropCR (s : Str) : Str :=
  if s.getLast? = some '\r' then s.dropLast else s

/-- The token size limit of `bufio.Scanner` (`bufio.MaxScanTokenSize`). -/
def maxScanTokenSize : Nat := 64 * 1024

/-- The lines delivered by `bufio.NewScanner(strings.NewReader(s))` with the
default split function: the pieces between line feeds, an empty last piece
 not being a line, each without its trailing carriage return.  The scanner
stops (its error is not inspected by the callers) at the first piece that
does not fit the buffer together with its line feed. -/
def scanLines (s : Str) : List Str :=
  let pieces := splitOnNL s
  let pieces := if pieces.getLast? = some [] then pieces.dropLast else pieces
  (pieces.takeWhile (fun p => decide (byteLen p < maxScanTokenSize))).map dropCR

/-- The function `splitLines` of base.go, `regexp.MustCompile("\r?\n").Split(src, -1)`:
every piece is kept, and a carriage return is removed only in front of a line feed. -/
def splitLines (src : Str) : List Str :=
  let pieces := splitOnNL src
  (pieces.dropLast.map dropCR) ++ pieces.drop (pieces.length - 1)

/-! ## Regular expressions

A `*regexp.Regexp` with two capture groups is represented by its
`FindStringSubmatch`, giving the two submatches of the leftmost match. -/

/-- A compiled pattern with two groups: `m[1]` and `m[2]` of `FindStringSubmatch`. -/
abbrev Regexp := Str → Option (Str × Str)

/-- The cut of a token at its last colon that has something to its right. -/
def lastColon : Str → Option (Str × Str)
  | [] => none
  | c :: cs =>
    match lastColon cs with
    | some (a, b) => some (c :: a, b)
    | none => if c = ':' ∧ cs ≠ [] then some ([], cs) else none

/-- The pattern `^\s*description\s+(\S+):(\S+)\s*$`.  The first group is greedy,
so the token after `description` is cut at its last colon that leaves both
groups non-empty. -/
def peerDescPattern : Regexp := fun s =>
  let s1 := s.dropWhile reSpace
  if hasPrefix s1 "description".toList then
    let s2 := s1.drop 11
    let s3 := s2.dropWhile reSpace
    if s3.length < s2.length then
      let tok := s3.takeWhile (fun c => !reSpace c)
      let rest := s3.dropWhile (fun c => !reSpace c)
      if rest.all reSpace then
        match tok with
        | [] => none
        | c :: cs => (lastColon cs).map (fun p => (c :: p.1, p.2))
      else none
    else none
  else none

/-! ## Data model (base.go, device.go) -/

/-- The struct `IfMap`: a mapping for a single device interface. -/
structure IfMap where
  Clab : Str
  Src : Str
  PeerNode : Str
  PeerIf : Str
deriving DecidableEq, Repr

/-- The struct `Base`.  The map `validHosts` is the list of its keys (every
value stored in it is `true`).  The field `peerMaps` is written by
`rewritePhys` and read nowhere, and is left out. -/
structure Base where
  Kind : Str
  NodeName : Str
  Conf : Str
  Hostname : Str
  IfMaps : List IfMap
  validHosts : List Str
deriving DecidableEq, Repr

/-- The interface `Device` with its two implementations, both wrapping a `Base`. -/
inductive Device where
  | Cat9kv (b : Base)
  | N9kv (b : Base)
deriving DecidableEq, Repr

/-- The embedded `*Base` of a device. -/
def Device.base : Device → Base
  | .Cat9kv b => b
  | .N9kv b => b

/-- The same kind of device around another `Base`. -/
def Device.withBase : Device → Base → Device
  | .Cat9kv _, b => .Cat9kv b
  | .N9kv _, b => .N9kv b

/-- The method `GetNodeName`. -/
def Device.GetNodeName (d : Device) : Str := d.base.NodeName

/-- The method `GetKind`. -/
def Device.GetKind (d : Device) : Str := d.base.Kind

/-- The method `GetHostname`. -/
def Device.GetHostname (d : Device) : Str := d.base.Hostname

/-- The method `GetIfMaps`. -/
def Device.GetIfMaps (d : Device) : List IfMap := d.base.IfMaps

/-- The local struct `parsedIf` of `rewritePhys`; the defaults are Go zero values. -/
structure parsedIf where
  ifname : Str := []
  body : List Str := []
  peerNode : Str := []
  peerIf : Str := []
  phys : Bool := false
deriving DecidableEq, Repr

/-! ## base.go -/

/-- The loop of `ExtractHostname` over the scanned lines. -/
def extractHostnameLoop : List Str → Str
  | [] => []
  | line :: rest =>
    let trim := trimSpace line
    if hasPrefix trim "hostname ".toList then
      trimSpace (trimPrefix trim "hostname".toList)
    else extractHostnameLoop rest

/-- The function `ExtractHostname`: the hostname line of the configuration text. -/
def ExtractHostname (conf : Str) : Str :=
  extractHostnameLoop (scanLines conf)

/-- The function `matches` of base.go (`matches` is a keyword here), a pattern of a
drop list being given by its `MatchString`. -/
def matchesAny (s : Str) (list : List (Str → Bool)) : Bool :=
  list.any (fun re => re s)

/-- The loop of `cleanConfig`: `skip` is set while a dropped block is being skipped. -/
def cleanConfigLoop (dropLines dropBlocks : List (Str → Bool)) :
    List Str → Bool → List Str → List Str
  | [], _, out => out
  | line :: rest, skip, out =>
    let trim := trimSpace line
    if skip = true ∧ ¬ (hasPrefix line " ".toList = false ∧ trim ≠ []) then
      cleanConfigLoop dropLines dropBlocks rest true out
    else if matchesAny trim dropLines then
      cleanConfigLoop dropLines dropBlocks rest false out
    else if matchesAny trim dropBlocks then
      cleanConfigLoop dropLines dropBlocks rest true out
    else cleanConfigLoop dropLines dropBlocks rest false (out ++ [line])

/-- The method `cleanConfig`: the lines and blocks matching a drop pattern are removed. -/
def Base.cleanConfig (b : Base) (dropLines dropBlocks : List (Str → Bool)) : Str :=
  join (cleanConfigLoop dropLines dropBlocks (splitLines b.Conf) false []) "\n".toList

/-- The inner loop of `findClabNameByPeer`: the first mapping named `peerIf`. -/
def findPeerMapping (maps : List IfMap) (peerIf : Str) : Option IfMap :=
  maps.find? (fun m => decide (m.Src = peerIf ∨ m.Clab = peerIf))

/-- The function `findClabNameByPeer`: the clab interface name for a peer node
and peer interface, the hostname being compared with `==`. -/
def findClabNameByPeer : List Device → Str → Str → Str
  | [], _, _ => []
  | d :: devs, peerNode, peerIf =>
    if d.GetHostname = peerNode then
      match findPeerMapping d.GetIfMaps peerIf with
      | some m => m.Clab
      | none => findClabNameByPeer devs peerNode peerIf
    else findClabNameByPeer devs peerNode peerIf

/-- The variables of the scanning loop of `rewritePhys`. -/
structure scanState where
  allIfs : List parsedIf := []
  globalLines : List Str := []
  cur : parsedIf := {}
  inIf : Bool := false
deriving DecidableEq, Repr

/-- The `allIfs` slice after `cur` has been appended when a block is open and named. -/
def flushCur (st : scanState) : List parsedIf :=
  if st.inIf = true ∧ st.cur.ifname ≠ [] then st.allIfs ++ [st.cur] else st.allIfs

/-- One iteration of the scanning loop of `rewritePhys` (base.go, lines 123-154). -/
def scanStep (isPhys : Str → Bool) (peerDescRE : Option Regexp) (st : scanState)
    (line : Str) : Option scanState :=
  let trim := trimSpace line
  if hasPrefix trim "interface ".toList then
    match (fields trim)[1]? with
    | none => none
    | some ifname =>
      some { allIfs := flushCur st, globalLines := st.globalLines,
             cur := { ifname := ifname, body := [line], phys := isPhys ifname },
             inIf := true }
  else if st.inIf = true ∧ trim = "!".toList then
    some { allIfs := st.allIfs ++ [{ st.cur with body := st.cur.body ++ [line] }],
           globalLines := st.globalLines, cur := {}, inIf := false }
  else if st.inIf = true then
    let cur := { st.cur with body := st.cur.body ++ [line] }
    match peerDescRE with
    | some re =>
      if cur.peerNode = [] ∧ cur.phys = true then
        match re line with
        | some m => some { st with cur := { cur with peerNode := m.1, peerIf := m.2 } }
        | none => some { st with cur := cur }
      else some { st with cur := cur }
    | none => some { st with cur := cur }
  else some { st with globalLines := st.globalLines ++ [line] }

/-- The scanning loop of `rewritePhys` over the lines of the scanner. -/
def scanLoop (isPhys : Str → Bool) (peerDescRE : Option Regexp) :
    List Str → scanState → Option scanState
  | [], st => some st
  | line :: rest, st =>
    match scanStep isPhys peerDescRE st line with
    | none => none
    | some st1 => scanLoop isPhys peerDescRE rest st1

/-- The test of `rewritePhys` that a parsed interface has a peer on a valid host
(base.go, lines 163-171, and line 202 without the pool test). -/
def qualifies (validHosts : List Str) (pif : parsedIf) : Bool :=
  decide (pif.phys = true ∧ ¬ (pif.peerNode = [] ∨ pif.peerIf = []) ∧
    pif.peerNode ∈ validHosts)

/-- The assignment loop of `rewritePhys` (base.go, lines 160-183); reaching a
qualifying interface with the pool used up leaves the loop. -/
def assignLoop (validHosts : List Str) (clabIfs : List Str) :
    List parsedIf → Nat → List IfMap → Option (List IfMap)
  | [], _, filtered => some filtered
  | pif :: rest, clabIdx, filtered =>
    if pif.phys = false then assignLoop validHosts clabIfs rest clabIdx filtered
    else if pif.peerNode = [] ∨ pif.peerIf = [] then
      assignLoop validHosts clabIfs rest clabIdx filtered
    else if pif.peerNode ∉ validHosts then
      assignLoop validHosts clabIfs rest clabIdx filtered
    else if clabIdx ≥ clabIfs.length then some filtered
    else
      match clabIfs[clabIdx]? with
      | none => none
      | some clab =>
        assignLoop validHosts clabIfs rest (clabIdx + 1)
          (filtered ++ [{ Clab := clab, Src := pif.ifname,
                          PeerNode := pif.peerNode, PeerIf := pif.peerIf }])

/-- The rewriting of one body line (base.go, lines 208-216): a line matching the
peer pattern names the clab interface of the peer when one is found. -/
def rewriteLine (peerDescRE : Option Regexp) (devs : List Device) (orig : Str) :
    Option Str :=
  match peerDescRE with
  | none => none
  | some re =>
    match re (trimSpace orig) with
    | some m =>
      let peerClab := findClabNameByPeer devs m.1 m.2
      if peerClab ≠ [] then
        match sliceTo orig ((orig.length : Int) - ((trimLeftSpaces orig).length : Int)) with
        | none => none
        | some indent => some (indent ++ "description ".toList ++ m.1 ++ ":".toList ++ peerClab)
      else some orig
    | none => some orig

/-- The loop over the body of a renamed interface (base.go, lines 207-224);
`len` is `len(pif.body)` and `i` the index of the first line of the list. -/
def rewriteBody (peerDescRE : Option Regexp) (devs : List Device) (clab : Str) (len : Nat) :
    Nat → List Str → List Str → Option (List Str)
  | _, [], out => some out
  | i, orig :: rest, out =>
    match rewriteLine peerDescRE devs orig with
    | none => none
    | some orig1 =>
      if i = 0 then
        rewriteBody peerDescRE devs clab len (i + 1) rest (out ++ ["interface ".toList ++ clab])
      else if (i : Int) = (len : Int) - 1 then
        rewriteBody peerDescRE devs clab len (i + 1) rest (out ++ ["!".toList])
      else rewriteBody peerDescRE devs clab len (i + 1) rest (out ++ [orig1])

/-- The output loop of `rewritePhys` (base.go, lines 200-230). -/
def outputLoop (validHosts : List Str) (clabIfs : List Str) (peerDescRE : Option Regexp)
    (devs : List Device) : List parsedIf → Nat → List Str → Option (List Str)
  | [], _, out => some out
  | pif :: rest, clabIdx, out =>
    if pif.phys = true then
      if pif.peerNode = [] ∨ pif.peerIf = [] ∨ pif.peerNode ∉ validHosts ∨
          clabIdx ≥ clabIfs.length then
        outputLoop validHosts clabIfs peerDescRE devs rest clabIdx out
      else
        match clabIfs[clabIdx]? with
        | none => none
        | some clab =>
          match rewriteBody peerDescRE devs clab pif.body.length 0 pif.body out with
          | none => none
          | some out1 => outputLoop validHosts clabIfs peerDescRE devs rest (clabIdx + 1) out1
    else outputLoop validHosts clabIfs peerDescRE devs rest clabIdx (out ++ pif.body)

/-- The parser part of `rewritePhys` (base.go, lines 118-157): the interface
blocks and the global lines of a configuration text. -/
def parseConf (isPhys : Str → Bool) (peerDescRE : Option Regexp) (conf : Str) :
    Option (List parsedIf × List Str) :=
  match scanLoop isPhys peerDescRE (scanLines conf) {} with
  | none => none
  | some st => some (flushCur st, st.globalLines)

/-- The values `filtered` and `out` computed by `rewritePhys` (base.go, lines 118-230). -/
def rewritePhysCore (validHosts : List Str) (isPhys : Str → Bool) (clabIfs : List Str)
    (peerDescRE : Option Regexp) (devs : List Device) (conf : Str) :
    Option (List IfMap × List Str) :=
  match parseConf isPhys peerDescRE conf with
  | none => none
  | some (allIfs, globalLines) =>
    match assignLoop validHosts clabIfs allIfs 0 [] with
    | none => none
    | some filtered =>
      match outputLoop validHosts clabIfs peerDescRE devs allIfs 0 globalLines with
      | none => none
      | some out => some (filtered, out)

/-- The method `rewritePhys`: parses the config, assigns clab names, and builds
the interface mapping; `devs` is the current state of all devices. -/
def Base.rewritePhys (b : Base) (isPhys : Str → Bool) (clabIfs : List Str)
    (peerDescRE : Option Regexp) (devs : List Device) : Option Base :=
  match rewritePhysCore b.validHosts isPhys clabIfs peerDescRE devs b.Conf with
  | none => none
  | some (filtered, out) => some { b with IfMaps := filtered, Conf := join out "\n".toList }

/-! ## cat9kv.go and n9kv.go -/

/-- The variable `clabIfsCat9kv`: the logical interface names for cisco_cat9kv. -/
def clabIfsCat9kv : List Str :=
  ["GigabitEthernet1/0/1".toList, "GigabitEthernet1/0/2".toList,
   "GigabitEthernet1/0/3".toList, "GigabitEthernet1/0/4".toList,
   "GigabitEthernet1/0/5".toList, "GigabitEthernet1/0/6".toList,
   "GigabitEthernet1/0/7".toList, "GigabitEthernet1/0/8".toList]

/-- The variable `peerDescRECat9kv`. -/
def peerDescRECat9kv : Regexp := peerDescPattern

/-- The function `isPhysCat9kv`: true if the interface name indicates a data
port (not management). -/
def isPhysCat9kv (ifName : Str) : Bool :=
  if ifName.length = 0 then false
  else if hasPrefix ifName "GigabitEthernet0/0".toList then false
  else hasPrefix ifName "GigabitEthernet".toList || hasPrefix ifName "TenGigabitEthernet".toList ||
    hasPrefix ifName "TwentyFiveGigE".toList || hasPrefix ifName "HundredGigE".toList

/-- The variable `clabIfsN9kv`: `Ethernet1/1` to `Ethernet1/64`. -/
def clabIfsN9kv : List Str :=
  (List.range 64).map (fun i => "Ethernet1/".toList ++ Nat.toDigits 10 (i + 1))

/-- The variable `peerDescREN9kv`. -/
def peerDescREN9kv : Regexp := peerDescPattern

/-- The function `isPhysN9kv`: true if the interface name is a data port (Ethernet). -/
def isPhysN9kv (ifName : Str) : Bool :=
  hasPrefix ifName "Ethernet".toList

/-- A pattern `^lit`. -/
def reStartsWith (lit : String) : Str → Bool :=
  fun s => hasPrefix s lit.toList

/-- The pattern `^switch \d+ provision`. -/
def reSwitchProvision : Str → Bool := fun s =>
  hasPrefix s "switch ".toList &&
    ((s.drop 7).takeWhile reDigit != [] &&
      hasPrefix ((s.drop 7).dropWhile reDigit) " provision".toList)

/-- The pattern `^interface +GigabitEthernet0/0\b`. -/
def reMgmtBlock : Str → Bool := fun s =>
  hasPrefix s "interface ".toList &&
    (let r := (s.drop 9).dropWhile (fun c => decide (c = ' '))
     hasPrefix r "GigabitEthernet0/0".toList &&
       (match r.drop 18 with
        | [] => true
        | c :: _ => !reWord c))

/-- The pattern `^interface port-channel\d+\.\d`. -/
def rePortChannelSub : Str → Bool := fun s =>
  hasPrefix s "interface port-channel".toList &&
    ((s.drop 22).takeWhile reDigit != [] &&
      (match (s.drop 22).dropWhile reDigit with
       | c :: d :: _ => decide (c = '.') && reDigit d
       | _ => false))

/-- The variable `reDropLineCat9kv`. -/
def reDropLineCat9kv : List (Str → Bool) :=
  [reStartsWith "aaa", reStartsWith "boot system", reSwitchProvision, reStartsWith "license",
   reStartsWith "enable", reStartsWith "username admin", reStartsWith "ip ssh",
   reStartsWith "end"]

/-- The variable `reDropBlockCat9kv`. -/
def reDropBlockCat9kv : List (Str → Bool) :=
  [reMgmtBlock, reStartsWith "stackwise-virtual", reStartsWith "crypto", reStartsWith "line ",
   reStartsWith "event manager"]

/-- The variable `reDropLineN9kv`. -/
def reDropLineN9kv : List (Str → Bool) :=
  [reStartsWith "feature qos", reStartsWith "username admin", reStartsWith "end"]

/-- The variable `reDropBlockN9kv`. -/
def reDropBlockN9kv : List (Str → Bool) :=
  [reStartsWith "vdc", reStartsWith "aaa", rePortChannelSub, reStartsWith "interface mgmt0"]

/-- The function `newBase`; `readFile` is the file system, `none` for an unreadable file. -/
def newBase (readFile : Str → Option Str) (kind nodeName rawPath : Str)
    (validHosts : List Str) : Option Base :=
  match readFile rawPath with
  | none => none
  | some data =>
    some { Kind := kind, NodeName := nodeName, Conf := data, Hostname := [], IfMaps := [],
           validHosts := validHosts }

/-- The function `NewCat9kv`: creates and configures a new Cat9kv device. -/
def NewCat9kv (readFile : Str → Option Str) (node rawPath : Str) (validHosts : List Str) :
    Option Device :=
  match newBase readFile "cisco_cat9kv".toList node rawPath validHosts with
  | none => none
  | some base => some (.Cat9kv { base with Hostname := ExtractHostname base.Conf })

/-- The function `NewN9kv`: creates and configures a new N9kv device. -/
def NewN9kv (readFile : Str → Option Str) (node rawPath : Str) (validHosts : List Str) :
    Option Device :=
  match newBase readFile "cisco_n9kv".toList node rawPath validHosts with
  | none => none
  | some base => some (.N9kv { base with Hostname := ExtractHostname base.Conf })

/-- The method `RewritePhys` of the two device types. -/
def Device.RewritePhys (d : Device) (devs : List Device) : Option Device :=
  match d with
  | .Cat9kv b =>
    (b.rewritePhys isPhysCat9kv clabIfsCat9kv (some peerDescRECat9kv) devs).map Device.Cat9kv
  | .N9kv b =>
    (b.rewritePhys isPhysN9kv clabIfsN9kv (some peerDescREN9kv) devs).map Device.N9kv

/-- The method `CleanConfig` of the two device types: the device with its
configuration cleaned (the method also returns that text). -/
def Device.CleanConfig (d : Device) : Device :=
  match d with
  | .Cat9kv b => .Cat9kv { b with Conf := b.cleanConfig reDropLineCat9kv reDropBlockCat9kv }
  | .N9kv b => .N9kv { b with Conf := b.cleanConfig reDropLineN9kv reDropBlockN9kv }

/-! ## peer.go -/

/-- The two assignments `PeerNode = ""` and `PeerIf = ""` of `ResolvePeers` on a mapping. -/
def IfMap.cleared (m : IfMap) : IfMap :=
  { m with PeerNode := [], PeerIf := [] }

/-- The device whose mapping slice holds `maps` (a write into the slice of `GetIfMaps`). -/
def Device.setIfMaps (d : Device) (maps : List IfMap) : Device :=
  d.withBase { d.base with IfMaps := maps }

/-- The function `interfaceExists`: whether a specific interface exists on a device. -/
def interfaceExists (dev : Device) (ifName : Str) : Bool :=
  dev.GetIfMaps.any (fun m => decide (m.Clab = ifName ∨ m.Src = ifName))

/-- The first loop of `ResolvePeers`: the map `host2dev`, from a lowered hostname
to the position of the device; `i` is the position of the first device of the list. -/
def buildHost2dev (toLower : Str → Str) :
    List Device → Nat → (Str → Option Nat) → (Str → Option Nat)
  | [], _, host2dev => host2dev
  | d :: ds, i, host2dev =>
    let h := toLower d.GetHostname
    if h ≠ [] then buildHost2dev toLower ds (i + 1) (fun k => if k = h then some i else host2dev k)
    else buildHost2dev toLower ds (i + 1) host2dev

/-- The body of the inner loop of `ResolvePeers` for mapping `i` of device `di`. -/
def resolveStep (toLower : Str → Str) (host2dev : Str → Option Nat) (di i : Nat)
    (devs : List Device) : List Device :=
  match devs[di]? with
  | none => devs
  | some d =>
    match d.GetIfMaps[i]? with
    | none => devs
    | some m =>
      if m.PeerNode = [] then devs
      else
        let ok : Bool :=
          match host2dev (toLower m.PeerNode) with
          | none => false
          | some pi =>
            match devs[pi]? with
            | none => false
            | some pDev => interfaceExists pDev m.PeerIf
        if ok = false then devs.set di (d.setIfMaps (d.GetIfMaps.set i m.cleared))
        else devs

/-- The inner loop of `ResolvePeers` over the mappings of device `di`. -/
def resolveDevice (toLower : Str → Str) (host2dev : Str → Option Nat) (devs : List Device)
    (di : Nat) : List Device :=
  match devs[di]? with
  | none => devs
  | some d =>
    (List.range d.GetIfMaps.length).foldl
      (fun st i => resolveStep toLower host2dev di i st) devs

/-- The function `ResolvePeers`: verifies that each peer node/interface reference
is valid, and clears the peer fields of a mapping whose peer is not; `toLower`
is `strings.ToLower`. -/
def ResolvePeers (toLower : Str → Str) (devs : List Device) : List Device :=
  let host2dev := buildHost2dev toLower devs 0 (fun _ => none)
  (List.range devs.length).foldl (resolveDevice toLower host2dev) devs

/-! ## cmd/labbuild/main.go -/

/-- The struct `rawNode`: a node as described in the input YAML file. -/
structure rawNode where
  Kind : Str
  Image : Str
  RawConfig : Str
deriving DecidableEq, Repr

/-- The struct `topoLink`: a connection between two endpoints. -/
structure topoLink where
  Endpoints : List Str
deriving DecidableEq, Repr

/-- The variable `deviceFactory`: kind names to constructor functions. -/
def deviceFactory (readFile : Str → Option Str) (kind : Str) :
    Option (Str → Str → List Str → Option Device) :=
  if kind = "cisco_cat9kv".toList then some (NewCat9kv readFile)
  else if kind = "cisco_n9kv".toList then some (NewN9kv readFile)
  else none

/-- The function `extractValidHostnames`; `nodes` lists `lab.Topology.Nodes` in
the order of the iteration, and an unreadable file counts as empty. -/
def extractValidHostnames (readFile : Str → Option Str) :
    List (Str × rawNode) → List Str → List Str
  | [], hosts => hosts
  | (_, n) :: rest, hosts =>
    let h := ExtractHostname ((readFile n.RawConfig).getD [])
    if h ≠ [] then extractValidHostnames readFile rest (hosts ++ [h])
    else extractValidHostnames readFile rest hosts

/-- The first loop of `buildDevices`: one device per node. -/
def createDevices (readFile : Str → Option Str) (valid : List Str) :
    List (Str × rawNode) → List Device → Option (List Device)
  | [], devs => some devs
  | (name, n) :: rest, devs =>
    match deviceFactory readFile n.Kind with
    | none => none
    | some factory =>
      match factory name n.RawConfig valid with
      | none => none
      | some dev => createDevices readFile valid rest (devs ++ [dev])

/-- The second loop of `buildDevices`: device `i` is rewritten against the
current state of all devices, then cleaned by `saveConfig`. -/
def rewriteDevices : List Nat → List Device → Option (List Device)
  | [], devs => some devs
  | i :: rest, devs =>
    match devs[i]? with
    | none => none
    | some dev =>
      match dev.RewritePhys devs with
      | none => none
      | some dev1 => rewriteDevices rest (devs.set i dev1.CleanConfig)

/-- The function `buildDevices`: creates and configures all device objects. -/
def buildDevices (readFile : Str → Option Str) (nodes : List (Str × rawNode))
    (valid : List Str) : Option (List Device) :=
  match createDevices readFile valid nodes [] with
  | none => none
  | some devs => rewriteDevices (List.range devs.length) devs

/-- The function `findDeviceByHostname`: the first device with that hostname,
compared by `equalFold` (`strings.EqualFold`). -/
def findDeviceByHostname (equalFold : Str → Str → Bool) (devs : List Device)
    (hostname : Str) : Option Device :=
  devs.find? (fun d => equalFold d.GetHostname hostname)

/-- The function `findClabName`: the clab interface name for a given interface
(by clab or src name). -/
def findClabName (dev : Device) (ifName : Str) : Str :=
  match dev.GetIfMaps.find? (fun m => decide (m.Clab = ifName ∨ m.Src = ifName)) with
  | some m => m.Clab
  | none => []

/-- The function `makeLinkKey`: a consistent key for a pair of endpoints. -/
def makeLinkKey (a b : Str) : Str :=
  if strLt b a then b ++ "|".toList ++ a else a ++ "|".toList ++ b

/-- The variables `seen` and `links` of `collectLinks`. -/
structure linkState where
  seen : List Str := []
  links : List topoLink := []
deriving DecidableEq, Repr

/-- The body of the inner loop of `collectLinks` for mapping `m` of device `d`. -/
def collectStep (equalFold : Str → Str → Bool) (devs : List Device) (d : Device)
    (st : linkState) (m : IfMap) : linkState :=
  if m.PeerNode = [] then st
  else
    match findDeviceByHostname equalFold devs m.PeerNode with
    | none => st
    | some peerDev =>
      let peerClab := findClabName peerDev m.PeerIf
      if peerClab = [] then st
      else
        let ep1 := d.GetNodeName ++ ":".toList ++ m.Clab
        let ep2 := peerDev.GetNodeName ++ ":".toList ++ peerClab
        let key := makeLinkKey ep1 ep2
        if key ∈ st.seen then st
        else { seen := st.seen ++ [key], links := st.links ++ [{ Endpoints := [ep1, ep2] }] }

/-- The loops of `collectLinks`, started from any state and run over `ds`. -/
def collectFrom (equalFold : Str → Str → Bool) (devs : List Device) (ds : List Device)
    (st : linkState) : linkState :=
  ds.foldl (fun st d => d.GetIfMaps.foldl (collectStep equalFold devs d) st) st

/-- The function `collectLinks`: all valid links between devices for topology.yml. -/
def collectLinks (equalFold : Str → Str → Bool) (devs : List Device) : List topoLink :=
  (collectFrom equalFold devs devs {}).links

/-- The sort key of `writeTopology`: `Endpoints[0]+Endpoints[1]`. -/
def sortKey (l : topoLink) : Str :=
  l.Endpoints.getD 0 [] ++ l.Endpoints.getD 1 []

/-- The insertion of a link into a sorted list, after the links that are not greater. -/
def insertLink (l : topoLink) : List topoLink → List topoLink
  | [] => [l]
  | x :: xs => if strLt (sortKey l) (sortKey x) then l :: x :: xs else x :: insertLink l xs

/-- The call `sort.Slice(links, less)` of `writeTopology`, as an insertion sort
(which `sort.Slice` is on at most twelve elements; on more, links with equal
keys may come out in another order). -/
def sortLinks (links : List topoLink) : List topoLink :=
  links.foldl (fun sorted l => insertLink l sorted) []

/-- The links section computed by `writeTopology` (main.go, lines 142-145). -/
def writeTopologyLinks (equalFold : Str → Str → Bool) (devs : List Device) : List topoLink :=
  sortLinks (collectLinks equalFold devs)

/-- The steps of `main` from the lab file to the links of the topology. -/
def labbuild (toLower : Str → Str) (equalFold : Str → Str → Bool)
    (readFile : Str → Option Str) (nodes : List (Str × rawNode)) :
    Option (List Device × List topoLink) :=
  let validHosts := extractValidHostnames readFile nodes []
  match buildDevices readFile nodes validHosts with
  | none => none
  | some devs =>
    let devs1 := ResolvePeers toLower devs
    some (devs1, writeTopologyLinks equalFold devs1)

/-- ASCII instance of `strings.ToLower`, used to run the examples. -/
def asciiToLower (s : Str) : Str :=
  s.map Char.toLower

/-- ASCII instance of `strings.EqualFold`, used to run the examples. -/
def asciiEqualFold (a b : Str) : Bool :=
  decide (asciiToLower a = asciiToLower b)

/-! ## Vocabulary of the statements

The definitions of this section are not part of the sources: they name the
notions the statements are about. -/

/-- A header line: its trimmed text starts with the interface keyword and a space
(the test of base.go, line 126). -/
def isHeader (line : Str) : Bool :=
  hasPrefix (trimSpace line) "interface ".toList

/-- A terminator line: its trimmed text is `!` (the test of base.go, line 136). -/
def isTerminator (line : Str) : Bool :=
  decide (trimSpace line = "!".toList)

/-- The interface name of a header line, `strings.Fields(trim)[1]`. -/
def headerName (line : Str) : Str :=
  ((fields (trimSpace line))[1]?).getD []

/-- What the scanning loop guarantees of a block: it is named, it holds its
header line, and a peer claim comes from a later line of a physical block
read with a pattern. -/
def blockOk (peerDescRE : Option Regexp) (pif : parsedIf) : Prop :=
  pif.ifname ≠ [] ∧ pif.body ≠ [] ∧
    (pif.peerNode ≠ [] → 2 ≤ pif.body.length ∧ peerDescRE ≠ none ∧ pif.phys = true)

/-- The invariant of the scanning loop: the blocks read so far and the open block are well formed. -/
def scanInv (peerDescRE : Option Regexp) (st : scanState) : Prop :=
  (∀ pif ∈ st.allIfs, blockOk peerDescRE pif) ∧ (st.inIf = true → blockOk peerDescRE st.cur)

/-- The line `rewritePhys` puts in place of an interior line of a renamed block
(base.go, lines 208-216, as a total function). -/
def lineRewritten (peerDescRE : Option Regexp) (devs : List Device) (orig : Str) : Str :=
  match peerDescRE with
  | none => orig
  | some re =>
    match re (trimSpace orig) with
    | some m =>
      if findClabNameByPeer devs m.1 m.2 ≠ [] then
        orig.takeWhile (fun c => decide (c = ' ')) ++ "description ".toList ++ m.1 ++ ":".toList ++
          findClabNameByPeer devs m.1 m.2
      else orig
    | none => orig

/-- The lines `rewritePhys` emits for the lines of a renamed block from index `i` on. -/
def bodyRewritten (peerDescRE : Option Regexp) (devs : List Device) (clab : Str) (len : Nat) :
    Nat → List Str → List Str
  | _, [] => []
  | i, orig :: rest =>
    (if i = 0 then "interface ".toList ++ clab
     else if i + 1 = len then "!".toList
     else lineRewritten peerDescRE devs orig) :: bodyRewritten peerDescRE devs clab len (i + 1) rest

/-- The blocks that reach the output, in source order, each renamed block with
its clab name; `k` is the number of pool entries already used. -/
def blocksEmitted (validHosts : List Str) (clabIfs : List Str) :
    List parsedIf → Nat → List (parsedIf × Option Str)
  | [], _ => []
  | pif :: rest, k =>
    if qualifies validHosts pif = true then
      match clabIfs[k]? with
      | some clab => (pif, some clab) :: blocksEmitted validHosts clabIfs rest (k + 1)
      | none => blocksEmitted validHosts clabIfs rest k
    else if pif.phys = true then blocksEmitted validHosts clabIfs rest k
    else (pif, none) :: blocksEmitted validHosts clabIfs rest k

/-- The mapping recorded for an emitted block, if it is renamed. -/
def mappingOf (e : parsedIf × Option Str) : Option IfMap :=
  e.2.map (fun clab =>
    { Clab := clab, Src := e.1.ifname, PeerNode := e.1.peerNode, PeerIf := e.1.peerIf })

/-- The output lines of an emitted block. -/
def linesOf (peerDescRE : Option Regexp) (devs : List Device) (e : parsedIf × Option Str) :
    List Str :=
  match e.2 with
  | some clab => bodyRewritten peerDescRE devs clab e.1.body.length 0 e.1.body
  | none => e.1.body

/-- The blocks that qualify for a clab name, in source order: the physical blocks
with a peer claim whose hostname is a valid host. -/
def qualifyingBlocks (validHosts : List Str) (allIfs : List parsedIf) : List parsedIf :=
  allIfs.filter (qualifies validHosts)

/-- The device found for a hostname by the case-insensitive lookup of
`ResolvePeers`: the last device of the list whose lowered hostname is not
empty and equals the lowered hostname asked for. -/
def lookupHost (toLower : Str → Str) (devs : List Device) (hostname : Str) : Option Device :=
  devs.reverse.find? (fun d =>
    decide (toLower d.GetHostname ≠ [] ∧ toLower d.GetHostname = toLower hostname))

/-- A peer claim resolves: a device is found for the peer hostname, and it has a
mapping whose `Clab` or `Src` is the claimed peer interface. -/
def peerResolves (toLower : Str → Str) (devs : List Device) (m : IfMap) : Bool :=
  match lookupHost toLower devs m.PeerNode with
  | none => false
  | some pDev => interfaceExists pDev m.PeerIf

/-- The mapping after `ResolvePeers`: cleared when its claim does not resolve. -/
def resolvedMapping (toLower : Str → Str) (devs : List Device) (m : IfMap) : IfMap :=
  if m.PeerNode ≠ [] ∧ peerResolves toLower devs m = false then m.cleared else m

/-- The device after `ResolvePeers`. -/
def resolvedDevice (toLower : Str → Str) (devs : List Device) (d : Device) : Device :=
  d.setIfMaps (d.GetIfMaps.map (resolvedMapping toLower devs))

/-- The interface names of a device, which `ResolvePeers` never changes. -/
def ifNames (d : Device) : List (Str × Str) :=
  d.GetIfMaps.map (fun m => (m.Clab, m.Src))

/-- The dedup key of a link, `makeLinkKey` of its two endpoints. -/
def linkKey (l : topoLink) : Str :=
  makeLinkKey (l.Endpoints.getD 0 []) (l.Endpoints.getD 1 [])

/-- Two links have the same unordered pair of endpoints. -/
def samePair (l1 l2 : topoLink) : Prop :=
  ∃ a b, l1.Endpoints = [a, b] ∧ (l2.Endpoints = [a, b] ∨ l2.Endpoints = [b, a])

/-- A link joins the endpoints `e1` and `e2`, in either order. -/
def joins (e1 e2 : Str) (l : topoLink) : Bool :=
  decide (l.Endpoints = [e1, e2] ∨ l.Endpoints = [e2, e1])

/-- The invariant of the loops of `collectLinks`: `seen` holds the keys of the
links collected, without repetition, and every link has two endpoints. -/
def linkInv (st : linkState) : Prop :=
  st.seen = st.links.map linkKey ∧ st.seen.Nodup ∧ ∀ l ∈ st.links, ∃ a b, l.Endpoints = [a, b]

/-- The endpoints of a link come from the device list: the first is a node name
and the clab name of one of its mappings, the second the node name of the peer
found for that mapping and the clab name found on it. -/
def linkFrom (equalFold : Str → Str → Bool) (devs : List Device) (l : topoLink) : Prop :=
  ∃ d ∈ devs, ∃ m ∈ d.GetIfMaps, ∃ p, findDeviceByHostname equalFold devs m.PeerNode = some p ∧
    findClabName p m.PeerIf ≠ [] ∧
    l.Endpoints = [d.GetNodeName ++ ":".toList ++ m.Clab,
                   p.GetNodeName ++ ":".toList ++ findClabName p m.PeerIf]

/-! ## Example inputs -/

/-- A raw configuration with one data port, connected to port `Ethernet1/7` of host `peer`. -/
def exConfN9kv (host peer : String) : Str :=
  ("hostname " ++ host ++ "\ninterface Ethernet1/7\n description " ++ peer
    ++ ":Ethernet1/7\n no shutdown\n!\n").toList

/-- A lab of four cisco_n9kv nodes, connected in two pairs; two of the node names contain a bar. -/
def exBarNodes : List (Str × rawNode) :=
  [("a".toList, { Kind := "cisco_n9kv".toList, Image := "n9kv".toList, RawConfig := "a.cfg".toList }),
   ("b:Ethernet1/1|c".toList,
     { Kind := "cisco_n9kv".toList, Image := "n9kv".toList, RawConfig := "b.cfg".toList }),
   ("a:Ethernet1/1|b".toList,
     { Kind := "cisco_n9kv".toList, Image := "n9kv".toList, RawConfig := "c.cfg".toList }),
   ("c".toList, { Kind := "cisco_n9kv".toList, Image := "n9kv".toList, RawConfig := "d.cfg".toList })]

/-- The raw configuration files of the four nodes of `exBarNodes`. -/
def exBarFiles (path : Str) : Option Str :=
  if path = "a.cfg".toList then some (exConfN9kv "ha" "hb")
  else if path = "b.cfg".toList then some (exConfN9kv "hb" "ha")
  else if path = "c.cfg".toList then some (exConfN9kv "hc" "hd")
  else if path = "d.cfg".toList then some (exConfN9kv "hd" "hc")
  else none

/-- A cisco_n9kv device after `rewritePhys` and `CleanConfig` of a configuration
`exConfN9kv host peer`; `shown` is the peer interface named by its description
line and `valid` the valid hostnames of the lab. -/
def exDevN9kv (valid : List String) (node host peer shown : String) : Device :=
  .N9kv { Kind := "cisco_n9kv".toList, NodeName := node.toList,
          Conf := ("hostname " ++ host ++ "\ninterface Ethernet1/1\n description " ++ peer
            ++ ":" ++ shown ++ "\n no shutdown\n!").toList,
          Hostname := host.toList,
          IfMaps := [{ Clab := "Ethernet1/1".toList, Src := "Ethernet1/7".toList,
                       PeerNode := peer.toList, PeerIf := "Ethernet1/7".toList }],
          validHosts := valid.map String.toList }

/-- The device list built and resolved from the lab `exBarNodes`. -/
def exBarDevs : List Device :=
  [exDevN9kv ["ha", "hb", "hc", "hd"] "a" "ha" "hb" "Ethernet1/7",
   exDevN9kv ["ha", "hb", "hc", "hd"] "b:Ethernet1/1|c" "hb" "ha" "Ethernet1/1",
   exDevN9kv ["ha", "hb", "hc", "hd"] "a:Ethernet1/1|b" "hc" "hd" "Ethernet1/7",
   exDevN9kv ["ha", "hb", "hc", "hd"] "c" "hd" "hc" "Ethernet1/1"]

/-- The device list built and resolved from the lab `exPairNodes`: two nodes
connected to each other. -/
def exPairDevs : List Device :=
  [exDevN9kv ["ha", "hb"] "spine1" "ha" "hb" "Ethernet1/7",
   exDevN9kv ["ha", "hb"] "leaf1" "hb" "ha" "Ethernet1/1"]

/-- The device list built and resolved from the lab `exPairNodes` met in the other order. -/
def exPairDevsRev : List Device :=
  [exDevN9kv ["hb", "ha"] "leaf1" "hb" "ha" "Ethernet1/7",
   exDevN9kv ["hb", "ha"] "spine1" "ha" "hb" "Ethernet1/1"]

/-- A lab of two cisco_n9kv nodes connected to each other, listed in the order
in which `buildDevices` meets them. -/
def exPairNodes : List (Str × rawNode) :=
  [("spine1".toList,
     { Kind := "cisco_n9kv".toList, Image := "n9kv".toList, RawConfig := "a.cfg".toList }),
   ("leaf1".toList,
     { Kind := "cisco_n9kv".toList, Image := "n9kv".toList, RawConfig := "b.cfg".toList })]

/-- The lines of a well-delimited block: its header, its body and its terminator. -/
def blockLines (b : Str × List Str × Str) : List Str :=
  b.1 :: b.2.1 ++ [b.2.2]

/-- A well-delimited block of an interface that is not physical: a header line
naming such an interface, body lines that are neither headers nor terminators,
and a terminator line. -/
def closedPlainBlock (isPhys : Str → Bool) (b : Str × List Str × Str) : Prop :=
  isHeader b.1 = true ∧ isPhys (headerName b.1) = false ∧
    (∀ l ∈ b.2.1, isHeader l = false ∧ isTerminator l = false) ∧ isTerminator b.2.2 = true

/-- A configuration without physical interface: global lines, an interface block, a global line. -/
def exConfGlobalAfter : Str :=
  "hostname ha\ninterface Loopback0\n ip address 10.0.0.1/32\n!\nrouter ospf 1\n".toList

/-- A configuration without physical interface whose global lines all come first. -/
def exConfGlobalFirst : Str :=
  ("hostname ha\n!\ninterface Loopback0\n ip address 10.0.0.1/32\n!\n" ++
    "interface mgmt0\n vrf member management\n!\n").toList

/-- A configuration of a cisco_n9kv device with two closed physical blocks, the
first without peer claim and the second claiming a host `hz` that is not valid. -/
def exConfUnlinked : Str :=
  ("hostname ha\ninterface Ethernet1/5\n no shutdown\n!\n" ++
    "interface Ethernet1/6\n description hz:Ethernet1/1\n!\n").toList

/-- A configuration of a cisco_n9kv device whose last block, physical and without
peer claim, is still open at the end of the input. -/
def exConfOpenPhys : Str :=
  "hostname ha\ninterface Ethernet1/5\n no shutdown".toList

/-- A configuration whose last block, of an interface that is not physical, is
still open at the end of the input. -/
def exConfOpenPlain : Str :=
  "hostname ha\ninterface Loopback0\n ip address 10.0.0.1/32".toList

/-- The peer claim a pattern extracts from the lines of a block: the submatches
of the first line that matches. -/
def firstClaim (re : Regexp) (body : List Str) : Option (Str × Str) :=
  body.findSome? re

/-- The peer claim recorded for a block is the first claim of its lines when the
block is physical, and none when it is not. -/
def claimOk (re : Regexp) (pif : parsedIf) : Prop :=
  (pif.peerNode, pif.peerIf) =
    if pif.phys = true then (firstClaim re pif.body).getD ([], []) else ([], [])

/-- The invariant of the scanning loop for peer claims: the claim recorded for
every block read so far, and for the open block, is the first claim of its lines. -/
def claimInv (re : Regexp) (st : scanState) : Prop :=
  (∀ pif ∈ st.allIfs, claimOk re pif) ∧ (st.inIf = true → claimOk re st.cur)

/-- A configuration of a cisco_n9kv device whose data ports are listed in the
order `Ethernet1/2`, `Ethernet1/1`, both connected to the host `hb`. -/
def exConfSwapped : Str :=
  ("hostname ha\ninterface Ethernet1/2\n description hb:Ethernet1/7\n!\n" ++
    "interface Ethernet1/1\n description hb:Ethernet1/8\n!\n").toList

/-- The cisco_n9kv device of node `n1` with the configuration `exConfSwapped`, before `RewritePhys`. -/
def exDevSwapped : Device :=
  .N9kv { Kind := "cisco_n9kv".toList, NodeName := "n1".toList, Conf := exConfSwapped,
          Hostname := "ha".toList, IfMaps := [], validHosts := ["ha".toList, "hb".toList] }

/-- The mappings of `exDevSwapped` after `RewritePhys`. -/
def exSwappedMaps : List IfMap :=
  [{ Clab := "Ethernet1/1".toList, Src := "Ethernet1/2".toList,
     PeerNode := "hb".toList, PeerIf := "Ethernet1/7".toList },
   { Clab := "Ethernet1/2".toList, Src := "Ethernet1/1".toList,
     PeerNode := "hb".toList, PeerIf := "Ethernet1/8".toList }]

/-- A link is produced by a mapping with a peer claim: its first endpoint is the
node name and clab name of a mapping `m` with a non-empty `PeerNode`, its
second endpoint the node name of the device found for `m.PeerNode` and the
clab name found on it for `m.PeerIf`. -/
def linkOfClaim (equalFold : Str → Str → Bool) (devs : List Device) (l : topoLink) : Prop :=
  ∃ d ∈ devs, ∃ m ∈ d.GetIfMaps, ∃ p ∈ devs, m.PeerNode ≠ [] ∧
    findDeviceByHostname equalFold devs m.PeerNode = some p ∧
    findClabName p m.PeerIf ≠ [] ∧
    l.Endpoints = [d.GetNodeName ++ ":".toList ++ m.Clab,
                   p.GetNodeName ++ ":".toList ++ findClabName p m.PeerIf]

/-- A lab of one cisco_n9kv node whose data port is described as connected to itself. -/
def exSelfNodes : List (Str × rawNode) :=
  [("a".toList, { Kind := "cisco_n9kv".toList, Image := "n9kv".toList, RawConfig := "a.cfg".toList })]

/-- The raw configuration file of the node of `exSelfNodes`. -/
def exSelfFiles (path : Str) : Option Str :=
  if path = "a.cfg".toList then some (exConfN9kv "ha" "ha") else none

/-- The device list built and resolved from the lab `exSelfNodes`. -/
def exSelfDevs : List Device :=
  [exDevN9kv ["ha"] "a" "ha" "ha" "Ethernet1/7"]

/-- The lines of a text: the pieces between line feeds, an empty last piece not
being a line, each without its trailing carriage return. -/
def textLines (s : Str) : List Str :=
  let pieces := splitOnNL s
  (if pieces.getLast? = some [] then pieces.dropLast else pieces).map dropCR

/-- Every line of the text, its carriage return included, is shorter than the
token size limit of the scanner (64 KiB). -/
def linesFit (s : Str) : Bool :=
  (splitOnNL s).all (fun p => decide (byteLen p < maxScanTokenSize))

/-- The lines of a list that lie outside every interface block, in order; `inIf`
tells whether a block is open before the first line.  A block runs from a
header line to the next terminator line, to the line before the next header
line, or to the end of the list. -/
def globalOf : Bool → List Str → List Str
  | _, [] => []
  | inIf, l :: ls =>
    if isHeader l = true then globalOf true ls
    else if inIf = true then globalOf (!isTerminator l) ls
    else l :: globalOf false ls

/-- The lines of a list that lie inside an interface block, in order. -/
def blockLinesOf : Bool → List Str → List Str
  | _, [] => []
  | inIf, l :: ls =>
    if isHeader l = true then l :: blockLinesOf true ls
    else if inIf = true then l :: blockLinesOf (!isTerminator l) ls
    else blockLinesOf false ls

/-- A text whose first line has 65536 bytes and whose second line is `hostname r1`. -/
def exConfLongLine : Str :=
  List.replicate 65536 'a' ++ "\nhostname r1\n".toList

/-! # Theorems -/

/-! ## Library functions -/

/-- The first field is non-empty when a field is being read or a non-space character follows. -/
theorem fieldsGo_head (s cur : Str) (h : cur ≠ [] ∨ ∃ c ∈ s, isSpace c = false) :
    ∃ f fs, fieldsGo s cur = f :: fs ∧ f ≠ [] := by
  induction s generalizing cur with
  | nil =>
    rcases h with h | ⟨c, hc, _⟩
    · exact ⟨cur, [], by simp [fieldsGo, h], h⟩
    · simp at hc
  | cons a s ih =>
    by_cases ha : isSpace a = true
    · by_cases hcur : cur = []
      · have : ∃ c ∈ s, isSpace c = false := by
          rcases h with h | ⟨c, hc, hcs⟩
          · exact absurd hcur h
          · rcases List.mem_cons.1 hc with rfl | hc
            · simp [ha] at hcs
            · exact ⟨c, hc, hcs⟩
        obtain ⟨f, fs, h1, h2⟩ := ih [] (Or.inr this)
        exact ⟨f, fs, by simp [fieldsGo, ha, hcur, h1], h2⟩
      · exact ⟨cur, fieldsGo s [], by simp [fieldsGo, ha, hcur], hcur⟩
    · obtain ⟨f, fs, h1, h2⟩ := ih (cur ++ [a]) (Or.inl (by simp))
      exact ⟨f, fs, by simp [fieldsGo, ha, h1], h2⟩

/-- A trimmed string does not end in a space. -/
theorem trimSpace_getLast (s : Str) (h : trimSpace s ≠ []) :
    isSpace ((trimSpace s).getLast h) = false := by
  have := List.rdropWhile_last_not isSpace (s.dropWhile isSpace) h
  simpa [trimSpace] using this

/-- A line whose trimmed text starts with the interface keyword and a space has a
non-empty second field, so the index `[1]` of `rewritePhys` is in range. -/
theorem header_name (line : Str) (h : hasPrefix (trimSpace line) "interface ".toList = true) :
    ∃ name, (fields (trimSpace line))[1]? = some name ∧ name ≠ [] := by
  obtain ⟨rest, hrest⟩ : ∃ rest, trimSpace line = "interface ".toList ++ rest := by
    have := List.isPrefixOf_iff_prefix.1 h
    obtain ⟨r, hr⟩ := this
    exact ⟨r, hr.symm⟩
  have hne : trimSpace line ≠ [] := by rw [hrest]; simp
  have hlast := trimSpace_getLast line hne
  have hex : ∃ c ∈ rest, isSpace c = false := by
    rcases List.eq_nil_or_concat rest with hr | ⟨r, c, hr⟩
    · subst hr
      exfalso
      have hl : (trimSpace line).getLast? = some ' ' := by rw [hrest]; rfl
      rw [List.getLast?_eq_getLast _ hne] at hl
      rw [Option.some.inj hl] at hlast
      revert hlast
      decide
    · refine ⟨c, by simp [hr], ?_⟩
      have : (trimSpace line).getLast hne = c := by
        simp [hrest, hr]
      rw [this] at hlast
      exact hlast
  obtain ⟨f, fs, h1, h2⟩ := fieldsGo_head rest [] (Or.inr hex)
  refine ⟨f, ?_, h2⟩
  have : fields (trimSpace line) = "interface".toList :: fieldsGo rest [] := by
    rw [hrest]; rfl
  rw [this, h1]; simp

/-- The indentation slice of `rewritePhys` is in range, and is the leading spaces. -/
theorem sliceTo_indent (orig : Str) :
    sliceTo orig ((orig.length : Int) - ((trimLeftSpaces orig).length : Int))
      = some (orig.takeWhile (fun c => decide (c = ' '))) := by
  have hle : (trimLeftSpaces orig).length ≤ orig.length := by
    unfold trimLeftSpaces
    exact (List.dropWhile_sublist _).length_le
  have hsplit := List.takeWhile_append_dropWhile (fun c => decide (c = ' ')) orig
  have hlen : (orig.takeWhile (fun c => decide (c = ' '))).length
      = orig.length - (trimLeftSpaces orig).length := by
    have := congrArg List.length hsplit
    simp only [List.length_append] at this
    unfold trimLeftSpaces
    omega
  unfold sliceTo
  have h1 : (0 : Int) ≤ (orig.length : Int) - ((trimLeftSpaces orig).length : Int) := by omega
  have h2 : (orig.length : Int) - ((trimLeftSpaces orig).length : Int) ≤ (orig.length : Int) := by
    omega
  rw [if_pos ⟨h1, h2⟩]
  congr 1
  have h3 : ((orig.length : Int) - ((trimLeftSpaces orig).length : Int)).toNat
      = (orig.takeWhile (fun c => decide (c = ' '))).length := by
    rw [hlen]; omega
  rw [h3]
  have h4 := @List.take_left' _ (orig.takeWhile (fun c => decide (c = ' ')))
    (orig.dropWhile (fun c => decide (c = ' '))) _ rfl
  rwa [hsplit] at h4

/-! ## The scanning loop of `rewritePhys` -/

/-- On a header line the scanning step closes the open block and opens a new one. -/
theorem scanStep_header (isPhys : Str → Bool) (re : Option Regexp) (st : scanState) (line : Str)
    (h : isHeader line = true) :
    headerName line ≠ [] ∧
    scanStep isPhys re st line = some
      { allIfs := flushCur st, globalLines := st.globalLines,
        cur := { ifname := headerName line, body := [line], phys := isPhys (headerName line) },
        inIf := true } := by
  obtain ⟨name, h1, h2⟩ := header_name line h
  have hn : headerName line = name := by simp [headerName, h1]
  refine ⟨by rw [hn]; exact h2, ?_⟩
  unfold isHeader at h
  simp only [scanStep, h, if_true, h1, hn]

/-- On a terminator line inside a block the scanning step closes the block. -/
theorem scanStep_terminator (isPhys : Str → Bool) (re : Option Regexp) (st : scanState)
    (line : Str) (h : isHeader line = false) (hin : st.inIf = true)
    (ht : isTerminator line = true) :
    scanStep isPhys re st line = some
      { allIfs := st.allIfs ++ [{ st.cur with body := st.cur.body ++ [line] }],
        globalLines := st.globalLines, cur := {}, inIf := false } := by
  unfold isHeader at h
  unfold isTerminator at ht
  have ht1 : trimSpace line = "!".toList := of_decide_eq_true ht
  simp only [scanStep]
  rw [if_neg (by rw [h]; exact Bool.false_ne_true), if_pos ⟨hin, ht1⟩]

/-- On any other line inside a block the scanning step extends the open block. -/
theorem scanStep_body (isPhys : Str → Bool) (re : Option Regexp) (st : scanState)
    (line : Str) (h : isHeader line = false) (hin : st.inIf = true)
    (ht : isTerminator line = false) :
    ∃ cur, scanStep isPhys re st line = some { st with cur := cur } ∧
      cur.ifname = st.cur.ifname ∧ cur.body = st.cur.body ++ [line] ∧
      cur.phys = st.cur.phys ∧
      (st.cur.peerNode ≠ [] → cur.peerNode = st.cur.peerNode ∧ cur.peerIf = st.cur.peerIf) ∧
      (cur.peerNode ≠ st.cur.peerNode → re ≠ none ∧ st.cur.phys = true) := by
  unfold isHeader at h
  unfold isTerminator at ht
  have ht1 : trimSpace line ≠ "!".toList := of_decide_eq_false ht
  have e : scanStep isPhys re st line =
      (match re with
       | some r =>
         if st.cur.peerNode = [] ∧ st.cur.phys = true then
           match r line with
           | some m => some { st with cur := { st.cur with body := st.cur.body ++ [line],
                                                             peerNode := m.1, peerIf := m.2 } }
           | none => some { st with cur := { st.cur with body := st.cur.body ++ [line] } }
         else some { st with cur := { st.cur with body := st.cur.body ++ [line] } }
       | none => some { st with cur := { st.cur with body := st.cur.body ++ [line] } }) := by
    simp only [scanStep]
    rw [if_neg (by rw [h]; exact Bool.false_ne_true), if_neg (fun hc => ht1 hc.2), if_pos hin]
  rw [e]
  cases re with
  | none =>
    exact ⟨{ st.cur with body := st.cur.body ++ [line] }, rfl,
      rfl, rfl, rfl, fun _ => ⟨rfl, rfl⟩, fun hc => absurd rfl hc⟩
  | some r =>
    by_cases hq : st.cur.peerNode = [] ∧ st.cur.phys = true
    · cases hm : r line with
      | none =>
        exact ⟨{ st.cur with body := st.cur.body ++ [line] },
          by simp only [hm, if_pos hq],
          rfl, rfl, rfl, fun _ => ⟨rfl, rfl⟩, fun hc => absurd rfl hc⟩
      | some m =>
        exact ⟨{ st.cur with body := st.cur.body ++ [line], peerNode := m.1, peerIf := m.2 },
          by simp only [hm, if_pos hq],
          rfl, rfl, rfl, fun hc => absurd hq.1 hc, fun _ => ⟨by simp, hq.2⟩⟩
    · exact ⟨{ st.cur with body := st.cur.body ++ [line] },
        by simp only [if_neg hq],
        rfl, rfl, rfl, fun _ => ⟨rfl, rfl⟩, fun hc => absurd rfl hc⟩

/-- Outside a block a line that is not a header is a global line. -/
theorem scanStep_global (isPhys : Str → Bool) (re : Option Regexp) (st : scanState)
    (line : Str) (h : isHeader line = false) (hin : st.inIf = false) :
    scanStep isPhys re st line = some { st with globalLines := st.globalLines ++ [line] } := by
  unfold isHeader at h
  simp only [scanStep]
  rw [if_neg (by rw [h]; exact Bool.false_ne_true), if_neg (by simp [hin]), if_neg (by simp [hin])]

/-- The scanning step never panics. -/
theorem scanStep_some (isPhys : Str → Bool) (re : Option Regexp) (st : scanState) (line : Str) :
    ∃ st1, scanStep isPhys re st line = some st1 := by
  cases h : isHeader line with
  | true => exact ⟨_, (scanStep_header isPhys re st line h).2⟩
  | false =>
    cases hin : st.inIf with
    | false => exact ⟨_, scanStep_global isPhys re st line h hin⟩
    | true =>
      cases ht : isTerminator line with
      | true => exact ⟨_, scanStep_terminator isPhys re st line h hin ht⟩
      | false =>
        obtain ⟨cur, hc, _⟩ := scanStep_body isPhys re st line h hin ht
        exact ⟨_, hc⟩

/-- The scanning loop never panics. -/
theorem scanLoop_some (isPhys : Str → Bool) (re : Option Regexp) (lines : List Str)
    (st : scanState) : ∃ st1, scanLoop isPhys re lines st = some st1 := by
  induction lines generalizing st with
  | nil => exact ⟨st, rfl⟩
  | cons line rest ih =>
    obtain ⟨st1, h1⟩ := scanStep_some isPhys re st line
    obtain ⟨st2, h2⟩ := ih st1
    exact ⟨st2, by simp [scanLoop, h1, h2]⟩

/-- Scanning two runs of lines in a row is scanning the first, then the second. -/
theorem scanLoop_append (isPhys : Str → Bool) (re : Option Regexp) (l1 l2 : List Str)
    (st st1 : scanState) (h : scanLoop isPhys re l1 st = some st1) :
    scanLoop isPhys re (l1 ++ l2) st = scanLoop isPhys re l2 st1 := by
  induction l1 generalizing st with
  | nil =>
    simp only [scanLoop, Option.some.injEq] at h
    subst h
    rfl
  | cons line rest ih =>
    obtain ⟨s1, hs1⟩ := scanStep_some isPhys re st line
    simp only [scanLoop, hs1] at h
    simp only [List.cons_append, scanLoop, hs1]
    exact ih s1 h

/-- The blocks of a state that satisfies the invariant, the open one included, are well formed. -/
theorem flushCur_ok (re : Option Regexp) (st : scanState) (h : scanInv re st) :
    ∀ pif ∈ flushCur st, blockOk re pif := by
  intro pif hp
  unfold flushCur at hp
  split at hp
  · rename_i hc
    rcases List.mem_append.1 hp with hp | hp
    · exact h.1 pif hp
    · simp only [List.mem_singleton] at hp
      subst hp
      exact h.2 hc.1
  · exact h.1 pif hp

/-- The scanning step keeps the invariant. -/
theorem scanStep_inv (isPhys : Str → Bool) (re : Option Regexp) (st st1 : scanState)
    (line : Str) (hinv : scanInv re st) (h : scanStep isPhys re st line = some st1) :
    scanInv re st1 := by
  cases hh : isHeader line with
  | true =>
    obtain ⟨hn, he⟩ := scanStep_header isPhys re st line hh
    rw [he] at h
    simp only [Option.some.injEq] at h
    subst h
    refine ⟨flushCur_ok re st hinv, fun _ => ⟨hn, by simp, fun hc => absurd rfl hc⟩⟩
  | false =>
    cases hin : st.inIf with
    | false =>
      rw [scanStep_global isPhys re st line hh hin] at h
      simp only [Option.some.injEq] at h
      subst h
      exact ⟨hinv.1, fun hc => by simp [hin] at hc⟩
    | true =>
      have hcur := hinv.2 hin
      cases ht : isTerminator line with
      | true =>
        rw [scanStep_terminator isPhys re st line hh hin ht] at h
        simp only [Option.some.injEq] at h
        subst h
        refine ⟨?_, fun hc => by simp at hc⟩
        intro pif hp
        rcases List.mem_append.1 hp with hp | hp
        · exact hinv.1 pif hp
        · simp only [List.mem_singleton] at hp
          subst hp
          refine ⟨hcur.1, by simp, fun hc => ?_⟩
          obtain ⟨h2, h3, h4⟩ := hcur.2.2 hc
          exact ⟨by simp only [List.length_append, List.length_singleton]; omega, h3, h4⟩
      | false =>
        obtain ⟨cur, hc, c1, c2, c3, c4, c5⟩ := scanStep_body isPhys re st line hh hin ht
        rw [hc] at h
        simp only [Option.some.injEq] at h
        subst h
        refine ⟨hinv.1, fun _ => ⟨by rw [c1]; exact hcur.1, by rw [c2]; simp, fun hp => ?_⟩⟩
        have hlen : 2 ≤ cur.body.length := by
          have := List.length_pos.2 hcur.2.1
          rw [c2]
          simp only [List.length_append, List.length_singleton]
          omega
        by_cases hsame : cur.peerNode = st.cur.peerNode
        · obtain ⟨_, h3, h4⟩ := hcur.2.2 (by rw [← hsame]; exact hp)
          exact ⟨hlen, h3, by rw [c3]; exact h4⟩
        · obtain ⟨h3, h4⟩ := c5 hsame
          exact ⟨hlen, h3, by rw [c3]; exact h4⟩

/-- The scanning loop keeps the invariant. -/
theorem scanLoop_inv (isPhys : Str → Bool) (re : Option Regexp) (lines : List Str)
    (st st1 : scanState) (hinv : scanInv re st) (h : scanLoop isPhys re lines st = some st1) :
    scanInv re st1 := by
  induction lines generalizing st with
  | nil =>
    simp only [scanLoop, Option.some.injEq] at h
    subst h
    exact hinv
  | cons line rest ih =>
    obtain ⟨s1, hs1⟩ := scanStep_some isPhys re st line
    simp only [scanLoop, hs1] at h
    exact ih s1 (scanStep_inv isPhys re st s1 line hinv hs1) h

/-- The parser never panics, and every block it delivers is well formed. -/
theorem parseConf_some (isPhys : Str → Bool) (re : Option Regexp) (conf : Str) :
    ∃ allIfs globalLines, parseConf isPhys re conf = some (allIfs, globalLines) ∧
      ∀ pif ∈ allIfs, blockOk re pif := by
  obtain ⟨st, hst⟩ := scanLoop_some isPhys re (scanLines conf) {}
  refine ⟨flushCur st, st.globalLines, by simp [parseConf, hst], ?_⟩
  apply flushCur_ok
  apply scanLoop_inv isPhys re (scanLines conf) {} st _ hst
  exact ⟨fun pif hp => by simp at hp, fun hc => by simp at hc⟩

/-! ## The assignment loop and the output loop of `rewritePhys` -/

/-- With a pattern, the rewriting of a line never panics. -/
theorem rewriteLine_some (re : Regexp) (devs : List Device) (orig : Str) :
    rewriteLine (some re) devs orig = some (lineRewritten (some re) devs orig) := by
  simp only [rewriteLine, lineRewritten]
  cases hm : re (trimSpace orig) with
  | none => rfl
  | some m =>
    by_cases hc : findClabNameByPeer devs m.1 m.2 = []
    · simp only [ne_eq, hc, not_true_eq_false, if_false]
    · simp only [ne_eq, hc, not_false_eq_true, if_true, sliceTo_indent]

/-- With a pattern, the loop over the body of a renamed block never panics. -/
theorem rewriteBody_some (re : Regexp) (devs : List Device) (clab : Str) (len i : Nat)
    (body out : List Str) :
    rewriteBody (some re) devs clab len i body out
      = some (out ++ bodyRewritten (some re) devs clab len i body) := by
  induction body generalizing i out with
  | nil => simp [rewriteBody, bodyRewritten]
  | cons orig rest ih =>
    simp only [rewriteBody, rewriteLine_some, bodyRewritten]
    by_cases h0 : i = 0
    · simp only [h0, if_true, ih, List.append_assoc, List.singleton_append]
    · by_cases h1 : i + 1 = len
      · have h1i : (i : Int) = (len : Int) - 1 := by omega
        simp only [h0, if_false, h1, h1i, if_true, ih, List.append_assoc, List.singleton_append]
      · have h1i : ¬ (i : Int) = (len : Int) - 1 := by omega
        simp only [h0, if_false, h1, h1i, ih, List.append_assoc, List.singleton_append]

/-- A pool entry below the pool size is in range. -/
theorem pool_entry (clabIfs : List Str) (k : Nat) (h : ¬ k ≥ clabIfs.length) :
    ∃ clab, clabIfs[k]? = some clab := by
  have hk : k < clabIfs.length := by omega
  exact ⟨clabIfs[k], List.getElem?_eq_getElem hk⟩

/-- The assignment loop never panics: it records the mappings of the renamed blocks. -/
theorem assignLoop_some (vh clabIfs : List Str) (ifs : List parsedIf) (k : Nat)
    (acc : List IfMap) :
    assignLoop vh clabIfs ifs k acc
      = some (acc ++ (blocksEmitted vh clabIfs ifs k).filterMap mappingOf) := by
  induction ifs generalizing k acc with
  | nil => simp [assignLoop, blocksEmitted]
  | cons pif rest ih =>
    unfold assignLoop blocksEmitted
    by_cases hp : pif.phys = false
    · have hq : qualifies vh pif = false := by simp [qualifies, hp]
      simp only [hp, if_true, hq, Bool.false_eq_true, if_false, List.filterMap_cons, mappingOf,
        Option.map_none', ih]
    · have hp1 : pif.phys = true := by simpa using hp
      by_cases hpeer : pif.peerNode = [] ∨ pif.peerIf = []
      · have hq : qualifies vh pif = false := by simp [qualifies, hpeer]
        simp only [hp1, Bool.true_eq_false, if_false, hpeer, if_true, hq, Bool.false_eq_true, ih]
      · by_cases hv : pif.peerNode ∉ vh
        · have hq : qualifies vh pif = false := by simp [qualifies, hv]
          simp only [hp1, Bool.true_eq_false, if_false, hpeer, hv, not_false_eq_true, if_true, hq,
            Bool.false_eq_true, ih]
        · have hq : qualifies vh pif = true := by
            simp only [qualifies, decide_eq_true_eq]
            exact ⟨hp1, hpeer, by simpa using hv⟩
          by_cases hk : k ≥ clabIfs.length
          · have hnone : clabIfs[k]? = none := List.getElem?_eq_none hk
            have hrest : ∀ (l : List parsedIf),
                (blocksEmitted vh clabIfs l k).filterMap mappingOf = [] := by
              intro l
              induction l with
              | nil => simp [blocksEmitted]
              | cons a l ihl =>
                unfold blocksEmitted
                split
                · simp only [hnone, ihl]
                · split
                  · exact ihl
                  · simp only [List.filterMap_cons, mappingOf, Option.map_none', ihl]
            simp only [hp1, Bool.true_eq_false, if_false, hpeer, hv, hk, if_true, hq, hnone,
              hrest, List.append_nil]
          · obtain ⟨clab, hclab⟩ := pool_entry clabIfs k hk
            simp only [hp1, Bool.true_eq_false, if_false, hpeer, hv, hk, hq, if_true, hclab, ih,
              List.filterMap_cons, mappingOf, Option.map_some', List.append_assoc,
              List.singleton_append]

/-- The output loop never panics when every peer claim was read with a pattern:
it appends the lines of the emitted blocks. -/
theorem outputLoop_some (vh clabIfs : List Str) (re : Option Regexp) (devs : List Device)
    (ifs : List parsedIf) (k : Nat) (out : List Str)
    (hre : ∀ pif ∈ ifs, pif.peerNode ≠ [] → re ≠ none) :
    outputLoop vh clabIfs re devs ifs k out
      = some (out ++ ((blocksEmitted vh clabIfs ifs k).map (linesOf re devs)).flatten) := by
  induction ifs generalizing k out with
  | nil => simp [outputLoop, blocksEmitted]
  | cons pif rest ih =>
    have ihr := fun k out => ih k out (fun p hp => hre p (List.mem_cons_of_mem _ hp))
    unfold outputLoop blocksEmitted
    by_cases hp : pif.phys = true
    · by_cases hq : qualifies vh pif = true
      · have hq1 := hq
        simp only [qualifies, decide_eq_true_eq] at hq1
        obtain ⟨_, hpeer, hv⟩ := hq1
        have hpn : pif.peerNode ≠ [] := fun hc => hpeer (Or.inl hc)
        have hpi : pif.peerIf ≠ [] := fun hc => hpeer (Or.inr hc)
        by_cases hk : k ≥ clabIfs.length
        · have hnone : clabIfs[k]? = none := List.getElem?_eq_none hk
          have hc : pif.peerNode = [] ∨ pif.peerIf = [] ∨ pif.peerNode ∉ vh ∨
              k ≥ clabIfs.length := Or.inr (Or.inr (Or.inr hk))
          simp only [hp, if_true, hc, hq, hnone, ihr]
        · obtain ⟨clab, hclab⟩ := pool_entry clabIfs k hk
          have hc : ¬ (pif.peerNode = [] ∨ pif.peerIf = [] ∨ pif.peerNode ∉ vh ∨
              k ≥ clabIfs.length) := by
            rintro (h | h | h | h)
            · exact hpn h
            · exact hpi h
            · exact h hv
            · exact hk h
          obtain ⟨r, hr⟩ := Option.ne_none_iff_exists'.1 (hre pif (List.mem_cons_self _ _) hpn)
          subst hr
          simp only [hp, if_true, hc, if_false, hq, hclab, rewriteBody_some, ihr, List.map_cons,
            List.flatten_cons, linesOf, List.append_assoc]
      · have hq0 : qualifies vh pif = false := by simpa using hq
        have hc : pif.peerNode = [] ∨ pif.peerIf = [] ∨ pif.peerNode ∉ vh ∨
            k ≥ clabIfs.length := by
          by_contra hcon
          apply hq
          simp only [qualifies, decide_eq_true_eq]
          refine ⟨hp, fun h => hcon ?_, ?_⟩
          · rcases h with h | h
            · exact Or.inl h
            · exact Or.inr (Or.inl h)
          · by_contra hv
            exact hcon (Or.inr (Or.inr (Or.inl hv)))
        simp only [hp, if_true, hc, hq0, Bool.false_eq_true, if_false, ihr]
    · have hq0 : qualifies vh pif = false := by simp [qualifies, hp]
      simp only [hp, if_false, hq0, Bool.false_eq_true, ihr, List.map_cons, List.flatten_cons,
        linesOf, List.append_assoc]

/-- Once the pool is used up no further block is renamed. -/
theorem blocksEmitted_exhausted (vh clabIfs : List Str) (ifs : List parsedIf) (k : Nat)
    (hk : clabIfs[k]? = none) : (blocksEmitted vh clabIfs ifs k).filterMap mappingOf = [] := by
  induction ifs with
  | nil => simp [blocksEmitted]
  | cons a l ihl =>
    unfold blocksEmitted
    split
    · simp only [hk, ihl]
    · split
      · exact ihl
      · simp only [List.filterMap_cons, mappingOf, Option.map_none', ihl]

/-- The mappings of the renamed blocks pair the pool entries, from entry `k` on,
with the qualifying blocks, in order. -/
theorem blocksEmitted_zip (vh clabIfs : List Str) (ifs : List parsedIf) (k : Nat) :
    (blocksEmitted vh clabIfs ifs k).filterMap mappingOf
      = List.zipWith
          (fun clab q => { Clab := clab, Src := q.ifname, PeerNode := q.peerNode,
                           PeerIf := q.peerIf : IfMap })
          (clabIfs.drop k) (qualifyingBlocks vh ifs) := by
  induction ifs generalizing k with
  | nil => simp [blocksEmitted, qualifyingBlocks]
  | cons pif rest ih =>
    by_cases hq : qualifies vh pif = true
    · cases hc : clabIfs[k]? with
      | none =>
        have hd : clabIfs.drop k = [] := by
          apply List.drop_eq_nil_of_le
          exact List.getElem?_eq_none_iff.1 hc
        rw [blocksEmitted_exhausted vh clabIfs _ k hc, hd]
        simp
      | some clab =>
        have hk : k < clabIfs.length := by
          by_contra hcon
          rw [List.getElem?_eq_none (by omega)] at hc
          cases hc
        have hd : clabIfs.drop k = clab :: clabIfs.drop (k + 1) := by
          rw [List.drop_eq_getElem_cons hk]
          congr 1
          rw [List.getElem?_eq_getElem hk] at hc
          exact Option.some.inj hc
        have hf : qualifyingBlocks vh (pif :: rest) = pif :: qualifyingBlocks vh rest := by
          simp [qualifyingBlocks, List.filter_cons, hq]
        unfold blocksEmitted
        simp only [hq, if_true, hc, List.filterMap_cons, mappingOf, Option.map_some', ih, hd, hf,
          List.zipWith_cons_cons]
    · have hq0 : qualifies vh pif = false := by simpa using hq
      have hf : qualifyingBlocks vh (pif :: rest) = qualifyingBlocks vh rest := by
        simp [qualifyingBlocks, List.filter_cons, hq0]
      unfold blocksEmitted
      by_cases hp : pif.phys = true
      · simp only [hq0, Bool.false_eq_true, if_false, hp, if_true, ih, hf]
      · simp only [hq0, Bool.false_eq_true, if_false, hp, List.filterMap_cons, mappingOf,
          Option.map_none', ih, hf]

/-- The method `rewritePhys` never panics: its mapping list and its output lines
are those of the emitted blocks, after the global lines. -/
theorem rewritePhysCore_some (vh : List Str) (isPhys : Str → Bool) (clabIfs : List Str)
    (re : Option Regexp) (devs : List Device) (conf : Str) :
    ∃ allIfs globalLines, parseConf isPhys re conf = some (allIfs, globalLines) ∧
      (∀ pif ∈ allIfs, blockOk re pif) ∧
      rewritePhysCore vh isPhys clabIfs re devs conf
        = some ((blocksEmitted vh clabIfs allIfs 0).filterMap mappingOf,
                globalLines ++ ((blocksEmitted vh clabIfs allIfs 0).map (linesOf re devs)).flatten) := by
  obtain ⟨allIfs, globalLines, hp, hok⟩ := parseConf_some isPhys re conf
  refine ⟨allIfs, globalLines, hp, hok, ?_⟩
  have hre : ∀ pif ∈ allIfs, pif.peerNode ≠ [] → re ≠ none :=
    fun pif hm hn => ((hok pif hm).2.2 hn).2.1
  simp only [rewritePhysCore, hp, assignLoop_some, outputLoop_some vh clabIfs re devs allIfs 0
    globalLines hre, List.nil_append]

/-! ## C1: canonical name assignment -/

/-- C1. For every configuration text, valid-hostname set and name pool,
`rewritePhys` returns, and with `Q` the qualifying blocks of the parsed text in
source order (physical, with a non-empty peer hostname and peer interface, the
hostname being a valid host), the new `IfMaps` has length `min |Q| |pool|` and
its entry `i` is `(Clab = pool[i], Src = name of Q[i], peer claim of Q[i])`; no
other block consumes a pool entry. -/
theorem rewritePhys_assigns_pool_in_source_order (b : Base) (isPhys : Str → Bool)
    (clabIfs : List Str) (peerDescRE : Option Regexp) (devs : List Device) :
    ∃ allIfs globalLines b1,
      parseConf isPhys peerDescRE b.Conf = some (allIfs, globalLines) ∧
      b.rewritePhys isPhys clabIfs peerDescRE devs = some b1 ∧
      b1.IfMaps.length = min (qualifyingBlocks b.validHosts allIfs).length clabIfs.length ∧
      (∀ i, i < min (qualifyingBlocks b.validHosts allIfs).length clabIfs.length →
        ∃ q clab, (qualifyingBlocks b.validHosts allIfs)[i]? = some q ∧
          clabIfs[i]? = some clab ∧
          b1.IfMaps[i]? = some { Clab := clab, Src := q.ifname, PeerNode := q.peerNode,
                                 PeerIf := q.peerIf }) ∧
      (∀ q, q ∈ qualifyingBlocks b.validHosts allIfs ↔
        q ∈ allIfs ∧ q.phys = true ∧ q.peerNode ≠ [] ∧ q.peerIf ≠ [] ∧
          q.peerNode ∈ b.validHosts) := by
  obtain ⟨allIfs, globalLines, hp, _, hcore⟩ :=
    rewritePhysCore_some b.validHosts isPhys clabIfs peerDescRE devs b.Conf
  have hb : b.rewritePhys isPhys clabIfs peerDescRE devs
      = some { b with
          IfMaps := (blocksEmitted b.validHosts clabIfs allIfs 0).filterMap mappingOf,
          Conf := join (globalLines ++ ((blocksEmitted b.validHosts clabIfs allIfs 0).map
            (linesOf peerDescRE devs)).flatten) "\n".toList } := by
    simp only [Base.rewritePhys, hcore]
  refine ⟨allIfs, globalLines, _, hp, hb, ?_, ?_, ?_⟩
  · simp only [blocksEmitted_zip, List.drop_zero, List.length_zipWith]
    exact Nat.min_comm _ _
  · intro i hi
    have h1 : i < (qualifyingBlocks b.validHosts allIfs).length := by omega
    have h2 : i < clabIfs.length := by omega
    refine ⟨(qualifyingBlocks b.validHosts allIfs)[i], clabIfs[i],
      List.getElem?_eq_getElem h1, List.getElem?_eq_getElem h2, ?_⟩
    simp only [blocksEmitted_zip, List.drop_zero]
    rw [List.getElem?_eq_getElem (by simp only [List.length_zipWith]; omega)]
    simp
  · intro q
    simp only [qualifyingBlocks, List.mem_filter, qualifies, decide_eq_true_eq, not_or, ne_eq,
      and_assoc]

/-! ## `ResolvePeers` -/

/-- Replacing entry `j` of a list mapped up to `j` extends the mapped part by one. -/
theorem take_map_set {α : Type} (G : α → α) (l : List α) (j : Nat) (m : α)
    (h : l[j]? = some m) :
    ((l.take j).map G ++ l.drop j).set j (G m) = (l.take (j + 1)).map G ++ l.drop (j + 1) := by
  induction l generalizing j with
  | nil => simp at h
  | cons a l ih =>
    cases j with
    | zero =>
      simp only [List.getElem?_cons_zero, Option.some.injEq] at h
      subst h
      simp
    | succ j =>
      simp only [List.getElem?_cons_succ] at h
      simp only [List.take_succ_cons, List.map_cons, List.drop_succ_cons, List.cons_append,
        List.set_cons_succ, ih j h]

/-- The entry at `j` of a list mapped up to `j` is the original one. -/
theorem take_map_get {α : Type} (G : α → α) (l : List α) (j : Nat) :
    ((l.take j).map G ++ l.drop j)[j]? = l[j]? := by
  induction l generalizing j with
  | nil => simp
  | cons a l ih =>
    cases j with
    | zero => simp
    | succ j =>
      simp only [List.take_succ_cons, List.map_cons, List.drop_succ_cons, List.cons_append,
        List.getElem?_cons_succ, ih j]

/-- Whether an interface exists depends on the interface names only. -/
theorem interfaceExists_congr (d d1 : Device) (x : Str) (h : ifNames d = ifNames d1) :
    interfaceExists d x = interfaceExists d1 x := by
  have e : ∀ d : Device, interfaceExists d x
      = (ifNames d).any (fun p => decide (p.1 = x ∨ p.2 = x)) := by
    intro d
    simp only [interfaceExists, ifNames]
    induction d.GetIfMaps with
    | nil => rfl
    | cons a l ih => simp only [List.any_cons, List.map_cons, ih]
  rw [e d, e d1, h]

/-- Resolving a mapping keeps its names. -/
theorem resolvedMapping_names (toLower : Str → Str) (devs : List Device) (m : IfMap) :
    (resolvedMapping toLower devs m).Clab = m.Clab ∧
      (resolvedMapping toLower devs m).Src = m.Src := by
  unfold resolvedMapping
  split <;> simp [IfMap.cleared]

/-- The mapping slice of a device after a write into it. -/
theorem GetIfMaps_setIfMaps (d : Device) (maps : List IfMap) :
    (d.setIfMaps maps).GetIfMaps = maps := by
  cases d <;> rfl

/-- Writing into the mapping slice twice is writing the second value. -/
theorem setIfMaps_setIfMaps (d : Device) (a c : List IfMap) :
    (d.setIfMaps a).setIfMaps c = d.setIfMaps c := by
  cases d <;> rfl

/-- Writing the mapping slice of a device into it changes nothing. -/
theorem setIfMaps_self (d : Device) : d.setIfMaps d.GetIfMaps = d := by
  cases d <;> rfl

/-- The interface names of a device whose mappings are replaced by mappings with the same names. -/
theorem ifNames_setIfMaps (d : Device) (maps : List IfMap)
    (h : maps.map (fun m => (m.Clab, m.Src)) = d.GetIfMaps.map (fun m => (m.Clab, m.Src))) :
    ifNames (d.setIfMaps maps) = ifNames d := by
  simp only [ifNames, GetIfMaps_setIfMaps, h]

/-- The map `host2dev` holds, for a lowered hostname, the position of the device
found by the lookup. -/
theorem buildHost2dev_lookup (toLower : Str → Str) (ds pre : List Device)
    (acc : Str → Option Nat) (k : Str)
    (hacc : (acc k).bind (fun j => pre[j]?) = pre.reverse.find? (fun d =>
      decide (toLower d.GetHostname ≠ [] ∧ toLower d.GetHostname = k)))
    (hlt : ∀ j, acc k = some j → j < pre.length) :
    ((buildHost2dev toLower ds pre.length acc) k).bind (fun j => (pre ++ ds)[j]?)
      = (pre ++ ds).reverse.find? (fun d =>
          decide (toLower d.GetHostname ≠ [] ∧ toLower d.GetHostname = k)) := by
  induction ds generalizing pre acc with
  | nil => simpa [buildHost2dev] using hacc
  | cons d ds ih =>
    have hlen : (pre ++ [d]).length = pre.length + 1 := by simp
    have happ : pre ++ d :: ds = (pre ++ [d]) ++ ds := by simp
    unfold buildHost2dev
    rw [happ, ← hlen]
    by_cases hh : toLower d.GetHostname ≠ []
    · simp only [hh, ne_eq, not_false_eq_true, if_true]
      apply ih
      · by_cases hk : k = toLower d.GetHostname
        · subst hk
          simp [hh]
        · have hk1 : ¬ toLower d.GetHostname = k := fun hc => hk hc.symm
          simp only [hk, if_false, List.reverse_append, List.reverse_cons, List.reverse_nil,
            List.nil_append, List.singleton_append, List.find?_cons, hk1, and_false,
            decide_False, ← hacc]
          cases ha : acc k with
          | none => rfl
          | some j =>
            have := hlt j ha
            simp only [Option.some_bind]
            rw [List.getElem?_append_left this]
      · intro j hj
        by_cases hk : k = toLower d.GetHostname
        · simp only [hk, if_true, Option.some.injEq] at hj
          omega
        · simp only [hk, if_false] at hj
          have := hlt j hj
          omega
    · have hh1 : toLower d.GetHostname = [] := by simpa using hh
      simp only [hh1, ne_eq, not_true_eq_false, if_false]
      apply ih
      · simp only [List.reverse_append, List.reverse_cons, List.reverse_nil, List.nil_append,
          List.singleton_append, List.find?_cons, hh1, ne_eq, not_true_eq_false, false_and,
          decide_False, ← hacc]
        cases ha : acc k with
        | none => rfl
        | some j =>
          have := hlt j ha
          simp only [Option.some_bind]
          rw [List.getElem?_append_left this]
      · intro j hj
        have := hlt j hj
        omega

/-- Writing back the entry read at a position changes nothing. -/
theorem set_of_get {α : Type} (l : List α) (i : Nat) (a : α) (h : l[i]? = some a) :
    l.set i a = l := by
  induction l generalizing i with
  | nil => rfl
  | cons b l ih =>
    cases i with
    | zero =>
      simp only [List.getElem?_cons_zero, Option.some.injEq] at h
      subst h
      rfl
    | succ i =>
      simp only [List.getElem?_cons_succ] at h
      simp only [List.set_cons_succ, ih i h]

/-- A list mapped up to a position has the names of the list, when the map keeps names. -/
theorem map_take_map {α β : Type} (key : α → β) (G : α → α) (l : List α) (j : Nat)
    (h : ∀ a, key (G a) = key a) :
    ((l.take j).map G ++ l.drop j).map key = l.map key := by
  have hc : key ∘ G = key := funext h
  rw [List.map_append, List.map_map, hc, ← List.map_append, List.take_append_drop]

/-- Resolving a device keeps its interface names. -/
theorem ifNames_resolved (toLower : Str → Str) (devs : List Device) (d : Device) (j : Nat) :
    ifNames (d.setIfMaps (((d.GetIfMaps.take j).map (resolvedMapping toLower devs))
      ++ d.GetIfMaps.drop j)) = ifNames d := by
  apply ifNames_setIfMaps
  apply map_take_map
  intro a
  rw [(resolvedMapping_names toLower devs a).1, (resolvedMapping_names toLower devs a).2]

/-- The test made by `ResolvePeers` in a state with the interface names of the
initial device list is the test on the initial device list. -/
theorem resolve_test (toLower : Str → Str) (devs st : List Device) (m : IfMap)
    (hst : st.map ifNames = devs.map ifNames) :
    (match buildHost2dev toLower devs 0 (fun _ => none) (toLower m.PeerNode) with
      | none => false
      | some pi =>
        match st[pi]? with
        | none => false
        | some pDev => interfaceExists pDev m.PeerIf) = peerResolves toLower devs m := by
  have hl := buildHost2dev_lookup toLower devs [] (fun _ => none) (toLower m.PeerNode)
    (by simp) (by simp)
  simp only [List.nil_append, List.length_nil] at hl
  unfold peerResolves lookupHost
  rw [← hl]
  cases hh : buildHost2dev toLower devs 0 (fun _ => none) (toLower m.PeerNode) with
  | none => rfl
  | some pi =>
    have hn : (st[pi]?).map ifNames = (devs[pi]?).map ifNames := by
      rw [← List.getElem?_map, ← List.getElem?_map, hst]
    simp only [Option.some_bind]
    cases h1 : st[pi]? with
    | none =>
      rw [h1] at hn
      cases h2 : devs[pi]? with
      | none => rfl
      | some p => rw [h2] at hn; simp at hn
    | some p1 =>
      rw [h1] at hn
      cases h2 : devs[pi]? with
      | none => rw [h2] at hn; simp at hn
      | some p =>
        rw [h2] at hn
        simp only [Option.map_some', Option.some.injEq] at hn
        exact interfaceExists_congr p1 p m.PeerIf hn

/-- One step of the inner loop of `ResolvePeers` resolves one mapping. -/
theorem resolveStep_eq (toLower : Str → Str) (devs st : List Device) (di i : Nat)
    (d : Device) (m : IfMap) (hst : st.map ifNames = devs.map ifNames)
    (hd : st[di]? = some d) (hm : d.GetIfMaps[i]? = some m) :
    resolveStep toLower (buildHost2dev toLower devs 0 (fun _ => none)) di i st
      = st.set di (d.setIfMaps (d.GetIfMaps.set i (resolvedMapping toLower devs m))) := by
  have hid : st.set di (d.setIfMaps (d.GetIfMaps.set i m)) = st := by
    rw [set_of_get _ i m hm, setIfMaps_self, set_of_get _ di d hd]
  simp only [resolveStep, hd, hm, resolve_test toLower devs st m hst]
  by_cases hp : m.PeerNode = []
  · have : resolvedMapping toLower devs m = m := by simp [resolvedMapping, hp]
    rw [this, hid]
    simp [hp]
  · cases hr : peerResolves toLower devs m with
    | false =>
      have : resolvedMapping toLower devs m = m.cleared := by simp [resolvedMapping, hp, hr]
      rw [this]
      simp [hp]
    | true =>
      have : resolvedMapping toLower devs m = m := by simp [resolvedMapping, hr]
      rw [this, hid]
      simp [hp]

/-- The inner loop of `ResolvePeers`, run over the first `j` mappings of a device. -/
theorem resolveDevice_upto (toLower : Str → Str) (devs st : List Device) (di : Nat)
    (d : Device) (hst : st.map ifNames = devs.map ifNames) (hd : st[di]? = some d) (j : Nat)
    (hj : j ≤ d.GetIfMaps.length) :
    (List.range j).foldl
        (fun s i => resolveStep toLower (buildHost2dev toLower devs 0 (fun _ => none)) di i s) st
      = st.set di (d.setIfMaps (((d.GetIfMaps.take j).map (resolvedMapping toLower devs))
          ++ d.GetIfMaps.drop j)) := by
  have hdi : di < st.length := by
    by_contra hc
    rw [List.getElem?_eq_none (by omega)] at hd
    cases hd
  induction j with
  | zero =>
    simp only [List.range_zero, List.foldl_nil, List.take_zero, List.map_nil, List.nil_append,
      List.drop_zero, setIfMaps_self, set_of_get _ di d hd]
  | succ j ih =>
    have hjl : j < d.GetIfMaps.length := by omega
    rw [List.range_succ, List.foldl_append, ih (by omega)]
    simp only [List.foldl_cons, List.foldl_nil]
    have hst1 : (st.set di (d.setIfMaps (((d.GetIfMaps.take j).map (resolvedMapping toLower devs))
          ++ d.GetIfMaps.drop j))).map ifNames = devs.map ifNames := by
      rw [List.map_set, ifNames_resolved toLower devs d j, ← hst]
      apply set_of_get
      rw [List.getElem?_map, hd]
      rfl
    have hd1 : (st.set di (d.setIfMaps (((d.GetIfMaps.take j).map (resolvedMapping toLower devs))
          ++ d.GetIfMaps.drop j)))[di]? = some (d.setIfMaps (((d.GetIfMaps.take j).map
            (resolvedMapping toLower devs)) ++ d.GetIfMaps.drop j)) := by
      rw [List.getElem?_set_self hdi]
    have hm1 : (d.setIfMaps (((d.GetIfMaps.take j).map (resolvedMapping toLower devs))
          ++ d.GetIfMaps.drop j)).GetIfMaps[j]? = some d.GetIfMaps[j] := by
      rw [GetIfMaps_setIfMaps, take_map_get, List.getElem?_eq_getElem hjl]
    rw [resolveStep_eq toLower devs _ di j _ _ hst1 hd1 hm1, List.set_set, GetIfMaps_setIfMaps,
      setIfMaps_setIfMaps, take_map_set _ _ _ _ (List.getElem?_eq_getElem hjl)]

/-- The inner loop of `ResolvePeers` resolves the mappings of one device. -/
theorem resolveDevice_eq (toLower : Str → Str) (devs st : List Device) (di : Nat)
    (d : Device) (hst : st.map ifNames = devs.map ifNames) (hd : st[di]? = some d) :
    resolveDevice toLower (buildHost2dev toLower devs 0 (fun _ => none)) st di
      = st.set di (resolvedDevice toLower devs d) := by
  simp only [resolveDevice, hd]
  rw [resolveDevice_upto toLower devs st di d hst hd d.GetIfMaps.length (Nat.le_refl _)]
  simp [resolvedDevice]

/-- Resolving a device keeps its interface names. -/
theorem ifNames_resolvedDevice (toLower : Str → Str) (devs : List Device) (d : Device) :
    ifNames (resolvedDevice toLower devs d) = ifNames d := by
  have := ifNames_resolved toLower devs d d.GetIfMaps.length
  simpa [resolvedDevice] using this

/-- The function `ResolvePeers` resolves every mapping of every device against the
initial device list. -/
theorem ResolvePeers_eq (toLower : Str → Str) (devs : List Device) :
    ResolvePeers toLower devs = devs.map (resolvedDevice toLower devs) := by
  have key : ∀ n, n ≤ devs.length →
      (List.range n).foldl
          (resolveDevice toLower (buildHost2dev toLower devs 0 (fun _ => none))) devs
        = (devs.take n).map (resolvedDevice toLower devs) ++ devs.drop n := by
    intro n
    induction n with
    | zero => intro _; simp
    | succ n ih =>
      intro hn
      have hnl : n < devs.length := by omega
      rw [List.range_succ, List.foldl_append, ih (by omega)]
      simp only [List.foldl_cons, List.foldl_nil]
      rw [resolveDevice_eq toLower devs _ n devs[n]
        (map_take_map ifNames _ devs n (ifNames_resolvedDevice toLower devs))
        (by rw [take_map_get, List.getElem?_eq_getElem hnl])]
      exact take_map_set _ _ _ _ (List.getElem?_eq_getElem hnl)
  have := key devs.length (Nat.le_refl _)
  simpa [ResolvePeers] using this

/-- No interface of a device has a given name exactly when `interfaceExists` is false. -/
theorem interfaceExists_false (p : Device) (x : Str) :
    interfaceExists p x = false ↔ ∀ y ∈ p.GetIfMaps, y.Clab ≠ x ∧ y.Src ≠ x := by
  simp only [interfaceExists, List.any_eq_false, decide_eq_true_eq, not_or, ne_eq]

/-! ## C2: the peer resolver -/

/-- C2. For every device list, `ResolvePeers` keeps the number of devices, and
for every device everything but the peer fields of its mappings: the mapping
list keeps its length and order and the `Clab` and `Src` of every entry.  A
mapping with a non-empty `PeerNode` has both peer fields cleared exactly when no
device is found for that hostname by the case-insensitive lookup or the device
found has no mapping whose `Clab` or `Src` equals the claimed `PeerIf`;
otherwise the mapping is unchanged. -/
theorem ResolvePeers_clears_exactly_unresolved (toLower : Str → Str) (devs : List Device) :
    (ResolvePeers toLower devs).length = devs.length ∧
    ∀ (di : Nat) (d : Device), devs[di]? = some d →
      ∃ d1 : Device, (ResolvePeers toLower devs)[di]? = some d1 ∧
        d1 = d.setIfMaps d1.GetIfMaps ∧
        d1.GetIfMaps.length = d.GetIfMaps.length ∧
        ∀ (i : Nat) (m : IfMap), d.GetIfMaps[i]? = some m →
          ∃ m1 : IfMap, d1.GetIfMaps[i]? = some m1 ∧ m1.Clab = m.Clab ∧ m1.Src = m.Src ∧
            (m.PeerNode = [] → m1 = m) ∧
            (m.PeerNode ≠ [] →
              ((m1.PeerNode = [] ∧ m1.PeerIf = []) ↔
                (lookupHost toLower devs m.PeerNode = none ∨
                  ∃ p, lookupHost toLower devs m.PeerNode = some p ∧
                    ∀ y ∈ p.GetIfMaps, y.Clab ≠ m.PeerIf ∧ y.Src ≠ m.PeerIf)) ∧
              (¬ (m1.PeerNode = [] ∧ m1.PeerIf = []) → m1 = m)) := by
  rw [ResolvePeers_eq]
  refine ⟨by simp, ?_⟩
  intro di d hd
  refine ⟨resolvedDevice toLower devs d, by rw [List.getElem?_map, hd]; rfl, ?_, ?_, ?_⟩
  · simp only [resolvedDevice, GetIfMaps_setIfMaps, setIfMaps_setIfMaps]
  · simp only [resolvedDevice, GetIfMaps_setIfMaps, List.length_map]
  · intro i m hm
    refine ⟨resolvedMapping toLower devs m, ?_, (resolvedMapping_names toLower devs m).1,
      (resolvedMapping_names toLower devs m).2, ?_, ?_⟩
    · simp only [resolvedDevice, GetIfMaps_setIfMaps, List.getElem?_map, hm, Option.map_some']
    · intro hp
      simp [resolvedMapping, hp]
    · intro hp
      have hcond : peerResolves toLower devs m = false ↔
          (lookupHost toLower devs m.PeerNode = none ∨
            ∃ p, lookupHost toLower devs m.PeerNode = some p ∧
              ∀ y ∈ p.GetIfMaps, y.Clab ≠ m.PeerIf ∧ y.Src ≠ m.PeerIf) := by
        unfold peerResolves
        cases hl : lookupHost toLower devs m.PeerNode with
        | none => simp
        | some p => simp [interfaceExists_false]
      rw [← hcond]
      cases hr : peerResolves toLower devs m with
      | false =>
        have : resolvedMapping toLower devs m = m.cleared := by simp [resolvedMapping, hp, hr]
        rw [this]
        simp [IfMap.cleared]
      | true =>
        have : resolvedMapping toLower devs m = m := by simp [resolvedMapping, hr]
        rw [this]
        simp [hp]

/-! ## `collectLinks` and `makeLinkKey` -/

/-- Code points determine characters. -/
theorem char_eq_of_toNat (a b : Char) (h1 : ¬ a.toNat < b.toNat) (h2 : ¬ b.toNat < a.toNat) :
    a = b := by
  apply Char.ext
  apply UInt32.ext
  have : a.toNat = b.toNat := by omega
  exact this

/-- The string order is asymmetric. -/
theorem strLt_asymm (a b : Str) (h : strLt a b = true) : strLt b a = false := by
  induction a generalizing b with
  | nil =>
    cases b with
    | nil => simp [strLt] at h
    | cons y ys => simp [strLt]
  | cons x xs ih =>
    cases b with
    | nil => simp [strLt] at h
    | cons y ys =>
      simp only [strLt] at h ⊢
      by_cases h1 : x.toNat < y.toNat
      · have h2 : ¬ y.toNat < x.toNat := by omega
        simp [h1, h2]
      · by_cases h2 : y.toNat < x.toNat
        · simp [h1, h2] at h
        · simp only [h1, h2, if_false] at h ⊢
          exact ih ys h

/-- The string order is total: two strings neither of which is less are equal. -/
theorem strLt_total (a b : Str) (h1 : strLt a b = false) (h2 : strLt b a = false) : a = b := by
  induction a generalizing b with
  | nil =>
    cases b with
    | nil => rfl
    | cons y ys => simp [strLt] at h1
  | cons x xs ih =>
    cases b with
    | nil => simp [strLt] at h2
    | cons y ys =>
      simp only [strLt] at h1 h2
      by_cases c1 : x.toNat < y.toNat
      · simp [c1] at h1
      · by_cases c2 : y.toNat < x.toNat
        · simp [c2] at h2
        · simp only [c1, c2, if_false] at h1 h2
          rw [char_eq_of_toNat x y c1 c2, ih ys h1 h2]

/-- The key does not depend on the order of the endpoints. -/
theorem makeLinkKey_comm (a b : Str) : makeLinkKey a b = makeLinkKey b a := by
  unfold makeLinkKey
  cases h1 : strLt b a with
  | true => simp [strLt_asymm b a h1]
  | false =>
    cases h2 : strLt a b with
    | true => simp
    | false => simp [strLt_total a b h2 h1]

/-- Links with the same unordered pair of endpoints have the same key. -/
theorem linkKey_samePair (l1 l2 : topoLink) (h : samePair l1 l2) : linkKey l1 = linkKey l2 := by
  obtain ⟨a, b, h1, h2 | h2⟩ := h
  · simp [linkKey, h1, h2]
  · simp only [linkKey, h1, h2]
    exact makeLinkKey_comm a b

/-- A step of `collectLinks` either leaves the state or records the link of the
mapping, whose peer was found and whose key was not seen. -/
theorem collectStep_cases (eqF : Str → Str → Bool) (devs : List Device) (d : Device)
    (st : linkState) (m : IfMap) :
    collectStep eqF devs d st m = st ∨
    ∃ p, m.PeerNode ≠ [] ∧ findDeviceByHostname eqF devs m.PeerNode = some p ∧
      findClabName p m.PeerIf ≠ [] ∧
      makeLinkKey (d.GetNodeName ++ ":".toList ++ m.Clab)
        (p.GetNodeName ++ ":".toList ++ findClabName p m.PeerIf) ∉ st.seen ∧
      collectStep eqF devs d st m =
        { seen := st.seen ++ [makeLinkKey (d.GetNodeName ++ ":".toList ++ m.Clab)
            (p.GetNodeName ++ ":".toList ++ findClabName p m.PeerIf)],
          links := st.links ++ [{ Endpoints := [d.GetNodeName ++ ":".toList ++ m.Clab,
            p.GetNodeName ++ ":".toList ++ findClabName p m.PeerIf] }] } := by
  by_cases h1 : m.PeerNode = []
  · left
    simp only [collectStep, h1, if_true]
  · cases h2 : findDeviceByHostname eqF devs m.PeerNode with
    | none =>
      left
      simp only [collectStep, h1, if_false, h2]
    | some p =>
      by_cases h3 : findClabName p m.PeerIf = []
      · left
        simp only [collectStep, h1, if_false, h2, h3, if_true]
      · by_cases h4 : makeLinkKey (d.GetNodeName ++ ":".toList ++ m.Clab)
            (p.GetNodeName ++ ":".toList ++ findClabName p m.PeerIf) ∈ st.seen
        · left
          simp only [collectStep, h1, if_false, h2, h3, h4, if_true]
        · right
          refine ⟨p, h1, rfl, h3, h4, ?_⟩
          simp only [collectStep, h1, if_false, h2, h3, h4]

/-- A step of `collectLinks` keeps the invariant. -/
theorem collectStep_inv (eqF : Str → Str → Bool) (devs : List Device) (d : Device)
    (st : linkState) (m : IfMap) (h : linkInv st) : linkInv (collectStep eqF devs d st m) := by
  rcases collectStep_cases eqF devs d st m with he | ⟨p, _, _, _, hk, he⟩
  · rw [he]
    exact h
  · rw [he]
    obtain ⟨h1, h2, h3⟩ := h
    refine ⟨?_, ?_, ?_⟩
    · simp [h1, linkKey]
    · exact List.Nodup.append h2 (List.nodup_singleton _) (by simpa using hk)
    · intro l hl
      rcases List.mem_append.1 hl with hl | hl
      · exact h3 l hl
      · simp only [List.mem_singleton] at hl
        subst hl
        exact ⟨_, _, rfl⟩

/-- The loops of `collectLinks` keep the invariant. -/
theorem collectFrom_inv (eqF : Str → Str → Bool) (devs ds : List Device) (st : linkState)
    (h : linkInv st) : linkInv (collectFrom eqF devs ds st) := by
  unfold collectFrom
  induction ds generalizing st with
  | nil => exact h
  | cons d ds ih =>
    simp only [List.foldl_cons]
    apply ih
    generalize d.GetIfMaps = maps
    induction maps generalizing st with
    | nil => exact h
    | cons m maps ihm =>
      simp only [List.foldl_cons]
      exact ihm _ (collectStep_inv eqF devs d st m h)

/-- The links returned by `collectLinks` have pairwise different keys. -/
theorem collectLinks_keys_nodup (eqF : Str → Str → Bool) (devs : List Device) :
    ((collectLinks eqF devs).map linkKey).Nodup := by
  have h := collectFrom_inv eqF devs devs {} ⟨rfl, List.nodup_nil, fun l hl => by simp at hl⟩
  unfold collectLinks
  rw [← h.1]
  exact h.2.1

/-- No two links returned by `collectLinks` have the same unordered pair of endpoints. -/
theorem collectLinks_pairwise (eqF : Str → Str → Bool) (devs : List Device) :
    (collectLinks eqF devs).Pairwise (fun l1 l2 => ¬ samePair l1 l2) := by
  have h := collectLinks_keys_nodup eqF devs
  rw [List.Nodup, List.pairwise_map] at h
  exact h.imp (fun hne hs => hne (linkKey_samePair _ _ hs))

/-- A step of `collectLinks` forgets no key. -/
theorem collectStep_seen_mono (eqF : Str → Str → Bool) (devs : List Device) (d : Device)
    (st : linkState) (m : IfMap) (k : Str) (h : k ∈ st.seen) :
    k ∈ (collectStep eqF devs d st m).seen := by
  rcases collectStep_cases eqF devs d st m with he | ⟨p, _, _, _, _, he⟩
  · rw [he]; exact h
  · rw [he]; exact List.mem_append_left _ h

/-- The loop over the mappings of a device forgets no key. -/
theorem collectMaps_seen_mono (eqF : Str → Str → Bool) (devs : List Device) (d : Device)
    (maps : List IfMap) (st : linkState) (k : Str) (h : k ∈ st.seen) :
    k ∈ (maps.foldl (collectStep eqF devs d) st).seen := by
  induction maps generalizing st with
  | nil => exact h
  | cons m maps ih =>
    simp only [List.foldl_cons]
    exact ih _ (collectStep_seen_mono eqF devs d st m k h)

/-- The loops of `collectLinks` forget no key. -/
theorem collectFrom_seen_mono (eqF : Str → Str → Bool) (devs ds : List Device)
    (st : linkState) (k : Str) (h : k ∈ st.seen) : k ∈ (collectFrom eqF devs ds st).seen := by
  unfold collectFrom
  induction ds generalizing st with
  | nil => exact h
  | cons d ds ih =>
    simp only [List.foldl_cons]
    exact ih _ (collectMaps_seen_mono eqF devs d d.GetIfMaps st k h)

/-- After the step of a mapping whose peer is found, the key of its link is seen. -/
theorem collectStep_records (eqF : Str → Str → Bool) (devs : List Device) (d : Device)
    (st : linkState) (m : IfMap) (p : Device) (h1 : m.PeerNode ≠ [])
    (h2 : findDeviceByHostname eqF devs m.PeerNode = some p)
    (h3 : findClabName p m.PeerIf ≠ []) :
    makeLinkKey (d.GetNodeName ++ ":".toList ++ m.Clab)
      (p.GetNodeName ++ ":".toList ++ findClabName p m.PeerIf)
      ∈ (collectStep eqF devs d st m).seen := by
  by_cases h4 : makeLinkKey (d.GetNodeName ++ ":".toList ++ m.Clab)
      (p.GetNodeName ++ ":".toList ++ findClabName p m.PeerIf) ∈ st.seen
  · exact collectStep_seen_mono eqF devs d st m _ h4
  · simp only [collectStep, h1, if_false, h2, h3, h4]
    simp

/-- After the loop over mappings that contain one whose peer is found, the key of its link is seen. -/
theorem collectMaps_records (eqF : Str → Str → Bool) (devs : List Device) (d : Device)
    (maps : List IfMap) (st : linkState) (m : IfMap) (p : Device) (hm : m ∈ maps)
    (h1 : m.PeerNode ≠ []) (h2 : findDeviceByHostname eqF devs m.PeerNode = some p)
    (h3 : findClabName p m.PeerIf ≠ []) :
    makeLinkKey (d.GetNodeName ++ ":".toList ++ m.Clab)
      (p.GetNodeName ++ ":".toList ++ findClabName p m.PeerIf)
      ∈ (maps.foldl (collectStep eqF devs d) st).seen := by
  induction maps generalizing st with
  | nil => simp at hm
  | cons a maps ih =>
    simp only [List.foldl_cons]
    rcases List.mem_cons.1 hm with hm | hm
    · subst hm
      exact collectMaps_seen_mono eqF devs d maps _ _
        (collectStep_records eqF devs d st m p h1 h2 h3)
    · exact ih _ hm

/-- After the loops of `collectLinks`, the key of the link of every mapping whose
peer is found is seen. -/
theorem collectFrom_records (eqF : Str → Str → Bool) (devs ds : List Device)
    (st : linkState) (d : Device) (m : IfMap) (p : Device) (hd : d ∈ ds)
    (hm : m ∈ d.GetIfMaps) (h1 : m.PeerNode ≠ [])
    (h2 : findDeviceByHostname eqF devs m.PeerNode = some p)
    (h3 : findClabName p m.PeerIf ≠ []) :
    makeLinkKey (d.GetNodeName ++ ":".toList ++ m.Clab)
      (p.GetNodeName ++ ":".toList ++ findClabName p m.PeerIf)
      ∈ (collectFrom eqF devs ds st).seen := by
  induction ds generalizing st with
  | nil => simp at hd
  | cons a ds ih =>
    rcases List.mem_cons.1 hd with hd | hd
    · subst hd
      have := collectMaps_records eqF devs d d.GetIfMaps st m p hm h1 h2 h3
      exact collectFrom_seen_mono eqF devs ds _ _ this
    · exact ih _ hd

/-- Every link collected comes from a mapping of a device of the list that is run over. -/
theorem collectFrom_linkFrom (eqF : Str → Str → Bool) (devs ds : List Device)
    (st : linkState) (hds : ∀ d ∈ ds, d ∈ devs) (h : ∀ l ∈ st.links, linkFrom eqF devs l) :
    ∀ l ∈ (collectFrom eqF devs ds st).links, linkFrom eqF devs l := by
  unfold collectFrom
  induction ds generalizing st with
  | nil => exact h
  | cons d ds ih =>
    simp only [List.foldl_cons]
    apply ih _ (fun x hx => hds x (List.mem_cons_of_mem _ hx))
    have hd : d ∈ devs := hds d (List.mem_cons_self _ _)
    have key : ∀ (maps : List IfMap) (st : linkState), (∀ m ∈ maps, m ∈ d.GetIfMaps) →
        (∀ l ∈ st.links, linkFrom eqF devs l) →
        ∀ l ∈ (maps.foldl (collectStep eqF devs d) st).links, linkFrom eqF devs l := by
      intro maps
      induction maps with
      | nil => intro st _ hst; exact hst
      | cons m maps ihm =>
        intro st hsub hst
        simp only [List.foldl_cons]
        apply ihm _ (fun x hx => hsub x (List.mem_cons_of_mem _ hx))
        rcases collectStep_cases eqF devs d st m with he | ⟨p, _, hp2, hp3, _, he⟩
        · rw [he]; exact hst
        · rw [he]
          intro l hl
          rcases List.mem_append.1 hl with hl | hl
          · exact hst l hl
          · simp only [List.mem_singleton] at hl
            subst hl
            exact ⟨d, hd, m, hsub m (List.mem_cons_self _ _), p, hp2, hp3, rfl⟩
    exact key d.GetIfMaps st (fun m hm => hm) h

/-- Two keys built from bar-free endpoints are equal only for the same split. -/
theorem bar_split (x y x1 y1 : Str) (hx : '|' ∉ x) (hx1 : '|' ∉ x1)
    (h : x ++ "|".toList ++ y = x1 ++ "|".toList ++ y1) : x = x1 ∧ y = y1 := by
  induction x generalizing x1 with
  | nil =>
    cases x1 with
    | nil => simpa using h
    | cons c cs =>
      exfalso
      have hc : '|' = c := by
        have := congrArg List.head? h
        simpa using this
      exact hx1 (by rw [hc]; exact List.mem_cons_self _ _)
  | cons a as ih =>
    cases x1 with
    | nil =>
      exfalso
      have hc : a = '|' := by
        have := congrArg List.head? h
        simpa using this
      exact hx (by rw [hc]; exact List.mem_cons_self _ _)
    | cons c cs =>
      simp only [List.cons_append, List.cons.injEq] at h
      obtain ⟨h1, h2⟩ := ih cs (fun hc => hx (List.mem_cons_of_mem _ hc))
        (fun hc => hx1 (List.mem_cons_of_mem _ hc)) (by simpa using h.2)
      exact ⟨by rw [h.1, h1], h2⟩

/-- On bar-free endpoints the key determines the unordered pair. -/
theorem makeLinkKey_inj (a b c d : Str) (ha : '|' ∉ a) (hb : '|' ∉ b) (hc : '|' ∉ c)
    (hd : '|' ∉ d) (h : makeLinkKey a b = makeLinkKey c d) :
    (a = c ∧ b = d) ∨ (a = d ∧ b = c) := by
  unfold makeLinkKey at h
  by_cases h1 : strLt b a = true
  · by_cases h2 : strLt d c = true
    · simp only [h1, h2, if_true] at h
      obtain ⟨e1, e2⟩ := bar_split b a d c hb hd h
      exact Or.inl ⟨e2, e1⟩
    · simp only [h1, h2, if_true, if_false] at h
      obtain ⟨e1, e2⟩ := bar_split b a c d hb hc h
      exact Or.inr ⟨e2, e1⟩
  · by_cases h2 : strLt d c = true
    · simp only [h1, h2, if_true, if_false] at h
      obtain ⟨e1, e2⟩ := bar_split a b d c ha hd h
      exact Or.inr ⟨e1, e2⟩
    · simp only [h1, h2, if_false] at h
      obtain ⟨e1, e2⟩ := bar_split a b c d ha hc h
      exact Or.inl ⟨e1, e2⟩

/-- The device found by `findDeviceByHostname` is in the list. -/
theorem findDeviceByHostname_mem (eqF : Str → Str → Bool) (devs : List Device) (h : Str)
    (p : Device) (hf : findDeviceByHostname eqF devs h = some p) : p ∈ devs :=
  List.mem_of_find?_eq_some hf

/-- A non-empty result of `findClabName` is the clab name of a mapping of the device. -/
theorem findClabName_mem (p : Device) (x : Str) (h : findClabName p x ≠ []) :
    ∃ m ∈ p.GetIfMaps, findClabName p x = m.Clab := by
  unfold findClabName at h ⊢
  cases hf : p.GetIfMaps.find? (fun m => decide (m.Clab = x ∨ m.Src = x)) with
  | none =>
    rw [hf] at h
    exact absurd rfl h
  | some m => exact ⟨m, List.mem_of_find?_eq_some hf, rfl⟩

/-- At most one link returned by `collectLinks` joins two given endpoints. -/
theorem collectLinks_joins_le_one (eqF : Str → Str → Bool) (devs : List Device) (e1 e2 : Str) :
    ((collectLinks eqF devs).filter (joins e1 e2)).length ≤ 1 := by
  have hp : ((collectLinks eqF devs).filter (joins e1 e2)).Pairwise
      (fun l1 l2 => ¬ samePair l1 l2) :=
    (collectLinks_pairwise eqF devs).sublist (List.filter_sublist _)
  have hall : ∀ l ∈ (collectLinks eqF devs).filter (joins e1 e2), joins e1 e2 l = true :=
    fun l hl => (List.mem_filter.1 hl).2
  generalize (collectLinks eqF devs).filter (joins e1 e2) = L at hp hall
  match L, hp, hall with
  | [], _, _ => simp
  | [_], _, _ => simp
  | x :: y :: rest, hp, hall =>
    exfalso
    have hxy : ¬ samePair x y := (List.pairwise_cons.1 hp).1 y (List.mem_cons_self _ _)
    have hx := hall x (List.mem_cons_self _ _)
    have hy := hall y (List.mem_cons_of_mem _ (List.mem_cons_self _ _))
    simp only [joins, decide_eq_true_eq] at hx hy
    apply hxy
    rcases hx with hx | hx
    · exact ⟨e1, e2, hx, hy⟩
    · exact ⟨e2, e1, hx, hy.symm⟩

/-- An endpoint built from a bar-free node name and a bar-free clab name is bar-free. -/
theorem endpoint_noBar (node clab : Str) (h1 : '|' ∉ node) (h2 : '|' ∉ clab) :
    '|' ∉ node ++ ":".toList ++ clab := by
  intro hc
  rcases List.mem_append.1 hc with hc | hc
  · rcases List.mem_append.1 hc with hc | hc
    · exact h1 hc
    · revert hc
      decide
  · exact h2 hc

/-- When no node name and no clab name of the device list contains a bar, the
link of every mapping whose peer is found is returned by `collectLinks`. -/
theorem collectLinks_joins_exists (eqF : Str → Str → Bool) (devs : List Device)
    (A : Device) (mA : IfMap) (B : Device) (hA : A ∈ devs) (hmA : mA ∈ A.GetIfMaps)
    (h1 : mA.PeerNode ≠ []) (h2 : findDeviceByHostname eqF devs mA.PeerNode = some B)
    (h3 : findClabName B mA.PeerIf ≠ [])
    (hbar : ∀ d ∈ devs, '|' ∉ d.GetNodeName ∧ ∀ m ∈ d.GetIfMaps, '|' ∉ m.Clab) :
    ∃ l ∈ collectLinks eqF devs,
      joins (A.GetNodeName ++ ":".toList ++ mA.Clab)
        (B.GetNodeName ++ ":".toList ++ findClabName B mA.PeerIf) l = true := by
  have hinv := collectFrom_inv eqF devs devs {} ⟨rfl, List.nodup_nil, fun l hl => by simp at hl⟩
  have hrec := collectFrom_records eqF devs devs {} A mA B hA hmA h1 h2 h3
  have hfrom := collectFrom_linkFrom eqF devs devs {} (fun d hd => hd)
    (fun l hl => by simp at hl)
  rw [hinv.1] at hrec
  obtain ⟨l, hl, hkey⟩ := List.mem_map.1 hrec
  refine ⟨l, hl, ?_⟩
  obtain ⟨d, hd, m, hm, p, hp2, hp3, hends⟩ := hfrom l hl
  have hpmem := findDeviceByHostname_mem eqF devs _ p hp2
  obtain ⟨m1, hm1, hc1⟩ := findClabName_mem p m.PeerIf hp3
  have hBmem := findDeviceByHostname_mem eqF devs _ B h2
  obtain ⟨m2, hm2, hc2⟩ := findClabName_mem B mA.PeerIf h3
  have b1 := endpoint_noBar d.GetNodeName m.Clab (hbar d hd).1 ((hbar d hd).2 m hm)
  have b2 := endpoint_noBar p.GetNodeName (findClabName p m.PeerIf) (hbar p hpmem).1
    (by rw [hc1]; exact (hbar p hpmem).2 m1 hm1)
  have b3 := endpoint_noBar A.GetNodeName mA.Clab (hbar A hA).1 ((hbar A hA).2 mA hmA)
  have b4 := endpoint_noBar B.GetNodeName (findClabName B mA.PeerIf) (hbar B hBmem).1
    (by rw [hc2]; exact (hbar B hBmem).2 m2 hm2)
  have hk : makeLinkKey (d.GetNodeName ++ ":".toList ++ m.Clab)
      (p.GetNodeName ++ ":".toList ++ findClabName p m.PeerIf)
      = makeLinkKey (A.GetNodeName ++ ":".toList ++ mA.Clab)
        (B.GetNodeName ++ ":".toList ++ findClabName B mA.PeerIf) := by
    rw [← hkey]
    simp [linkKey, hends]
  simp only [joins, decide_eq_true_eq, hends]
  rcases makeLinkKey_inj _ _ _ _ b1 b2 b3 b4 hk with ⟨e1, e2⟩ | ⟨e1, e2⟩
  · left; rw [e1, e2]
  · right; rw [e1, e2]

/-! ## C3: deduplication of links -/

/-- C3 fails on the code: in the lab `exBarNodes` the nodes `a:Ethernet1/1|b` and
`c` claim each other, both claims resolve, and yet `collectLinks` returns no
link joining them, because the key of their link is the key of the link between
the nodes `a` and `b:Ethernet1/1|c`: `makeLinkKey` joins the two endpoints
with a `|` that node names may contain. -/
theorem collectLinks_bar_collision :
    (labbuild asciiToLower asciiEqualFold exBarFiles exBarNodes).map Prod.fst = some exBarDevs ∧
    exBarDevs[2]? = some (exDevN9kv ["ha", "hb", "hc", "hd"] "a:Ethernet1/1|b" "hc" "hd" "Ethernet1/7") ∧
    exBarDevs[3]? = some (exDevN9kv ["ha", "hb", "hc", "hd"] "c" "hd" "hc" "Ethernet1/1") ∧
    findDeviceByHostname asciiEqualFold exBarDevs "hd".toList
      = some (exDevN9kv ["ha", "hb", "hc", "hd"] "c" "hd" "hc" "Ethernet1/1") ∧
    findClabName (exDevN9kv ["ha", "hb", "hc", "hd"] "c" "hd" "hc" "Ethernet1/1") "Ethernet1/7".toList
      = "Ethernet1/1".toList ∧
    findDeviceByHostname asciiEqualFold exBarDevs "hc".toList
      = some (exDevN9kv ["ha", "hb", "hc", "hd"] "a:Ethernet1/1|b" "hc" "hd" "Ethernet1/7") ∧
    findClabName (exDevN9kv ["ha", "hb", "hc", "hd"] "a:Ethernet1/1|b" "hc" "hd" "Ethernet1/7") "Ethernet1/7".toList
      = "Ethernet1/1".toList ∧
    collectLinks asciiEqualFold exBarDevs
      = [{ Endpoints := ["a:Ethernet1/1".toList, "b:Ethernet1/1|c:Ethernet1/1".toList] }] ∧
    (collectLinks asciiEqualFold exBarDevs).filter
      (joins "a:Ethernet1/1|b:Ethernet1/1".toList "c:Ethernet1/1".toList) = [] := by
  refine ⟨?_, ?_, ?_, ?_, ?_, ?_, ?_, ?_, ?_⟩ <;> decide!

/-- What the dedup of `collectLinks` achieves. For every device list,
`collectLinks` returns no two links with the same unordered pair of endpoints,
so at most one link joins two given endpoints; and when a mapping `mA` of a
device `A` claims a peer for which
`collectLinks` finds the device `B` and a clab name on `B`, exactly one link
joining `A:mA.Clab` and that interface of `B` is returned, provided no node
name and no clab name of the device list contains the character `|`. -/
theorem collectLinks_distinct_pairs (equalFold : Str → Str → Bool) (devs : List Device) :
    (collectLinks equalFold devs).Pairwise (fun l1 l2 => ¬ samePair l1 l2) ∧
    (∀ e1 e2 : Str, ((collectLinks equalFold devs).filter (joins e1 e2)).length ≤ 1) ∧
    (∀ (A B : Device) (mA : IfMap), A ∈ devs → mA ∈ A.GetIfMaps → mA.PeerNode ≠ [] →
      findDeviceByHostname equalFold devs mA.PeerNode = some B →
      findClabName B mA.PeerIf ≠ [] →
      (∀ d ∈ devs, '|' ∉ d.GetNodeName ∧ ∀ m ∈ d.GetIfMaps, '|' ∉ m.Clab) →
      ((collectLinks equalFold devs).filter
        (joins (A.GetNodeName ++ ":".toList ++ mA.Clab)
          (B.GetNodeName ++ ":".toList ++ findClabName B mA.PeerIf))).length = 1) := by
  refine ⟨collectLinks_pairwise equalFold devs, collectLinks_joins_le_one equalFold devs, ?_⟩
  intro A B mA hA hmA h1 h2 h3 hbar
  have hle := collectLinks_joins_le_one equalFold devs (A.GetNodeName ++ ":".toList ++ mA.Clab)
    (B.GetNodeName ++ ":".toList ++ findClabName B mA.PeerIf)
  obtain ⟨l, hl, hj⟩ := collectLinks_joins_exists equalFold devs A mA B hA hmA h1 h2 h3 hbar
  have hpos : 0 < ((collectLinks equalFold devs).filter
      (joins (A.GetNodeName ++ ":".toList ++ mA.Clab)
        (B.GetNodeName ++ ":".toList ++ findClabName B mA.PeerIf))).length :=
    List.length_pos_of_mem (List.mem_filter.2 ⟨hl, hj⟩)
  omega

/-- The dedup on the two mutually connected nodes of `exPairDevs`: exactly one
link joins `spine1:Ethernet1/1` and `leaf1:Ethernet1/1`. -/
theorem collectLinks_distinct_pairs_witness :
    ((collectLinks asciiEqualFold exPairDevs).filter
      (joins "spine1:Ethernet1/1".toList "leaf1:Ethernet1/1".toList)).length = 1 :=
  (collectLinks_distinct_pairs asciiEqualFold exPairDevs).2.2
    (exDevN9kv ["ha", "hb"] "spine1" "ha" "hb" "Ethernet1/7")
    (exDevN9kv ["ha", "hb"] "leaf1" "hb" "ha" "Ethernet1/1")
    { Clab := "Ethernet1/1".toList, Src := "Ethernet1/7".toList,
      PeerNode := "hb".toList, PeerIf := "Ethernet1/7".toList }
    (by decide!) (by decide!) (by decide!) (by decide!) (by decide!) (by decide!)

/-! ## C4: the link list and the order of the devices -/

/-- C4 fails on the code: the two nodes of the lab `exPairNodes` give, after
`ResolvePeers`, the link `spine1:Ethernet1/1 - leaf1:Ethernet1/1` when the
devices are met in one order and the link `leaf1:Ethernet1/1 -
spine1:Ethernet1/1` when they are met in the other: the endpoint order inside
the link, and with it the sort key, follows the device order. -/
theorem writeTopologyLinks_follows_device_order :
    labbuild asciiToLower asciiEqualFold exBarFiles exPairNodes
      = some (exPairDevs,
          [{ Endpoints := ["spine1:Ethernet1/1".toList, "leaf1:Ethernet1/1".toList] }]) ∧
    labbuild asciiToLower asciiEqualFold exBarFiles exPairNodes.reverse
      = some (exPairDevsRev,
          [{ Endpoints := ["leaf1:Ethernet1/1".toList, "spine1:Ethernet1/1".toList] }]) ∧
    ResolvePeers asciiToLower exPairDevs = exPairDevs ∧
    ResolvePeers asciiToLower exPairDevs.reverse = exPairDevs.reverse ∧
    writeTopologyLinks asciiEqualFold exPairDevs
      = [{ Endpoints := ["spine1:Ethernet1/1".toList, "leaf1:Ethernet1/1".toList] }] ∧
    writeTopologyLinks asciiEqualFold exPairDevs.reverse
      = [{ Endpoints := ["leaf1:Ethernet1/1".toList, "spine1:Ethernet1/1".toList] }] ∧
    writeTopologyLinks asciiEqualFold exPairDevs.reverse
      ≠ writeTopologyLinks asciiEqualFold exPairDevs := by
  refine ⟨?_, ?_, ?_, ?_, ?_, ?_, ?_⟩ <;> decide!

/-! ## C7: assignment and rewriting in `buildDevices` -/

/-- C7 fails on the code: `buildDevices` assigns and rewrites device by device,
so the device met first is rewritten while its peer has no mapping yet.  In the
lab `exPairNodes` the description line of the first device keeps the source
name `Ethernet1/7` of the peer interface and that of the second device names
the canonical `Ethernet1/1`, whichever of the two nodes comes first. -/
theorem buildDevices_rewrites_before_peer_is_assigned :
    (buildDevices exBarFiles exPairNodes ["ha".toList, "hb".toList]).map
        (fun devs => devs.map (fun d => (d.GetNodeName, d.base.Conf)))
      = some [("spine1".toList, ("hostname ha\ninterface Ethernet1/1\n description " ++
                  "hb:Ethernet1/7\n no shutdown\n!").toList),
              ("leaf1".toList, ("hostname hb\ninterface Ethernet1/1\n description " ++
                  "ha:Ethernet1/1\n no shutdown\n!").toList)] ∧
    (buildDevices exBarFiles exPairNodes.reverse ["ha".toList, "hb".toList]).map
        (fun devs => devs.map (fun d => (d.GetNodeName, d.base.Conf)))
      = some [("leaf1".toList, ("hostname hb\ninterface Ethernet1/1\n description " ++
                  "ha:Ethernet1/7\n no shutdown\n!").toList),
              ("spine1".toList, ("hostname ha\ninterface Ethernet1/1\n description " ++
                  "hb:Ethernet1/1\n no shutdown\n!").toList)] := by
  constructor <;> decide!

/-! ## The lines of a renamed block -/

/-- A renamed block has as many lines as the source block. -/
theorem bodyRewritten_length (re : Option Regexp) (devs : List Device) (clab : Str)
    (len i : Nat) (body : List Str) :
    (bodyRewritten re devs clab len i body).length = body.length := by
  induction body generalizing i with
  | nil => rfl
  | cons orig rest ih => simp only [bodyRewritten, List.length_cons, ih]

/-- Line `j` of a renamed block: the new header in front, the terminator at the
end, and the rewritten source line in between. -/
theorem bodyRewritten_get (re : Option Regexp) (devs : List Device) (clab : Str)
    (len i : Nat) (body : List Str) (j : Nat) :
    (bodyRewritten re devs clab len i body)[j]? =
      (body[j]?).map (fun orig =>
        if i + j = 0 then "interface ".toList ++ clab
        else if i + j + 1 = len then "!".toList
        else lineRewritten re devs orig) := by
  induction body generalizing i j with
  | nil => simp [bodyRewritten]
  | cons orig rest ih =>
    cases j with
    | zero => simp [bodyRewritten]
    | succ j =>
      simp only [bodyRewritten, List.getElem?_cons_succ, ih]
      have e1 : i + 1 + j = i + (j + 1) := by omega
      rw [e1]

/-- The first line of a renamed block is the header with the clab name. -/
theorem linesOf_head (re : Option Regexp) (devs : List Device) (pif : parsedIf) (clab : Str)
    (h : pif.body ≠ []) :
    (linesOf re devs (pif, some clab)).head? = some ("interface ".toList ++ clab) := by
  simp only [linesOf]
  cases hb : pif.body with
  | nil => exact absurd hb h
  | cons a l => simp [bodyRewritten]

/-- The last line of a renamed block of at least two lines is the terminator. -/
theorem linesOf_getLast (re : Option Regexp) (devs : List Device) (pif : parsedIf) (clab : Str)
    (h : 2 ≤ pif.body.length) :
    (linesOf re devs (pif, some clab)).getLast? = some "!".toList := by
  simp only [linesOf]
  rw [List.getLast?_eq_getElem?, bodyRewritten_length, bodyRewritten_get]
  have hlt : pif.body.length - 1 < pif.body.length := by omega
  rw [List.getElem?_eq_getElem hlt]
  have h0 : ¬ (0 + (pif.body.length - 1) = 0) := by omega
  have h1 : 0 + (pif.body.length - 1) + 1 = pif.body.length := by omega
  simp only [Option.map_some', h0, if_false, h1, if_true]

/-- An interior line of a renamed block is the rewritten source line. -/
theorem linesOf_interior (re : Option Regexp) (devs : List Device) (pif : parsedIf)
    (clab : Str) (i : Nat) (orig : Str) (h0 : 0 < i) (h1 : i + 1 < pif.body.length)
    (ho : pif.body[i]? = some orig) :
    (linesOf re devs (pif, some clab))[i]? = some (lineRewritten re devs orig) := by
  simp only [linesOf]
  rw [bodyRewritten_get, ho]
  have c0 : ¬ (0 + i = 0) := by omega
  have c1 : ¬ (0 + i + 1 = pif.body.length) := by omega
  simp only [Option.map_some', c0, if_false, c1]

/-- The blocks that reach the output are blocks of the parser, in source order. -/
theorem blocksEmitted_sublist (vh clabIfs : List Str) (ifs : List parsedIf) (k : Nat) :
    ((blocksEmitted vh clabIfs ifs k).map Prod.fst).Sublist ifs := by
  induction ifs generalizing k with
  | nil => simp [blocksEmitted]
  | cons pif rest ih =>
    unfold blocksEmitted
    split
    · split
      · simp only [List.map_cons]
        exact (ih (k + 1)).cons₂ pif
      · exact (ih k).cons pif
    · split
      · exact (ih k).cons pif
      · simp only [List.map_cons]
        exact (ih k).cons₂ pif

/-- A renamed block qualifies, and a block that reaches the output without a new
name is not physical. -/
theorem blocksEmitted_kind (vh clabIfs : List Str) (ifs : List parsedIf) (k : Nat) :
    ∀ e ∈ blocksEmitted vh clabIfs ifs k,
      (e.2 = none → e.1.phys = false) ∧ (e.2 ≠ none → qualifies vh e.1 = true) := by
  induction ifs generalizing k with
  | nil => simp [blocksEmitted]
  | cons pif rest ih =>
    intro e he
    unfold blocksEmitted at he
    split at he
    · rename_i hq
      split at he
      · rcases List.mem_cons.1 he with he | he
        · subst he
          exact ⟨fun hc => by simp at hc, fun _ => hq⟩
        · exact ih (k + 1) e he
      · exact ih k e he
    · split at he
      · exact ih k e he
      · rename_i hp
        rcases List.mem_cons.1 he with he | he
        · subst he
          exact ⟨fun _ => by simpa using hp, fun hc => absurd rfl hc⟩
        · exact ih k e he

/-- The mappings are read off the renamed blocks, position by position. -/
theorem filterMap_mappingOf_get (E : List (parsedIf × Option Str)) (i : Nat) :
    (E.filterMap mappingOf)[i]? = ((E.filter (fun e => e.2.isSome))[i]?).bind mappingOf := by
  induction E generalizing i with
  | nil => simp
  | cons e E ih =>
    obtain ⟨pif, c⟩ := e
    cases c with
    | none =>
      have h1 : mappingOf (pif, none) = none := rfl
      simp only [List.filterMap_cons, h1, List.filter_cons, Option.isSome_none,
        Bool.false_eq_true, if_false, ih]
    | some clab =>
      have h1 : mappingOf (pif, some clab)
          = some ⟨clab, pif.ifname, pif.peerNode, pif.peerIf⟩ := rfl
      simp only [List.filterMap_cons, h1, List.filter_cons, Option.isSome_some, if_true]
      cases i with
      | zero => simp [h1]
      | succ i => simp only [List.getElem?_cons_succ, ih]

/-- There are as many mappings as renamed blocks. -/
theorem filterMap_mappingOf_length (E : List (parsedIf × Option Str)) :
    (E.filterMap mappingOf).length = (E.filter (fun e => e.2.isSome)).length := by
  induction E with
  | nil => rfl
  | cons e E ih =>
    obtain ⟨pif, c⟩ := e
    cases c with
    | none =>
      have h1 : mappingOf (pif, none) = none := rfl
      simp only [List.filterMap_cons, h1, List.filter_cons, Option.isSome_none,
        Bool.false_eq_true, if_false, ih]
    | some clab =>
      have h1 : mappingOf (pif, some clab)
          = some ⟨clab, pif.ifname, pif.peerNode, pif.peerIf⟩ := rfl
      simp only [List.filterMap_cons, h1, List.filter_cons, Option.isSome_some, if_true,
        List.length_cons, ih]

/-! ## C8: the description lines of a renamed block -/

/-- C8. The output of `rewritePhys` is the global lines followed by the lines of
the emitted blocks, and in every renamed block every interior line (neither
the header nor the final line) whose trimmed text matches the peer pattern
with submatches `(host, if)` is replaced by its leading spaces followed by
`description host:clab`, where `clab` is the non-empty result of
`findClabNameByPeer devs host if`; it is kept unchanged when that result is
empty, and interior lines that do not match are kept unchanged. -/
theorem rewritePhys_rewrites_peer_descriptions (vh : List Str) (isPhys : Str → Bool)
    (clabIfs : List Str) (re : Regexp) (devs : List Device) (conf : Str) :
    ∃ allIfs globalLines maps,
      parseConf isPhys (some re) conf = some (allIfs, globalLines) ∧
      rewritePhysCore vh isPhys clabIfs (some re) devs conf
        = some (maps, globalLines ++
            ((blocksEmitted vh clabIfs allIfs 0).map (linesOf (some re) devs)).flatten) ∧
      ∀ (pif : parsedIf) (clab : Str), (pif, some clab) ∈ blocksEmitted vh clabIfs allIfs 0 →
        ∀ (i : Nat) (orig : Str), 0 < i → i + 1 < pif.body.length → pif.body[i]? = some orig →
          (linesOf (some re) devs (pif, some clab))[i]? = some
            (match re (trimSpace orig) with
             | some m =>
               if findClabNameByPeer devs m.1 m.2 ≠ [] then
                 orig.takeWhile (fun c => decide (c = ' ')) ++ "description ".toList ++ m.1 ++
                   ":".toList ++ findClabNameByPeer devs m.1 m.2
               else orig
             | none => orig) := by
  obtain ⟨allIfs, globalLines, hp, _, hcore⟩ :=
    rewritePhysCore_some vh isPhys clabIfs (some re) devs conf
  refine ⟨allIfs, globalLines, _, hp, hcore, ?_⟩
  intro pif clab _ i orig h0 h1 ho
  rw [linesOf_interior (some re) devs pif clab i orig h0 h1 ho]
  rfl

/-! ## C9: renamed blocks and `IfMaps` -/

/-- C9. The output of `rewritePhys` is the global lines followed by the lines of
the emitted blocks, which are blocks of the parser in source order.  The
renamed blocks among them correspond one to one, in order, with the new
`IfMaps`: the renamed block `i` is the source block named `IfMaps[i].Src`, its
lines begin with `interface ` followed by `IfMaps[i].Clab`, end with `!`, and
are as many as the lines of the source block.  Every other emitted block is
emitted with its lines unchanged, so no other block has a renamed header. -/
theorem rewritePhys_renamed_blocks_match_IfMaps (vh : List Str) (isPhys : Str → Bool)
    (clabIfs : List Str) (peerDescRE : Option Regexp) (devs : List Device) (conf : Str) :
    ∃ allIfs globalLines maps,
      parseConf isPhys peerDescRE conf = some (allIfs, globalLines) ∧
      rewritePhysCore vh isPhys clabIfs peerDescRE devs conf
        = some (maps, globalLines ++
            ((blocksEmitted vh clabIfs allIfs 0).map (linesOf peerDescRE devs)).flatten) ∧
      ((blocksEmitted vh clabIfs allIfs 0).map Prod.fst).Sublist allIfs ∧
      ((blocksEmitted vh clabIfs allIfs 0).filter (fun e => e.2.isSome)).length = maps.length ∧
      (∀ i, i < maps.length →
        ∃ (pif : parsedIf) (clab : Str) (m : IfMap),
          ((blocksEmitted vh clabIfs allIfs 0).filter (fun e => e.2.isSome))[i]?
            = some (pif, some clab) ∧
          maps[i]? = some m ∧ m.Clab = clab ∧ m.Src = pif.ifname ∧
          (linesOf peerDescRE devs (pif, some clab)).head?
            = some ("interface ".toList ++ m.Clab) ∧
          (linesOf peerDescRE devs (pif, some clab)).getLast? = some "!".toList ∧
          (linesOf peerDescRE devs (pif, some clab)).length = pif.body.length) ∧
      (∀ pif : parsedIf, (pif, none) ∈ blocksEmitted vh clabIfs allIfs 0 →
        linesOf peerDescRE devs (pif, none) = pif.body) := by
  obtain ⟨allIfs, globalLines, hp, hok, hcore⟩ :=
    rewritePhysCore_some vh isPhys clabIfs peerDescRE devs conf
  refine ⟨allIfs, globalLines, _, hp, hcore, blocksEmitted_sublist vh clabIfs allIfs 0,
    (filterMap_mappingOf_length _).symm, ?_, fun pif _ => rfl⟩
  intro i hi
  rw [filterMap_mappingOf_length] at hi
  have hget := filterMap_mappingOf_get (blocksEmitted vh clabIfs allIfs 0) i
  rw [List.getElem?_eq_getElem hi] at hget
  have hmem : ((blocksEmitted vh clabIfs allIfs 0).filter (fun e => e.2.isSome))[i]
      ∈ blocksEmitted vh clabIfs allIfs 0 :=
    (List.mem_filter.1 (List.getElem_mem hi)).1
  have hsome : (((blocksEmitted vh clabIfs allIfs 0).filter (fun e => e.2.isSome))[i]).2.isSome
      = true := by
    simpa using (List.mem_filter.1 (List.getElem_mem hi)).2
  have hidx := List.getElem?_eq_getElem hi
  generalize ((blocksEmitted vh clabIfs allIfs 0).filter (fun e => e.2.isSome))[i] = e
    at hget hmem hsome hidx
  obtain ⟨pif, c⟩ := e
  cases c with
  | none => simp at hsome
  | some clab =>
    have hq := (blocksEmitted_kind vh clabIfs allIfs 0 _ hmem).2 (by simp)
    have hpif : pif ∈ allIfs :=
      (blocksEmitted_sublist vh clabIfs allIfs 0).subset
        (List.mem_map.2 ⟨(pif, some clab), hmem, rfl⟩)
    have hpn : pif.peerNode ≠ [] := by
      simp only [qualifies, decide_eq_true_eq] at hq
      exact fun hc => hq.2.1 (Or.inl hc)
    obtain ⟨_, hne, h2⟩ := hok pif hpif
    refine ⟨pif, clab, _, hidx, hget, rfl, rfl,
      linesOf_head peerDescRE devs pif clab hne,
      linesOf_getLast peerDescRE devs pif clab (h2 hpn).1, ?_⟩
    simp only [linesOf, bodyRewritten_length]

/-! ## The parser on runs of lines -/

/-- Inside a non-physical block a body line only extends the body. -/
theorem scanStep_body_nonphys (isPhys : Str → Bool) (re : Option Regexp) (st : scanState)
    (line : Str) (h : isHeader line = false) (hin : st.inIf = true)
    (ht : isTerminator line = false) (hp : st.cur.phys = false) :
    scanStep isPhys re st line
      = some { st with cur := { st.cur with body := st.cur.body ++ [line] } } := by
  unfold isHeader at h
  unfold isTerminator at ht
  have ht1 : trimSpace line ≠ "!".toList := of_decide_eq_false ht
  simp only [scanStep]
  rw [if_neg (by rw [h]; exact Bool.false_ne_true), if_neg (fun hc => ht1 hc.2), if_pos hin]
  cases re with
  | none => rfl
  | some r =>
    have hq : ¬ (st.cur.peerNode = [] ∧ st.cur.phys = true) := by
      rw [hp]
      exact fun hc => Bool.false_ne_true hc.2
    simp only [if_neg hq]

/-- Outside a block, lines that are not headers are global lines. -/
theorem scanLoop_globals (isPhys : Str → Bool) (re : Option Regexp) (pre : List Str)
    (st : scanState) (hin : st.inIf = false) (hpre : ∀ l ∈ pre, isHeader l = false) :
    scanLoop isPhys re pre st = some { st with globalLines := st.globalLines ++ pre } := by
  induction pre generalizing st with
  | nil => simp [scanLoop]
  | cons l pre ih =>
    simp only [scanLoop, scanStep_global isPhys re st l (hpre l (List.mem_cons_self _ _)) hin]
    have := ih { st with globalLines := st.globalLines ++ [l] } hin
      (fun x hx => hpre x (List.mem_cons_of_mem _ hx))
    simpa using this

/-- Inside a block, lines that are neither headers nor terminators extend the
open block; they change neither its name nor its kind. -/
theorem scanLoop_body (isPhys : Str → Bool) (re : Option Regexp) (body : List Str)
    (st : scanState) (hin : st.inIf = true)
    (hbody : ∀ l ∈ body, isHeader l = false ∧ isTerminator l = false) :
    ∃ cur, scanLoop isPhys re body st = some { st with cur := cur } ∧
      cur.ifname = st.cur.ifname ∧ cur.body = st.cur.body ++ body ∧ cur.phys = st.cur.phys ∧
      (st.cur.phys = false → cur = { st.cur with body := st.cur.body ++ body }) := by
  induction body generalizing st with
  | nil => exact ⟨st.cur, by simp [scanLoop], rfl, by simp, rfl, fun _ => by simp⟩
  | cons l body ih =>
    obtain ⟨hl1, hl2⟩ := hbody l (List.mem_cons_self _ _)
    obtain ⟨c1, hc1, n1, b1, p1, _, _⟩ := scanStep_body isPhys re st l hl1 hin hl2
    obtain ⟨c2, hc2, n2, b2, p2, q2⟩ := ih { st with cur := c1 } hin
      (fun x hx => hbody x (List.mem_cons_of_mem _ hx))
    refine ⟨c2, by simp only [scanLoop, hc1, hc2], by rw [n2, n1], by rw [b2, b1]; simp,
      by rw [p2, p1], ?_⟩
    intro hp
    have e1 := scanStep_body_nonphys isPhys re st l hl1 hin hl2 hp
    rw [hc1] at e1
    have e2 : c1 = { st.cur with body := st.cur.body ++ [l] } := by
      have := Option.some.inj e1
      exact congrArg scanState.cur this
    rw [q2 (by rw [p1]; exact hp), e2]
    simp

/-- A block closed by a terminator is delivered with all its lines. -/
theorem scanLoop_closed_block (isPhys : Str → Bool) (re : Option Regexp) (hdr : Str)
    (body : List Str) (term : Str) (st : scanState) (hh : isHeader hdr = true)
    (hbody : ∀ l ∈ body, isHeader l = false ∧ isTerminator l = false)
    (ht1 : isHeader term = false) (ht2 : isTerminator term = true) :
    ∃ blk, scanLoop isPhys re (hdr :: body ++ [term]) st
        = some { allIfs := flushCur st ++ [blk], globalLines := st.globalLines,
                 cur := {}, inIf := false } ∧
      blk.ifname = headerName hdr ∧ blk.body = hdr :: body ++ [term] ∧
      blk.phys = isPhys (headerName hdr) ∧
      (isPhys (headerName hdr) = false →
        blk = { ifname := headerName hdr, body := hdr :: body ++ [term] }) := by
  obtain ⟨_, hs⟩ := scanStep_header isPhys re st hdr hh
  obtain ⟨cur, hc, n1, b1, p1, q1⟩ := scanLoop_body isPhys re body
    { allIfs := flushCur st, globalLines := st.globalLines,
      cur := { ifname := headerName hdr, body := [hdr], phys := isPhys (headerName hdr) },
      inIf := true } rfl hbody
  simp only at hc n1 b1 p1 q1
  have ht := scanStep_terminator isPhys re
    { allIfs := flushCur st, globalLines := st.globalLines, cur := cur, inIf := true }
    term ht1 rfl ht2
  simp only at ht
  refine ⟨{ cur with body := cur.body ++ [term] }, ?_, n1, by simp [b1], p1, ?_⟩
  · have happ : hdr :: body ++ [term] = [hdr] ++ (body ++ [term]) := by simp
    have h1 : scanLoop isPhys re [hdr] st = some
        { allIfs := flushCur st, globalLines := st.globalLines,
          cur := { ifname := headerName hdr, body := [hdr], phys := isPhys (headerName hdr) },
          inIf := true } := by
      simp only [scanLoop, hs]
    rw [happ, scanLoop_append isPhys re [hdr] (body ++ [term]) st _ h1,
      scanLoop_append isPhys re body [term] _ _ hc]
    simp only [scanLoop, ht]
  · intro hp
    rw [q1 hp]
    simp [hp]

/-- The text of well-delimited blocks of interfaces that are not physical: each
block is delivered with all its lines, and no line is a global line. -/
theorem scanLoop_closed_blocks (isPhys : Str → Bool) (re : Option Regexp)
    (blocks : List (Str × List Str × Str)) (st : scanState) (hin : st.inIf = false)
    (hb : ∀ b ∈ blocks, isHeader b.1 = true ∧ isPhys (headerName b.1) = false ∧
      (∀ l ∈ b.2.1, isHeader l = false ∧ isTerminator l = false) ∧
      isHeader b.2.2 = false ∧ isTerminator b.2.2 = true) :
    ∃ st1, scanLoop isPhys re (blocks.map (fun b => b.1 :: b.2.1 ++ [b.2.2])).flatten st
        = some st1 ∧
      st1.allIfs = st.allIfs ++ blocks.map (fun b =>
        { ifname := headerName b.1, body := b.1 :: b.2.1 ++ [b.2.2] }) ∧
      st1.globalLines = st.globalLines ∧ st1.inIf = false := by
  induction blocks generalizing st with
  | nil => exact ⟨st, by simp [scanLoop], by simp, rfl, hin⟩
  | cons b blocks ih =>
    obtain ⟨h1, h2, h3, h4, h5⟩ := hb b (List.mem_cons_self _ _)
    obtain ⟨blk, hblk, _, _, _, hq⟩ :=
      scanLoop_closed_block isPhys re b.1 b.2.1 b.2.2 st h1 h3 h4 h5
    obtain ⟨st1, e1, e2, e3, e4⟩ := ih
      { allIfs := flushCur st ++ [blk], globalLines := st.globalLines, cur := {}, inIf := false }
      rfl (fun x hx => hb x (List.mem_cons_of_mem _ hx))
    have hf : flushCur st = st.allIfs := by simp [flushCur, hin]
    refine ⟨st1, ?_, ?_, e3, e4⟩
    · simp only [List.map_cons, List.flatten_cons]
      rw [scanLoop_append isPhys re _ _ st _ hblk, e1]
    · rw [e2, hf, hq h2]
      simp

/-! ## The emitted blocks -/

/-- A terminator line is not a header line. -/
theorem isHeader_of_isTerminator (l : Str) (h : isTerminator l = true) : isHeader l = false := by
  unfold isTerminator at h
  have h1 : trimSpace l = "!".toList := of_decide_eq_true h
  unfold isHeader
  rw [h1]
  rfl

/-- Blocks that are not physical are all emitted, unchanged. -/
theorem blocksEmitted_nonphys (vh clabIfs : List Str) (ifs : List parsedIf) (k : Nat)
    (h : ∀ pif ∈ ifs, pif.phys = false) :
    blocksEmitted vh clabIfs ifs k = ifs.map (fun pif => (pif, none)) := by
  induction ifs generalizing k with
  | nil => rfl
  | cons pif rest ih =>
    have hp := h pif (List.mem_cons_self _ _)
    have hq : qualifies vh pif = false := by simp [qualifies, hp]
    unfold blocksEmitted
    simp only [hq, Bool.false_eq_true, if_false, hp, List.map_cons,
      ih k (fun x hx => h x (List.mem_cons_of_mem _ hx))]

/-- A qualifying block is renamed while the pool has an entry left. -/
theorem blocksEmitted_cons_renamed (vh clabIfs : List Str) (pif : parsedIf)
    (rest : List parsedIf) (k : Nat) (clab : Str) (hq : qualifies vh pif = true)
    (hc : clabIfs[k]? = some clab) :
    blocksEmitted vh clabIfs (pif :: rest) k
      = (pif, some clab) :: blocksEmitted vh clabIfs rest (k + 1) := by
  rw [blocksEmitted]
  simp only [hq, if_true, hc]

/-- A physical block that does not qualify, or that meets a used up pool, is not emitted. -/
theorem blocksEmitted_cons_skipped (vh clabIfs : List Str) (pif : parsedIf)
    (rest : List parsedIf) (k : Nat) (hp : pif.phys = true)
    (h : qualifies vh pif = false ∨ clabIfs[k]? = none) :
    blocksEmitted vh clabIfs (pif :: rest) k = blocksEmitted vh clabIfs rest k := by
  rw [blocksEmitted]
  by_cases hq : qualifies vh pif = true
  · rcases h with h | h
    · rw [h] at hq
      exact absurd hq Bool.false_ne_true
    · simp only [hq, if_true, h]
  · have hq0 : qualifies vh pif = false := by simpa using hq
    simp only [hq0, Bool.false_eq_true, if_false, hp, if_true]

/-- A block that is not physical is emitted unchanged. -/
theorem blocksEmitted_cons_plain (vh clabIfs : List Str) (pif : parsedIf)
    (rest : List parsedIf) (k : Nat) (hp : pif.phys = false) :
    blocksEmitted vh clabIfs (pif :: rest) k = (pif, none) :: blocksEmitted vh clabIfs rest k := by
  have hq : qualifies vh pif = false := by simp [qualifies, hp]
  rw [blocksEmitted]
  simp only [hq, Bool.false_eq_true, if_false, hp]

/-- The emitted blocks of two runs of blocks: the second run starts at the pool
entry reached by the first. -/
theorem blocksEmitted_append (vh clabIfs : List Str) (l1 l2 : List parsedIf) (k : Nat) :
    blocksEmitted vh clabIfs (l1 ++ l2) k
      = blocksEmitted vh clabIfs l1 k ++
        blocksEmitted vh clabIfs l2
          (k + ((blocksEmitted vh clabIfs l1 k).filterMap mappingOf).length) := by
  induction l1 generalizing k with
  | nil => simp [blocksEmitted]
  | cons pif rest ih =>
    simp only [List.cons_append]
    by_cases hp : pif.phys = true
    · by_cases hq : qualifies vh pif = true
      · cases hc : clabIfs[k]? with
        | none =>
          rw [blocksEmitted_cons_skipped vh clabIfs pif _ k hp (Or.inr hc),
            blocksEmitted_cons_skipped vh clabIfs pif _ k hp (Or.inr hc), ih k]
        | some clab =>
          have hm : mappingOf (pif, some clab)
              = some ⟨clab, pif.ifname, pif.peerNode, pif.peerIf⟩ := rfl
          rw [blocksEmitted_cons_renamed vh clabIfs pif _ k clab hq hc,
            blocksEmitted_cons_renamed vh clabIfs pif _ k clab hq hc, ih (k + 1)]
          simp only [List.cons_append, List.filterMap_cons, hm, List.length_cons]
          have e : k + 1 + ((blocksEmitted vh clabIfs rest (k + 1)).filterMap mappingOf).length
              = k + (((blocksEmitted vh clabIfs rest (k + 1)).filterMap mappingOf).length + 1) := by
            omega
          rw [e]
      · have hq0 : qualifies vh pif = false := by simpa using hq
        rw [blocksEmitted_cons_skipped vh clabIfs pif _ k hp (Or.inl hq0),
          blocksEmitted_cons_skipped vh clabIfs pif _ k hp (Or.inl hq0), ih k]
    · have hp0 : pif.phys = false := by simpa using hp
      have hm : mappingOf (pif, none) = none := rfl
      rw [blocksEmitted_cons_plain vh clabIfs pif _ k hp0,
        blocksEmitted_cons_plain vh clabIfs pif _ k hp0, ih k]
      simp only [List.cons_append, List.filterMap_cons, hm]

/-- The number of pool entries used by a run of blocks. -/
theorem blocksEmitted_used (vh clabIfs : List Str) (ifs : List parsedIf) :
    ((blocksEmitted vh clabIfs ifs 0).filterMap mappingOf).length
      = min clabIfs.length (qualifyingBlocks vh ifs).length := by
  rw [blocksEmitted_zip]
  simp

/-! ## The scanner and the lines of the text -/

/-- When every line fits the buffer, the scanner delivers the lines of the text. -/
theorem scanLines_eq_textLines (s : Str) (h : linesFit s = true) : scanLines s = textLines s := by
  unfold scanLines textLines
  simp only
  congr 1
  apply List.takeWhile_eq_self_iff.2
  intro p hp
  unfold linesFit at h
  rw [List.all_eq_true] at h
  apply h p
  split at hp
  · exact List.mem_of_mem_dropLast hp
  · exact hp

/-- A text that starts with a line and a line feed is cut after that line. -/
theorem splitOnNL_append (p rest : Str) (hp : '\n' ∉ p) :
    splitOnNL (p ++ '\n' :: rest) = p :: splitOnNL rest := by
  induction p with
  | nil => simp [splitOnNL]
  | cons c p ih =>
    have hc : c ≠ '\n' := fun e => hp (by rw [e]; exact List.mem_cons_self _ _)
    have hp1 : '\n' ∉ p := fun e => hp (List.mem_cons_of_mem _ e)
    have e : splitOnNL (p.append ('\n' :: rest)) = p :: splitOnNL rest := ih hp1
    simp only [List.cons_append, splitOnNL, hc, if_false]
    rw [e]

/-- The text cut at line feeds has at least one piece. -/
theorem splitOnNL_ne_nil (s : Str) : splitOnNL s ≠ [] := by
  cases s with
  | nil => simp [splitOnNL]
  | cons c cs =>
    simp only [splitOnNL]
    split
    · simp
    · split <;> simp

/-- The scanner delivers nothing when the first line does not fit the buffer. -/
theorem scanLines_long_first (p rest : Str) (hp : '\n' ∉ p)
    (hlong : maxScanTokenSize ≤ byteLen p) : scanLines (p ++ '\n' :: rest) = [] := by
  unfold scanLines
  simp only [splitOnNL_append p rest hp]
  obtain ⟨q, qs, hq⟩ := List.exists_cons_of_ne_nil (splitOnNL_ne_nil rest)
  rw [hq]
  have hnot : ¬ byteLen p < maxScanTokenSize := by omega
  split
  · simp [List.dropLast, List.takeWhile, hnot]
  · simp [List.takeWhile, hnot]

/-- The first line of a text is its first piece, and the other lines are the lines of the rest. -/
theorem textLines_append (p rest : Str) (hp : '\n' ∉ p) :
    textLines (p ++ '\n' :: rest) = dropCR p :: textLines rest := by
  unfold textLines
  simp only [splitOnNL_append p rest hp]
  obtain ⟨q, qs, hq⟩ := List.exists_cons_of_ne_nil (splitOnNL_ne_nil rest)
  rw [hq]
  simp only [List.getLast?_cons_cons]
  split <;> simp [List.dropLast]

/-- The byte length of a run of the letter `a`. -/
theorem byteLen_replicate (n : Nat) : byteLen (List.replicate n 'a') = n := by
  induction n with
  | zero => rfl
  | succ n ih =>
    have h1 : Char.utf8Size 'a' = 1 := by decide
    unfold byteLen at ih ⊢
    rw [List.replicate_succ, List.map_cons, List.sum_cons, ih, h1]
    omega

/-- The lines outside the blocks are lines of the list, in order. -/
theorem globalOf_sublist (inIf : Bool) (lines : List Str) :
    (globalOf inIf lines).Sublist lines := by
  induction lines generalizing inIf with
  | nil => exact List.Sublist.refl _
  | cons l ls ih =>
    unfold globalOf
    split
    · exact (ih true).cons l
    · split
      · exact (ih _).cons l
      · exact (ih false).cons₂ l

/-- The lines inside the blocks are lines of the list, in order. -/
theorem blockLinesOf_sublist (inIf : Bool) (lines : List Str) :
    (blockLinesOf inIf lines).Sublist lines := by
  induction lines generalizing inIf with
  | nil => exact List.Sublist.refl _
  | cons l ls ih =>
    unfold blockLinesOf
    split
    · exact (ih true).cons₂ l
    · split
      · exact (ih _).cons₂ l
      · exact (ih false).cons l

/-- The scanning loop sorts the lines: those outside every block go to the global
lines, the others to the bodies of the blocks, each kind in the order of the lines. -/
theorem scanLoop_partition (isPhys : Str → Bool) (re : Option Regexp) (lines : List Str)
    (st : scanState) (hname : st.inIf = true → st.cur.ifname ≠ []) :
    ∃ st1, scanLoop isPhys re lines st = some st1 ∧
      st1.globalLines = st.globalLines ++ globalOf st.inIf lines ∧
      ((flushCur st1).map (fun pif => pif.body)).flatten
        = ((flushCur st).map (fun pif => pif.body)).flatten ++ blockLinesOf st.inIf lines := by
  induction lines generalizing st with
  | nil => exact ⟨st, rfl, by simp [globalOf], by simp [blockLinesOf]⟩
  | cons l ls ih =>
    by_cases hh : isHeader l = true
    · obtain ⟨hn, hs⟩ := scanStep_header isPhys re st l hh
      obtain ⟨st1, h1, g1, b1⟩ := ih
        { allIfs := flushCur st, globalLines := st.globalLines,
          cur := { ifname := headerName l, body := [l], phys := isPhys (headerName l) },
          inIf := true } (fun _ => hn)
      refine ⟨st1, by simp only [scanLoop, hs, h1], ?_, ?_⟩
      · rw [g1]
        simp [globalOf, hh]
      · rw [b1]
        simp [blockLinesOf, hh, flushCur, hn]
    · have hh0 : isHeader l = false := by simpa using hh
      by_cases hin : st.inIf = true
      · have hcur : flushCur st = st.allIfs ++ [st.cur] := by simp [flushCur, hin, hname hin]
        by_cases ht : isTerminator l = true
        · have hs := scanStep_terminator isPhys re st l hh0 hin ht
          obtain ⟨st1, h1, g1, b1⟩ := ih
            { allIfs := st.allIfs ++ [{ st.cur with body := st.cur.body ++ [l] }],
              globalLines := st.globalLines, cur := {}, inIf := false }
            (fun hc => by simp at hc)
          refine ⟨st1, by simp only [scanLoop, hs, h1], ?_, ?_⟩
          · rw [g1]
            simp [globalOf, hh0, hin, ht]
          · rw [b1, hcur]
            simp [blockLinesOf, hh0, hin, ht, flushCur]
        · have ht0 : isTerminator l = false := by simpa using ht
          obtain ⟨cur, hs, n1, bd1, _⟩ := scanStep_body isPhys re st l hh0 hin ht0
          obtain ⟨st1, h1, g1, b1⟩ := ih { st with cur := cur }
            (fun _ => by rw [n1]; exact hname hin)
          refine ⟨st1, by simp only [scanLoop, hs, h1], ?_, ?_⟩
          · rw [g1]
            simp [globalOf, hh0, hin, ht0]
          · rw [b1, hcur]
            have hne : cur.ifname ≠ [] := by rw [n1]; exact hname hin
            simp [blockLinesOf, hh0, hin, ht0, flushCur, hne, bd1]
      · have hin0 : st.inIf = false := by simpa using hin
        have hs := scanStep_global isPhys re st l hh0 hin0
        obtain ⟨st1, h1, g1, b1⟩ := ih { st with globalLines := st.globalLines ++ [l] }
          (fun hc => absurd hc hin)
        refine ⟨st1, by simp only [scanLoop, hs, h1], ?_, ?_⟩
        · rw [g1]
          simp [globalOf, hh0, hin0]
        · rw [b1]
          simp [blockLinesOf, hh0, hin0, flushCur]

/-- The parser sorts the scanned lines into the global lines and the bodies of the blocks. -/
theorem parseConf_partition (isPhys : Str → Bool) (re : Option Regexp) (conf : Str)
    (allIfs : List parsedIf) (globalLines : List Str)
    (h : parseConf isPhys re conf = some (allIfs, globalLines)) :
    globalLines = globalOf false (scanLines conf) ∧
      (allIfs.map (fun pif => pif.body)).flatten = blockLinesOf false (scanLines conf) := by
  obtain ⟨st1, h1, g1, b1⟩ := scanLoop_partition isPhys re (scanLines conf) {}
    (fun hc => by simp at hc)
  simp only [parseConf, h1, Option.some.injEq, Prod.mk.injEq] at h
  obtain ⟨ha, hg⟩ := h
  subst ha
  subst hg
  refine ⟨by rw [g1]; simp, by rw [b1]; simp [flushCur]⟩

/-! ## C6: the order of the output lines -/

/-- C6, as stated, fails: the configuration `exConfGlobalAfter` has no physical
interface and its only interface block is closed by `!`, yet the global line
`router ospf 1` that follows the block in the input precedes it in the output. -/
theorem rewritePhys_moves_global_lines_up :
    linesFit exConfGlobalAfter = true ∧
    textLines exConfGlobalAfter
      = ["hostname ha".toList, "interface Loopback0".toList, " ip address 10.0.0.1/32".toList,
         "!".toList, "router ospf 1".toList] ∧
    isPhysN9kv "Loopback0".toList = false ∧
    (rewritePhysCore [] isPhysN9kv clabIfsN9kv (some peerDescREN9kv) [] exConfGlobalAfter).map
        Prod.snd
      = some ["hostname ha".toList, "router ospf 1".toList, "interface Loopback0".toList,
              " ip address 10.0.0.1/32".toList, "!".toList] := by
  refine ⟨?_, ?_, ?_, ?_⟩ <;> decide!

/-- C6, amended. The output of `rewritePhys` is all the global lines followed by
the lines of the emitted blocks, which are blocks of the parser in source
order.  For a text all of whose lines are shorter than the token size limit of
the scanner, the global lines are the lines of the text that lie outside every
interface block, in the order of the text, and the bodies of the parsed blocks
are the lines that lie inside the blocks, in the order of the text.  For such
a text without physical interface the output is the global lines followed by
the lines of all interface blocks; so the output lines are the lines of the
text when, in addition, every interface block is closed by `!` and every global
line comes before the first header. -/
theorem rewritePhys_output_order (vh : List Str) (isPhys : Str → Bool) (clabIfs : List Str)
    (peerDescRE : Option Regexp) (devs : List Device) (conf : Str) :
    ∃ allIfs globalLines maps out,
      parseConf isPhys peerDescRE conf = some (allIfs, globalLines) ∧
      rewritePhysCore vh isPhys clabIfs peerDescRE devs conf = some (maps, out) ∧
      out = globalLines ++
        ((blocksEmitted vh clabIfs allIfs 0).map (linesOf peerDescRE devs)).flatten ∧
      ((blocksEmitted vh clabIfs allIfs 0).map Prod.fst).Sublist allIfs ∧
      ((∀ pif ∈ allIfs, pif.phys = false) →
        out = globalLines ++ (allIfs.map (fun pif => pif.body)).flatten) ∧
      (linesFit conf = true →
        globalLines = globalOf false (textLines conf) ∧
        globalLines.Sublist (textLines conf) ∧
        (allIfs.map (fun pif => pif.body)).flatten = blockLinesOf false (textLines conf) ∧
        ((allIfs.map (fun pif => pif.body)).flatten).Sublist (textLines conf) ∧
        ∀ (pre : List Str) (blocks : List (Str × List Str × Str)),
          textLines conf = pre ++ (blocks.map blockLines).flatten →
          (∀ l ∈ pre, isHeader l = false) →
          (∀ b ∈ blocks, closedPlainBlock isPhys b) →
          globalLines = pre ∧ out = textLines conf) := by
  obtain ⟨allIfs, globalLines, hp, _, hcore⟩ :=
    rewritePhysCore_some vh isPhys clabIfs peerDescRE devs conf
  have hplain : (∀ pif ∈ allIfs, pif.phys = false) →
      globalLines ++ ((blocksEmitted vh clabIfs allIfs 0).map (linesOf peerDescRE devs)).flatten
        = globalLines ++ (allIfs.map (fun pif => pif.body)).flatten := by
    intro hall
    rw [blocksEmitted_nonphys vh clabIfs allIfs 0 hall, List.map_map]
    rfl
  refine ⟨allIfs, globalLines, _, _, hp, hcore, rfl, blocksEmitted_sublist vh clabIfs allIfs 0,
    hplain, ?_⟩
  intro hfit
  have hsl : scanLines conf = textLines conf := scanLines_eq_textLines conf hfit
  obtain ⟨hgl, hbl⟩ := parseConf_partition isPhys peerDescRE conf allIfs globalLines hp
  rw [hsl] at hgl hbl
  refine ⟨hgl, by rw [hgl]; exact globalOf_sublist _ _, hbl,
    by rw [hbl]; exact blockLinesOf_sublist _ _, ?_⟩
  intro pre blocks hlines hpre hblocks
  rw [← hsl] at hlines ⊢
  obtain ⟨s1, hs1⟩ : ∃ s1, s1 = ({ globalLines := pre } : scanState) := ⟨_, rfl⟩
  have h1 : scanLoop isPhys peerDescRE pre {} = some s1 := by
    rw [scanLoop_globals isPhys peerDescRE pre {} rfl hpre, hs1]
    simp
  obtain ⟨s2, e1, e2, e3, e4⟩ := scanLoop_closed_blocks isPhys peerDescRE blocks s1
    (by rw [hs1]) (fun b hb => by
      obtain ⟨c1, c2, c3, c4⟩ := hblocks b hb
      exact ⟨c1, c2, c3, isHeader_of_isTerminator _ c4, c4⟩)
  have hparse : parseConf isPhys peerDescRE conf
      = some (blocks.map (fun b => { ifname := headerName b.1, body := blockLines b }), pre) := by
    have hflat : (blocks.map blockLines).flatten
        = (blocks.map (fun b => b.1 :: b.2.1 ++ [b.2.2])).flatten := rfl
    simp only [parseConf, hlines, hflat,
      scanLoop_append isPhys peerDescRE pre _ {} s1 h1, e1]
    have hf : flushCur s2 = s2.allIfs := by simp [flushCur, e4]
    rw [hf, e2, e3, hs1]
    simp [blockLines]
  rw [hp] at hparse
  have ha : allIfs = blocks.map (fun b => { ifname := headerName b.1, body := blockLines b }) :=
    congrArg Prod.fst (Option.some.inj hparse)
  have hg : globalLines = pre := congrArg Prod.snd (Option.some.inj hparse)
  refine ⟨hg, ?_⟩
  have hall : ∀ pif ∈ allIfs, pif.phys = false := by
    intro pif hm
    rw [ha] at hm
    obtain ⟨b, _, hb⟩ := List.mem_map.1 hm
    rw [← hb]
  rw [hplain hall, hlines, hg, ha, List.map_map]
  rfl

/-- C6, amended, on `exConfGlobalFirst`: two global lines, then two closed blocks
of interfaces that are not physical; the output lines are the lines of the text. -/
theorem rewritePhys_output_order_witness :
    linesFit exConfGlobalFirst = true ∧
    ∃ maps, rewritePhysCore [] isPhysN9kv clabIfsN9kv (some peerDescREN9kv) [] exConfGlobalFirst
      = some (maps, textLines exConfGlobalFirst) := by
  refine ⟨by decide!, ?_⟩
  obtain ⟨allIfs, globalLines, maps, out, _, hcore, _, _, _, h⟩ :=
    rewritePhys_output_order [] isPhysN9kv clabIfsN9kv (some peerDescREN9kv) [] exConfGlobalFirst
  have h1 := (h (by decide!)).2.2.2.2 ["hostname ha".toList, "!".toList]
    [("interface Loopback0".toList, [" ip address 10.0.0.1/32".toList], "!".toList),
     ("interface mgmt0".toList, [" vrf member management".toList], "!".toList)]
    (by decide!) (by decide!) (by unfold closedPlainBlock; decide!)
  exact ⟨maps, by rw [hcore, h1.2]⟩

/-! ## C5: the blocks that receive no clab name -/

/-- C5, as stated, fails: in `exConfUnlinked` the physical block without peer
claim and the physical block whose peer hostname is not valid receive no clab
name, and none of their lines reaches the output: the output is the global
line alone. -/
theorem rewritePhys_drops_unlinked_physical_blocks :
    parseConf isPhysN9kv (some peerDescREN9kv) exConfUnlinked
      = some ([{ ifname := "Ethernet1/5".toList,
                 body := ["interface Ethernet1/5".toList, " no shutdown".toList, "!".toList],
                 phys := true },
               { ifname := "Ethernet1/6".toList,
                 body := ["interface Ethernet1/6".toList, " description hz:Ethernet1/1".toList,
                          "!".toList],
                 peerNode := "hz".toList, peerIf := "Ethernet1/1".toList, phys := true }],
              ["hostname ha".toList]) ∧
    rewritePhysCore ["ha".toList, "hb".toList] isPhysN9kv clabIfsN9kv (some peerDescREN9kv) []
        exConfUnlinked
      = some ([], ["hostname ha".toList]) := by
  constructor <;> decide!

/-- C5, amended. Every block of an interface that is not physical appears in the
output of `rewritePhys` with all of its lines unchanged and in a row.  A
physical block that receives no clab name (it has no peer claim, or its peer
hostname is not valid, or the pool is used up by the qualifying blocks before
it) is left out of the output: mappings and output are those of the block
list without it. -/
theorem rewritePhys_keeps_plain_blocks (vh : List Str) (isPhys : Str → Bool)
    (clabIfs : List Str) (peerDescRE : Option Regexp) (devs : List Device) (conf : Str) :
    ∃ allIfs globalLines maps out,
      parseConf isPhys peerDescRE conf = some (allIfs, globalLines) ∧
      rewritePhysCore vh isPhys clabIfs peerDescRE devs conf = some (maps, out) ∧
      (∀ pif ∈ allIfs, pif.phys = false → ∃ before after, out = before ++ pif.body ++ after) ∧
      (∀ (l1 : List parsedIf) (pif : parsedIf) (l2 : List parsedIf),
        allIfs = l1 ++ pif :: l2 → pif.phys = true →
        (qualifies vh pif = false ∨ clabIfs.length ≤ (qualifyingBlocks vh l1).length) →
        assignLoop vh clabIfs (l1 ++ l2) 0 [] = some maps ∧
        outputLoop vh clabIfs peerDescRE devs (l1 ++ l2) 0 globalLines = some out) := by
  obtain ⟨allIfs, globalLines, hp, hok, hcore⟩ :=
    rewritePhysCore_some vh isPhys clabIfs peerDescRE devs conf
  refine ⟨allIfs, globalLines, _, _, hp, hcore, ?_, ?_⟩
  · intro pif hm hphys
    obtain ⟨l1, l2, hsplit⟩ := List.append_of_mem hm
    rw [hsplit, blocksEmitted_append, blocksEmitted_cons_plain vh clabIfs pif l2 _ hphys]
    refine ⟨globalLines ++ ((blocksEmitted vh clabIfs l1 0).map (linesOf peerDescRE devs)).flatten,
      ((blocksEmitted vh clabIfs l2 (0 + ((blocksEmitted vh clabIfs l1 0).filterMap
        mappingOf).length)).map (linesOf peerDescRE devs)).flatten, ?_⟩
    simp [linesOf]
  · intro l1 pif l2 hsplit hphys hcond
    have hskip : blocksEmitted vh clabIfs allIfs 0 = blocksEmitted vh clabIfs (l1 ++ l2) 0 := by
      rw [hsplit, blocksEmitted_append, blocksEmitted_append]
      congr 1
      apply blocksEmitted_cons_skipped vh clabIfs pif l2 _ hphys
      rcases hcond with hc | hc
      · exact Or.inl hc
      · right
        apply List.getElem?_eq_none
        rw [blocksEmitted_used]
        omega
    have hre : ∀ p ∈ l1 ++ l2, p.peerNode ≠ [] → peerDescRE ≠ none := by
      intro p hpm hn
      have : p ∈ allIfs := by
        rw [hsplit]
        rcases List.mem_append.1 hpm with h | h
        · exact List.mem_append_left _ h
        · exact List.mem_append_right _ (List.mem_cons_of_mem _ h)
      exact ((hok p this).2.2 hn).2.1
    rw [assignLoop_some, outputLoop_some vh clabIfs peerDescRE devs (l1 ++ l2) 0 globalLines hre,
      hskip]
    simp

/-! ## C10: a block left open at the end of the input -/

/-- A header followed to the end of the input by lines that are neither headers
nor terminators: the parser delivers the open block as the last block. -/
theorem parseConf_open_block (isPhys : Str → Bool) (re : Option Regexp) (conf : Str)
    (pre : List Str) (hdr : Str) (body : List Str)
    (hlines : scanLines conf = pre ++ hdr :: body) (hh : isHeader hdr = true)
    (hbody : ∀ l ∈ body, isHeader l = false ∧ isTerminator l = false) :
    ∃ earlier pif globalLines,
      parseConf isPhys re conf = some (earlier ++ [pif], globalLines) ∧
      pif.ifname = headerName hdr ∧ pif.body = hdr :: body ∧
      pif.phys = isPhys (headerName hdr) := by
  obtain ⟨st1, h1⟩ := scanLoop_some isPhys re pre {}
  obtain ⟨hn, hs⟩ := scanStep_header isPhys re st1 hdr hh
  obtain ⟨cur, hc, n1, b1, p1, _⟩ := scanLoop_body isPhys re body
    { allIfs := flushCur st1, globalLines := st1.globalLines,
      cur := { ifname := headerName hdr, body := [hdr], phys := isPhys (headerName hdr) },
      inIf := true } rfl hbody
  simp only at hc n1 b1 p1
  have h2 : scanLoop isPhys re [hdr] st1 = some
      { allIfs := flushCur st1, globalLines := st1.globalLines,
        cur := { ifname := headerName hdr, body := [hdr], phys := isPhys (headerName hdr) },
        inIf := true } := by
    simp only [scanLoop, hs]
  have happ : pre ++ hdr :: body = pre ++ ([hdr] ++ body) := by simp
  refine ⟨flushCur st1, cur, st1.globalLines, ?_, n1, by simp [b1], p1⟩
  have hne : cur.ifname ≠ [] := by rw [n1]; exact hn
  simp only [parseConf, hlines]
  rw [happ, scanLoop_append isPhys re pre _ {} st1 h1, scanLoop_append isPhys re [hdr] body st1 _ h2,
    hc]
  simp [flushCur, hne]

/-- C10, as stated, fails: the last block of `exConfOpenPhys` is open at the end
of the input; the parser delivers it, but it is physical without peer claim,
and it does not appear in the output, which is the global line alone. -/
theorem rewritePhys_drops_open_physical_block :
    linesFit exConfOpenPhys = true ∧
    textLines exConfOpenPhys
      = ["hostname ha".toList, "interface Ethernet1/5".toList, " no shutdown".toList] ∧
    parseConf isPhysN9kv (some peerDescREN9kv) exConfOpenPhys
      = some ([{ ifname := "Ethernet1/5".toList,
                 body := ["interface Ethernet1/5".toList, " no shutdown".toList],
                 phys := true }],
              ["hostname ha".toList]) ∧
    rewritePhysCore ["ha".toList, "hb".toList] isPhysN9kv clabIfsN9kv (some peerDescREN9kv) []
        exConfOpenPhys
      = some ([], ["hostname ha".toList]) := by
  refine ⟨?_, ?_, ?_, ?_⟩ <;> decide!

/-- C10, amended. In a text all of whose lines are shorter than the token size
limit of the scanner, an interface block that is still open at the end of the
text (a header line followed to the last line of the text by lines that are
neither headers nor `!` lines) is still delivered by the parser, as the last
block.  When its interface is not
physical its lines end the output, unchanged.  When it qualifies (physical,
with a peer claim on a valid host) and the qualifying blocks before it leave a
pool entry, it receives the last mapping of `IfMaps`, with that entry, and its
renamed lines end the output.  Otherwise it is physical without clab name and
is left out: mappings and output are those of the blocks before it. -/
theorem rewritePhys_open_block_at_end (vh : List Str) (isPhys : Str → Bool)
    (clabIfs : List Str) (peerDescRE : Option Regexp) (devs : List Device) (conf : Str)
    (pre : List Str) (hdr : Str) (body : List Str) (hfit : linesFit conf = true)
    (hlines : textLines conf = pre ++ hdr :: body) (hh : isHeader hdr = true)
    (hbody : ∀ l ∈ body, isHeader l = false ∧ isTerminator l = false) :
    ∃ earlier pif globalLines maps out,
      parseConf isPhys peerDescRE conf = some (earlier ++ [pif], globalLines) ∧
      pif.ifname = headerName hdr ∧ pif.body = hdr :: body ∧
      pif.phys = isPhys (headerName hdr) ∧
      rewritePhysCore vh isPhys clabIfs peerDescRE devs conf = some (maps, out) ∧
      (pif.phys = false → ∃ out0, out = out0 ++ hdr :: body) ∧
      (qualifies vh pif = true → (qualifyingBlocks vh earlier).length < clabIfs.length →
        ∃ clab maps0 out0, clabIfs[(qualifyingBlocks vh earlier).length]? = some clab ∧
          maps = maps0 ++ [{ Clab := clab, Src := pif.ifname, PeerNode := pif.peerNode,
                             PeerIf := pif.peerIf }] ∧
          out = out0 ++ linesOf peerDescRE devs (pif, some clab)) ∧
      (pif.phys = true →
        (qualifies vh pif = false ∨ clabIfs.length ≤ (qualifyingBlocks vh earlier).length) →
        assignLoop vh clabIfs earlier 0 [] = some maps ∧
        outputLoop vh clabIfs peerDescRE devs earlier 0 globalLines = some out) := by
  obtain ⟨earlier, pif, globalLines, hparse, hn, hb, hph⟩ :=
    parseConf_open_block isPhys peerDescRE conf pre hdr body
      ((scanLines_eq_textLines conf hfit).trans hlines) hh hbody
  obtain ⟨allIfs, gl, hp, hok, hcore⟩ :=
    rewritePhysCore_some vh isPhys clabIfs peerDescRE devs conf
  rw [hparse] at hp
  have ha : earlier ++ [pif] = allIfs := congrArg Prod.fst (Option.some.inj hp)
  have hg : globalLines = gl := congrArg Prod.snd (Option.some.inj hp)
  subst ha
  subst hg
  have hused : 0 + ((blocksEmitted vh clabIfs earlier 0).filterMap mappingOf).length
      = min clabIfs.length (qualifyingBlocks vh earlier).length := by
    rw [blocksEmitted_used]
    omega
  refine ⟨earlier, pif, globalLines, _, _, hparse, hn, hb, hph, hcore, ?_, ?_, ?_⟩
  · intro hphys
    rw [blocksEmitted_append, blocksEmitted_cons_plain vh clabIfs pif [] _ hphys]
    refine ⟨globalLines ++
      ((blocksEmitted vh clabIfs earlier 0).map (linesOf peerDescRE devs)).flatten, ?_⟩
    simp [linesOf, blocksEmitted, hb]
  · intro hq hlt
    have hk : min clabIfs.length (qualifyingBlocks vh earlier).length
        = (qualifyingBlocks vh earlier).length := by omega
    have hc : clabIfs[(qualifyingBlocks vh earlier).length]?
        = some clabIfs[(qualifyingBlocks vh earlier).length] := List.getElem?_eq_getElem hlt
    refine ⟨clabIfs[(qualifyingBlocks vh earlier).length],
      (blocksEmitted vh clabIfs earlier 0).filterMap mappingOf,
      globalLines ++ ((blocksEmitted vh clabIfs earlier 0).map (linesOf peerDescRE devs)).flatten,
      hc, ?_, ?_⟩
    · rw [blocksEmitted_append, hused, hk,
        blocksEmitted_cons_renamed vh clabIfs pif [] _ _ hq hc]
      simp [blocksEmitted, mappingOf]
    · rw [blocksEmitted_append, hused, hk,
        blocksEmitted_cons_renamed vh clabIfs pif [] _ _ hq hc]
      simp [blocksEmitted]
  · intro hphys hcond
    have hskip : blocksEmitted vh clabIfs (earlier ++ [pif]) 0
        = blocksEmitted vh clabIfs earlier 0 := by
      rw [blocksEmitted_append, blocksEmitted_cons_skipped vh clabIfs pif [] _ hphys]
      · simp [blocksEmitted]
      · rcases hcond with hc | hc
        · exact Or.inl hc
        · right
          apply List.getElem?_eq_none
          rw [hused]
          omega
    have hre : ∀ p ∈ earlier, p.peerNode ≠ [] → peerDescRE ≠ none :=
      fun p hpm hnn => ((hok p (List.mem_append_left _ hpm)).2.2 hnn).2.1
    rw [assignLoop_some, outputLoop_some vh clabIfs peerDescRE devs earlier 0 globalLines hre,
      hskip]
    simp

/-- C10, amended, on `exConfOpenPlain`: the open block of `Loopback0` is not
physical, and its two lines end the output. -/
theorem rewritePhys_open_block_at_end_witness :
    linesFit exConfOpenPlain = true ∧
    ∃ maps out out0,
      rewritePhysCore [] isPhysN9kv clabIfsN9kv (some peerDescREN9kv) [] exConfOpenPlain
        = some (maps, out) ∧
      out = out0 ++ ["interface Loopback0".toList, " ip address 10.0.0.1/32".toList] := by
  refine ⟨by decide!, ?_⟩
  obtain ⟨earlier, pif, globalLines, maps, out, _, _, _, hph, hcore, hplain, _, _⟩ :=
    rewritePhys_open_block_at_end [] isPhysN9kv clabIfsN9kv (some peerDescREN9kv) []
      exConfOpenPlain ["hostname ha".toList] "interface Loopback0".toList
      [" ip address 10.0.0.1/32".toList] (by decide!) (by decide!) (by decide!) (by decide!)
  obtain ⟨out0, ho⟩ := hplain (by rw [hph]; decide!)
  exact ⟨maps, out, out0, hcore, ho⟩

/-! ## C12: the interface classifiers -/

/-- The function `strings.HasPrefix` tests for a prefix. -/
theorem hasPrefix_iff (s p : Str) : hasPrefix s p = true ↔ p <+: s := by
  unfold hasPrefix
  exact List.isPrefixOf_iff_prefix

/-- C12. The classifiers are total functions and equal their reference
predicates: `isPhysCat9kv` is true exactly for the names that begin with
`GigabitEthernet`, `TenGigabitEthernet`, `TwentyFiveGigE` or `HundredGigE` and
do not begin with the management prefix `GigabitEthernet0/0`; `isPhysN9kv` is
true exactly for the names that begin with `Ethernet`; the empty string is not
physical for either. -/
theorem classifiers_equal_reference_predicates (ifName : Str) :
    (isPhysCat9kv ifName = true ↔
      (("GigabitEthernet".toList <+: ifName ∨ "TenGigabitEthernet".toList <+: ifName ∨
        "TwentyFiveGigE".toList <+: ifName ∨ "HundredGigE".toList <+: ifName) ∧
       ¬ "GigabitEthernet0/0".toList <+: ifName)) ∧
    (isPhysN9kv ifName = true ↔ "Ethernet".toList <+: ifName) ∧
    isPhysCat9kv [] = false ∧ isPhysN9kv [] = false := by
  refine ⟨?_, ?_, by decide, by decide⟩
  · unfold isPhysCat9kv
    by_cases h0 : ifName.length = 0
    · have he : ifName = [] := List.length_eq_zero.1 h0
      subst he
      simp only [List.length_nil, if_true, Bool.false_eq_true, false_iff, not_and, not_not]
      intro h
      rcases h with h | h | h | h <;> simp at h
    · by_cases hm : hasPrefix ifName "GigabitEthernet0/0".toList = true
      · simp only [h0, if_false, hm, if_true, Bool.false_eq_true, false_iff, not_and, not_not]
        intro _
        exact (hasPrefix_iff _ _).1 hm
      · have hm1 : ¬ "GigabitEthernet0/0".toList <+: ifName :=
          fun hc => hm ((hasPrefix_iff _ _).2 hc)
        have hm0 : hasPrefix ifName "GigabitEthernet0/0".toList = false := by simpa using hm
        simp only [h0, if_false, hm0, Bool.false_eq_true, Bool.or_eq_true, hasPrefix_iff, hm1,
          not_false_eq_true, and_true, or_assoc]
  · unfold isPhysN9kv
    exact hasPrefix_iff _ _

/-! ## C18: the dedup key -/

/-- C18. The key does not depend on the order of the two endpoints, and on
endpoints that do not contain the character `|` two keys are equal exactly
when the unordered pairs are equal. -/
theorem makeLinkKey_identifies_unordered_pair :
    (∀ a b : Str, makeLinkKey a b = makeLinkKey b a) ∧
    (∀ a b c d : Str, '|' ∉ a → '|' ∉ b → '|' ∉ c → '|' ∉ d →
      (makeLinkKey a b = makeLinkKey c d ↔ (a = c ∧ b = d) ∨ (a = d ∧ b = c))) := by
  refine ⟨makeLinkKey_comm, ?_⟩
  intro a b c d ha hb hc hd
  constructor
  · exact makeLinkKey_inj a b c d ha hb hc hd
  · rintro (⟨h1, h2⟩ | ⟨h1, h2⟩)
    · rw [h1, h2]
    · rw [h1, h2]
      exact makeLinkKey_comm d c

/-- C18 on the endpoints `spine1:Ethernet1/1` and `leaf1:Ethernet1/1`: the keys
of the two orders are equal. -/
theorem makeLinkKey_identifies_unordered_pair_witness :
    makeLinkKey "spine1:Ethernet1/1".toList "leaf1:Ethernet1/1".toList
      = makeLinkKey "leaf1:Ethernet1/1".toList "spine1:Ethernet1/1".toList :=
  (makeLinkKey_identifies_unordered_pair.2 "spine1:Ethernet1/1".toList "leaf1:Ethernet1/1".toList
    "leaf1:Ethernet1/1".toList "spine1:Ethernet1/1".toList
    (by decide) (by decide) (by decide) (by decide)).2 (Or.inr ⟨rfl, rfl⟩)

/-! ## C14: the hostname comparison of `findClabNameByPeer` -/

/-- C14 fails on the code: `findClabNameByPeer` compares the hostname with `==`.
On the device list `exPairDevs` the peer `hb:Ethernet1/7` has the clab name
`Ethernet1/1`, the peer `HB:Ethernet1/7` has none, while the case-insensitive
`findDeviceByHostname` finds the device for `HB`. -/
theorem findClabNameByPeer_is_case_sensitive :
    findClabNameByPeer exPairDevs "hb".toList "Ethernet1/7".toList = "Ethernet1/1".toList ∧
    findClabNameByPeer exPairDevs "HB".toList "Ethernet1/7".toList = [] ∧
    asciiToLower "HB".toList = asciiToLower "hb".toList ∧
    findDeviceByHostname asciiEqualFold exPairDevs "HB".toList
      = findDeviceByHostname asciiEqualFold exPairDevs "hb".toList ∧
    (findDeviceByHostname asciiEqualFold exPairDevs "HB".toList).map
        (fun d => findClabName d "Ethernet1/7".toList)
      = some "Ethernet1/1".toList := by
  refine ⟨?_, ?_, ?_, ?_, ?_⟩ <;> decide!

/-! ## C15: the canonical names of a device -/

/-- The clab names of the zip of a pool with the qualifying blocks are the first pool entries. -/
theorem zip_clab_names (pool : List Str) (Q : List parsedIf) :
    (List.zipWith
        (fun clab q => { Clab := clab, Src := q.ifname, PeerNode := q.peerNode,
                         PeerIf := q.peerIf : IfMap }) pool Q).map (fun m => m.Clab)
      = pool.take Q.length := by
  induction pool generalizing Q with
  | nil => simp
  | cons c pool ih =>
    cases Q with
    | nil => simp
    | cons q Q => simp [ih]

/-- The method `rewritePhys` never panics: the new device holds the mappings of
the renamed blocks and the joined output lines. -/
theorem rewritePhys_some (b : Base) (isPhys : Str → Bool) (clabIfs : List Str)
    (re : Option Regexp) (devs : List Device) :
    ∃ allIfs globalLines, parseConf isPhys re b.Conf = some (allIfs, globalLines) ∧
      (∀ pif ∈ allIfs, blockOk re pif) ∧
      b.rewritePhys isPhys clabIfs re devs
        = some { b with
            IfMaps := (blocksEmitted b.validHosts clabIfs allIfs 0).filterMap mappingOf,
            Conf := join (globalLines ++ ((blocksEmitted b.validHosts clabIfs allIfs 0).map
              (linesOf re devs)).flatten) "\n".toList } := by
  obtain ⟨allIfs, globalLines, hp, hok, hcore⟩ :=
    rewritePhysCore_some b.validHosts isPhys clabIfs re devs b.Conf
  exact ⟨allIfs, globalLines, hp, hok, by simp only [Base.rewritePhys, hcore]⟩

/-- The clab names recorded by `rewritePhys` are the first entries of the pool, in pool order. -/
theorem rewritePhys_clab_names (b : Base) (isPhys : Str → Bool) (clabIfs : List Str)
    (re : Option Regexp) (devs : List Device) :
    ∃ b1, b.rewritePhys isPhys clabIfs re devs = some b1 ∧
      b1.IfMaps.map (fun m => m.Clab) = clabIfs.take b1.IfMaps.length := by
  obtain ⟨allIfs, globalLines, _, _, hb⟩ := rewritePhys_some b isPhys clabIfs re devs
  refine ⟨_, hb, ?_⟩
  simp only [blocksEmitted_zip, List.drop_zero, zip_clab_names, List.length_zipWith]
  rw [List.take_eq_take]
  omega

/-- The clab names recorded from a pool without repetition are pairwise distinct
members of the pool, and at most as many as the pool has. -/
theorem rewritePhys_clab_names_nodup (b : Base) (isPhys : Str → Bool) (clabIfs : List Str)
    (re : Option Regexp) (devs : List Device) (hpool : clabIfs.Nodup) :
    ∃ b1, b.rewritePhys isPhys clabIfs re devs = some b1 ∧
      (b1.IfMaps.map (fun m => m.Clab)).Nodup ∧
      (∀ m ∈ b1.IfMaps, m.Clab ∈ clabIfs) ∧ b1.IfMaps.length ≤ clabIfs.length := by
  obtain ⟨b1, h1, h2⟩ := rewritePhys_clab_names b isPhys clabIfs re devs
  refine ⟨b1, h1, ?_, ?_, ?_⟩
  · rw [h2]
    exact hpool.sublist (List.take_sublist _ _)
  · intro m hm
    have : m.Clab ∈ b1.IfMaps.map (fun m => m.Clab) := List.mem_map.2 ⟨m, hm, rfl⟩
    rw [h2] at this
    exact List.mem_of_mem_take this
  · have := congrArg List.length h2
    simp only [List.length_map, List.length_take] at this
    omega

/-- C15. The method `RewritePhys` of a cisco_cat9kv or cisco_n9kv device always
returns, and in the new `IfMaps` the canonical names are pairwise distinct,
each is a member of the name pool of the kind, and there are at most as many
mappings as the pool has names: 8 for cisco_cat9kv, 64 for cisco_n9kv. -/
theorem RewritePhys_canonical_names_distinct_in_pool (d : Device) (devs : List Device) :
    ∃ d1, d.RewritePhys devs = some d1 ∧
      (d1.GetIfMaps.map (fun m => m.Clab)).Nodup ∧
      (match d with
       | .Cat9kv _ => (∀ m ∈ d1.GetIfMaps, m.Clab ∈ clabIfsCat9kv) ∧ d1.GetIfMaps.length ≤ 8
       | .N9kv _ => (∀ m ∈ d1.GetIfMaps, m.Clab ∈ clabIfsN9kv) ∧ d1.GetIfMaps.length ≤ 64) ∧
      clabIfsCat9kv.length = 8 ∧ clabIfsN9kv.length = 64 := by
  cases d with
  | Cat9kv b =>
    obtain ⟨b1, h1, h2, h3, h4⟩ := rewritePhys_clab_names_nodup b isPhysCat9kv clabIfsCat9kv
      (some peerDescRECat9kv) devs (by decide!)
    exact ⟨.Cat9kv b1, by simp [Device.RewritePhys, h1], h2, ⟨h3, h4⟩, by decide, by decide⟩
  | N9kv b =>
    obtain ⟨b1, h1, h2, h3, h4⟩ := rewritePhys_clab_names_nodup b isPhysN9kv clabIfsN9kv
      (some peerDescREN9kv) devs (by decide!)
    exact ⟨.N9kv b1, by simp [Device.RewritePhys, h1], h2, ⟨h3, h4⟩, by decide, by decide⟩

/-! ## C16: `ExtractHostname` -/

/-- A string with a character that is not a space has a non-empty trimmed text. -/
theorem trimSpace_ne_nil (s : Str) (h : ∃ c ∈ s, isSpace c = false) : trimSpace s ≠ [] := by
  obtain ⟨c, hc, hs⟩ := h
  unfold trimSpace
  intro hnil
  rw [List.rdropWhile_eq_nil_iff] at hnil
  have hd : s.dropWhile isSpace ≠ [] := by
    intro h0
    rw [List.dropWhile_eq_nil_iff] at h0
    have := h0 c hc
    rw [hs] at this
    exact Bool.false_ne_true this
  have hhead := List.head_dropWhile_not isSpace s hd
  have hmem : (s.dropWhile isSpace).head hd ∈ s.dropWhile isSpace := List.head_mem hd
  have := hnil _ hmem
  rw [this] at hhead
  cases hhead

/-- The hostname of a hostname line: what follows the keyword and the space,
trimmed; it is not empty. -/
theorem hostname_of_line (line : Str)
    (h : hasPrefix (trimSpace line) "hostname ".toList = true) :
    trimSpace (trimPrefix (trimSpace line) "hostname".toList)
        = trimSpace ((trimSpace line).drop 9) ∧
      trimSpace ((trimSpace line).drop 9) ≠ [] := by
  obtain ⟨rest, hrest⟩ : ∃ rest, trimSpace line = "hostname ".toList ++ rest := by
    obtain ⟨r, hr⟩ := List.isPrefixOf_iff_prefix.1 h
    exact ⟨r, hr.symm⟩
  have hne : trimSpace line ≠ [] := by rw [hrest]; simp
  have hlast := trimSpace_getLast line hne
  have hex : ∃ c ∈ rest, isSpace c = false := by
    rcases List.eq_nil_or_concat rest with hr | ⟨r, c, hr⟩
    · subst hr
      exfalso
      have hl : (trimSpace line).getLast? = some ' ' := by rw [hrest]; rfl
      rw [List.getLast?_eq_getLast _ hne] at hl
      rw [Option.some.inj hl] at hlast
      revert hlast
      decide
    · refine ⟨c, by simp [hr], ?_⟩
      have : (trimSpace line).getLast hne = c := by simp [hrest, hr]
      rw [this] at hlast
      exact hlast
  have hdrop : (trimSpace line).drop 9 = rest := by rw [hrest]; rfl
  have hpre : trimPrefix (trimSpace line) "hostname".toList = ' ' :: rest := by
    rw [hrest]
    rfl
  rw [hpre, hdrop]
  refine ⟨?_, trimSpace_ne_nil rest hex⟩
  unfold trimSpace
  rfl

/-- The loop of `ExtractHostname` returns the hostname of the first hostname line. -/
theorem extractHostnameLoop_eq (lines : List Str) :
    extractHostnameLoop lines =
      match lines.find? (fun l => hasPrefix (trimSpace l) "hostname ".toList) with
      | none => []
      | some l => trimSpace (trimPrefix (trimSpace l) "hostname".toList) := by
  induction lines with
  | nil => rfl
  | cons line rest ih =>
    by_cases h : hasPrefix (trimSpace line) "hostname ".toList = true
    · simp only [extractHostnameLoop, h, if_true, List.find?_cons_of_pos]
    · have h0 : hasPrefix (trimSpace line) "hostname ".toList = false := by simpa using h
      simp only [extractHostnameLoop, h0, Bool.false_eq_true, if_false, ih]
      rw [List.find?_cons_of_neg _ (by simpa using h0)]

/-- On the lines the scanner delivers, `ExtractHostname` does what its comment
says: it returns the empty string exactly when no delivered line, once
trimmed, begins with `hostname ` (the word and a space); otherwise, for the
first such line, it returns what follows the word and the space in the
trimmed line, trimmed again, and that is not empty. -/
theorem ExtractHostname_first_hostname_line (conf : Str) :
    (ExtractHostname conf = [] ↔
      ∀ l ∈ scanLines conf, hasPrefix (trimSpace l) "hostname ".toList = false) ∧
    (∀ l : Str,
      (scanLines conf).find? (fun l => hasPrefix (trimSpace l) "hostname ".toList) = some l →
      ExtractHostname conf = trimSpace ((trimSpace l).drop 9) ∧ ExtractHostname conf ≠ []) := by
  have hsome : ∀ l : Str,
      (scanLines conf).find? (fun l => hasPrefix (trimSpace l) "hostname ".toList) = some l →
      ExtractHostname conf = trimSpace ((trimSpace l).drop 9) ∧ ExtractHostname conf ≠ [] := by
    intro l hl
    have hpl : hasPrefix (trimSpace l) "hostname ".toList = true := by
      have := List.find?_some hl
      simpa using this
    obtain ⟨e1, e2⟩ := hostname_of_line l hpl
    have he : ExtractHostname conf = trimSpace ((trimSpace l).drop 9) := by
      unfold ExtractHostname
      rw [extractHostnameLoop_eq, hl]
      exact e1
    exact ⟨he, by rw [he]; exact e2⟩
  refine ⟨?_, hsome⟩
  cases hf : (scanLines conf).find? (fun l => hasPrefix (trimSpace l) "hostname ".toList) with
  | none =>
    have he : ExtractHostname conf = [] := by
      unfold ExtractHostname
      rw [extractHostnameLoop_eq, hf]
    rw [List.find?_eq_none] at hf
    simp only [he, true_iff]
    intro l hl
    simpa using hf l hl
  | some l =>
    have hpl : hasPrefix (trimSpace l) "hostname ".toList = true := by
      have := List.find?_some hf
      simpa using this
    have hmem : l ∈ scanLines conf := List.mem_of_find?_eq_some hf
    constructor
    · intro he
      exact absurd he (hsome l hf).2
    · intro hall
      rw [hall l hmem] at hpl
      exact absurd hpl Bool.false_ne_true

/-- A run of the letter `a` holds no line feed. -/
theorem replicate_no_NL (n : Nat) : '\n' ∉ List.replicate n 'a' := by
  intro h
  have := (List.mem_replicate.1 h).2
  exact absurd this (by decide)

/-- A run of the letter `a` ends with no carriage return. -/
theorem dropCR_replicate (n : Nat) : dropCR (List.replicate n 'a') = List.replicate n 'a' := by
  unfold dropCR
  rw [if_neg]
  intro h
  have := (List.mem_replicate.1 (List.mem_of_getLast?_eq_some h)).2
  exact absurd this (by decide)

/-- C16 fails on the code: the first line of the text `exConfLongLine` has 65536
bytes, the token size limit of the scanner, and the second line is
`hostname r1`.  The scanner stops at the first line and delivers no line, its
error is not read, and `ExtractHostname` returns the empty string although a
line of the text begins with `hostname `; with a short first line the result
is `r1`. -/
theorem ExtractHostname_stops_at_long_line :
    byteLen (List.replicate 65536 'a') = maxScanTokenSize ∧
    textLines exConfLongLine = [List.replicate 65536 'a', "hostname r1".toList] ∧
    hasPrefix (trimSpace "hostname r1".toList) "hostname ".toList = true ∧
    scanLines exConfLongLine = [] ∧
    ExtractHostname exConfLongLine = [] ∧
    ExtractHostname "a\nhostname r1\n".toList = "r1".toList := by
  have hlen : byteLen (List.replicate 65536 'a') = maxScanTokenSize :=
    (byteLen_replicate 65536).trans (by decide)
  have hsplit : exConfLongLine = List.replicate 65536 'a' ++ '\n' :: "hostname r1\n".toList := rfl
  have hscan : scanLines exConfLongLine = [] := by
    rw [hsplit]
    exact scanLines_long_first _ _ (replicate_no_NL 65536) (Nat.le_of_eq hlen.symm)
  have hrest : textLines "hostname r1\n".toList = ["hostname r1".toList] := by decide!
  refine ⟨hlen, ?_, by decide!, hscan, ?_, by decide!⟩
  · rw [hsplit, textLines_append _ _ (replicate_no_NL 65536), dropCR_replicate, hrest]
  · unfold ExtractHostname
    rw [hscan]
    rfl

/-! ## C19: no index out of range -/

/-- C19. The method `rewritePhys` returns for every input text, classifier,
pool and pattern: the second field of a header line exists and is not empty,
the indentation slice is in range, and the pool is indexed below its length
only.  Every block the parser emits has a non-empty interface name.  A line
whose trimmed text is the bare word `interface` (the name is missing or
whitespace-only) is not a header: the scanning step opens no block on it and
closes none, it adds the line to the open block, or to the global lines when
no block is open. -/
theorem rewritePhys_never_panics (b : Base) (isPhys : Str → Bool) (clabIfs : List Str)
    (peerDescRE : Option Regexp) (devs : List Device) :
    (∃ b1, b.rewritePhys isPhys clabIfs peerDescRE devs = some b1) ∧
    (∃ allIfs globalLines, parseConf isPhys peerDescRE b.Conf = some (allIfs, globalLines) ∧
      ∀ pif ∈ allIfs, pif.ifname ≠ []) ∧
    (∀ line : Str, isHeader line = true →
      ∃ name, (fields (trimSpace line))[1]? = some name ∧ name ≠ []) ∧
    (∀ orig : Str, ∃ indent,
      sliceTo orig ((orig.length : Int) - ((trimLeftSpaces orig).length : Int)) = some indent) ∧
    (∀ (st : scanState) (line : Str), trimSpace line = "interface".toList →
      isHeader line = false ∧
      ∃ st1, scanStep isPhys peerDescRE st line = some st1 ∧
        st1.allIfs = st.allIfs ∧ st1.inIf = st.inIf ∧ st1.cur.ifname = st.cur.ifname ∧
        (st.inIf = true → st1.cur.body = st.cur.body ++ [line] ∧
          st1.globalLines = st.globalLines) ∧
        (st.inIf = false → st1 = { st with globalLines := st.globalLines ++ [line] })) := by
  obtain ⟨allIfs, globalLines, hp, hok, hb⟩ := rewritePhys_some b isPhys clabIfs peerDescRE devs
  refine ⟨⟨_, hb⟩, ⟨allIfs, globalLines, hp, fun pif hm => (hok pif hm).1⟩,
    fun line h => header_name line h, fun orig => ⟨_, sliceTo_indent orig⟩, ?_⟩
  intro st line hline
  have hh : isHeader line = false := by
    unfold isHeader
    rw [hline]
    rfl
  have ht : isTerminator line = false := by
    unfold isTerminator
    rw [hline]
    rfl
  refine ⟨hh, ?_⟩
  by_cases hin : st.inIf = true
  · obtain ⟨cur, hc, c1, c2, _, _, _⟩ := scanStep_body isPhys peerDescRE st line hh hin ht
    refine ⟨_, hc, rfl, rfl, c1, fun _ => ⟨c2, rfl⟩, fun hc => ?_⟩
    rw [hin] at hc
    exact absurd hc.symm Bool.false_ne_true
  · have hin0 : st.inIf = false := by simpa using hin
    exact ⟨_, scanStep_global isPhys peerDescRE st line hh hin0, rfl, rfl, rfl,
      fun hc => absurd hc hin, fun _ => rfl⟩

/-! ## C11: the peer claim of a block -/

/-- Dropping the spaces of a smaller class first changes nothing. -/
theorem dropWhile_dropWhile_of_imp {α : Type} (p q : α → Bool) (l : List α)
    (h : ∀ a, p a = true → q a = true) :
    (l.dropWhile p).dropWhile q = l.dropWhile q := by
  induction l with
  | nil => rfl
  | cons a l ih =>
    by_cases hp : p a = true
    · have hq := h a hp
      simp only [List.dropWhile_cons, hp, if_true, hq, ih]
    · have hp0 : p a = false := by simpa using hp
      simp only [List.dropWhile_cons, hp0, Bool.false_eq_true, if_false]

/-- A space of the regexp class is a space of `unicode.IsSpace`. -/
theorem isSpace_of_reSpace (c : Char) (h : reSpace c = true) : isSpace c = true := by
  unfold reSpace at h
  have h1 := of_decide_eq_true h
  rcases h1 with h1 | h1 | h1 | h1 | h1 <;> subst h1 <;> decide

/-- The second part of the cut of a token at its last colon is not empty. -/
theorem lastColon_snd (s a b : Str) (h : lastColon s = some (a, b)) : b ≠ [] := by
  induction s generalizing a b with
  | nil => simp [lastColon] at h
  | cons c cs ih =>
    unfold lastColon at h
    cases hl : lastColon cs with
    | some p =>
      obtain ⟨a1, b1⟩ := p
      simp only [hl, Option.some.injEq, Prod.mk.injEq] at h
      rw [← h.2]
      exact ih a1 b1 hl
    | none =>
      simp only [hl] at h
      split at h
      · rename_i hc
        simp only [Option.some.injEq, Prod.mk.injEq] at h
        rw [← h.2]
        exact hc.2
      · cases h

/-- A line matched by the peer pattern starts, after its spaces, with the word
`description`, and both submatches are non-empty. -/
theorem peerDescPattern_some (s : Str) (m : Str × Str) (h : peerDescPattern s = some m) :
    hasPrefix (s.dropWhile reSpace) "description".toList = true ∧ m.1 ≠ [] ∧ m.2 ≠ [] := by
  by_cases hp : hasPrefix (s.dropWhile reSpace) "description".toList = true
  · refine ⟨hp, ?_⟩
    simp only [peerDescPattern, hp, if_true] at h
    split at h
    · split at h
      · split at h
        · cases h
        · rename_i c cs _
          cases hl : lastColon cs with
          | none => simp [hl] at h
          | some p =>
            obtain ⟨a, b⟩ := p
            simp only [hl, Option.map_some', Option.some.injEq] at h
            rw [← h]
            exact ⟨by simp, lastColon_snd cs a b hl⟩
      · cases h
    · cases h
  · have hp0 : hasPrefix (s.dropWhile reSpace) "description".toList = false := by simpa using hp
    simp only [peerDescPattern, hp0, Bool.false_eq_true, if_false] at h
    cases h

/-- The trimmed text of a line matched by the peer pattern is a prefix of a text
that starts with the letter `d`. -/
theorem trimSpace_of_match (s : Str) (m : Str × Str) (h : peerDescPattern s = some m) :
    ∃ t, trimSpace s <+: 'd' :: t := by
  obtain ⟨hp, _, _⟩ := peerDescPattern_some s m h
  obtain ⟨r, hr⟩ := List.isPrefixOf_iff_prefix.1 hp
  have h1 : s.dropWhile isSpace = (s.dropWhile reSpace).dropWhile isSpace :=
    (dropWhile_dropWhile_of_imp reSpace isSpace s isSpace_of_reSpace).symm
  have h2 : (s.dropWhile reSpace).dropWhile isSpace = s.dropWhile reSpace := by
    rw [← hr]
    rfl
  refine ⟨"escription".toList ++ r, ?_⟩
  have h3 : s.dropWhile reSpace = 'd' :: ("escription".toList ++ r) := by
    rw [← hr]
    rfl
  unfold trimSpace
  rw [h1, h2, ← h3]
  exact List.rdropWhile_prefix _ _

/-- A header line is not matched by the peer pattern. -/
theorem peerDescPattern_header (line : Str) (h : isHeader line = true) :
    peerDescPattern line = none := by
  cases hm : peerDescPattern line with
  | none => rfl
  | some m =>
    exfalso
    obtain ⟨t, ht⟩ := trimSpace_of_match line m hm
    obtain ⟨r, hr⟩ := List.isPrefixOf_iff_prefix.1 h
    rw [← hr] at ht
    obtain ⟨u, hu⟩ := ht
    have := congrArg List.head? hu
    have e1 : ("interface ".toList ++ r ++ u).head? = some 'i' := rfl
    have e2 : ('d' :: t).head? = some 'd' := rfl
    rw [e1, e2] at this
    exact absurd this (by decide)

/-- A terminator line is not matched by the peer pattern. -/
theorem peerDescPattern_terminator (line : Str) (h : isTerminator line = true) :
    peerDescPattern line = none := by
  cases hm : peerDescPattern line with
  | none => rfl
  | some m =>
    exfalso
    obtain ⟨t, ht⟩ := trimSpace_of_match line m hm
    unfold isTerminator at h
    rw [of_decide_eq_true h] at ht
    obtain ⟨u, hu⟩ := ht
    have := congrArg List.head? hu
    have e1 : ("!".toList ++ u).head? = some '!' := rfl
    have e2 : ('d' :: t).head? = some 'd' := rfl
    rw [e1, e2] at this
    exact absurd this (by decide)

/-- Inside a block, with a pattern, a body line extends the open block, and is
matched against the pattern while the block is physical and has no claim. -/
theorem scanStep_body_some (isPhys : Str → Bool) (r : Regexp) (st : scanState)
    (line : Str) (h : isHeader line = false) (hin : st.inIf = true)
    (ht : isTerminator line = false) :
    scanStep isPhys (some r) st line = some
      { st with
        cur :=
          if st.cur.peerNode = [] ∧ st.cur.phys = true then
            match r line with
            | some m =>
              { st.cur with body := st.cur.body ++ [line], peerNode := m.1, peerIf := m.2 }
            | none => { st.cur with body := st.cur.body ++ [line] }
          else { st.cur with body := st.cur.body ++ [line] } } := by
  unfold isHeader at h
  unfold isTerminator at ht
  have ht1 : trimSpace line ≠ "!".toList := of_decide_eq_false ht
  simp only [scanStep]
  rw [if_neg (by rw [h]; exact Bool.false_ne_true), if_neg (fun hc => ht1 hc.2), if_pos hin]
  by_cases hq : st.cur.peerNode = [] ∧ st.cur.phys = true
  · simp only [if_pos hq]
    cases r line <;> rfl
  · simp only [if_neg hq]

/-- The first claim of a block extended by one line. -/
theorem firstClaim_append (r : Regexp) (body : List Str) (line : Str) :
    firstClaim r (body ++ [line]) = (firstClaim r body).or (r line) := by
  unfold firstClaim
  rw [List.findSome?_append]
  congr 1
  simp only [List.findSome?_cons, List.findSome?_nil]
  cases r line <;> rfl

/-- The scanning step keeps the invariant for peer claims, for a pattern whose
first submatch is never empty and that matches neither headers nor terminators. -/
theorem scanStep_claimInv (isPhys : Str → Bool) (r : Regexp) (st st1 : scanState)
    (line : Str) (hne : ∀ s m, r s = some m → m.1 ≠ [])
    (hhdr : ∀ l, isHeader l = true → r l = none)
    (hterm : ∀ l, isTerminator l = true → r l = none)
    (hinv : claimInv r st) (h : scanStep isPhys (some r) st line = some st1) :
    claimInv r st1 := by
  cases hh : isHeader line with
  | true =>
    obtain ⟨_, he⟩ := scanStep_header isPhys (some r) st line hh
    rw [he] at h
    simp only [Option.some.injEq] at h
    subst h
    refine ⟨?_, fun _ => ?_⟩
    · intro pif hp
      unfold flushCur at hp
      split at hp
      · rename_i hc
        rcases List.mem_append.1 hp with hp | hp
        · exact hinv.1 pif hp
        · simp only [List.mem_singleton] at hp
          subst hp
          exact hinv.2 hc.1
      · exact hinv.1 pif hp
    · simp only [claimOk, firstClaim, List.findSome?_cons, hhdr line hh, List.findSome?_nil,
        Option.getD_none, ite_self]
  | false =>
    by_cases hin : st.inIf = true
    · have hcur := hinv.2 hin
      cases ht : isTerminator line with
      | true =>
        rw [scanStep_terminator isPhys (some r) st line hh hin ht] at h
        simp only [Option.some.injEq] at h
        subst h
        refine ⟨?_, fun hc => by simp at hc⟩
        intro pif hp
        rcases List.mem_append.1 hp with hp | hp
        · exact hinv.1 pif hp
        · simp only [List.mem_singleton] at hp
          subst hp
          simp only [claimOk, firstClaim_append, hterm line ht, Option.or_none]
          exact hcur
      | false =>
        rw [scanStep_body_some isPhys r st line hh hin ht] at h
        simp only [Option.some.injEq] at h
        subst h
        refine ⟨hinv.1, fun _ => ?_⟩
        simp only
        unfold claimOk at hcur
        by_cases hp : st.cur.phys = true
        · rw [if_pos hp] at hcur
          by_cases hn : st.cur.peerNode = []
          · have hnone : firstClaim r st.cur.body = none := by
              cases hf : firstClaim r st.cur.body with
              | none => rfl
              | some m =>
                exfalso
                rw [hf] at hcur
                simp only [Option.getD_some] at hcur
                have h1 : st.cur.peerNode = m.1 := congrArg Prod.fst hcur
                obtain ⟨x, _, hx⟩ := List.exists_of_findSome?_eq_some hf
                exact hne x m hx (by rw [← h1]; exact hn)
            rw [if_pos ⟨hn, hp⟩]
            cases hm : r line with
            | none =>
              simp only [claimOk, hp, if_true, firstClaim_append, hnone, hm, Option.or_none,
                Option.getD_none]
              rw [hnone] at hcur
              exact hcur
            | some m =>
              simp only [claimOk, hp, if_true, firstClaim_append, hnone, hm, Option.none_or,
                Option.getD_some]
          · rw [if_neg (fun hc => hn hc.1)]
            cases hf : firstClaim r st.cur.body with
            | none =>
              exfalso
              rw [hf] at hcur
              exact hn (congrArg Prod.fst hcur)
            | some m =>
              simp only [claimOk, hp, if_true, firstClaim_append, hf, Option.or_some,
                Option.getD_some]
              rw [hf] at hcur
              exact hcur
        · rw [if_neg hp] at hcur
          rw [if_neg (fun hc => hp hc.2)]
          simp only [claimOk, hp, if_false]
          exact hcur
    · have hin0 : st.inIf = false := by simpa using hin
      rw [scanStep_global isPhys (some r) st line hh hin0] at h
      simp only [Option.some.injEq] at h
      subst h
      exact ⟨hinv.1, fun hc => absurd hc hin⟩

/-- The scanning loop keeps the invariant for peer claims. -/
theorem scanLoop_claimInv (isPhys : Str → Bool) (r : Regexp) (lines : List Str)
    (st st1 : scanState) (hne : ∀ s m, r s = some m → m.1 ≠ [])
    (hhdr : ∀ l, isHeader l = true → r l = none)
    (hterm : ∀ l, isTerminator l = true → r l = none)
    (hinv : claimInv r st) (h : scanLoop isPhys (some r) lines st = some st1) :
    claimInv r st1 := by
  induction lines generalizing st with
  | nil =>
    simp only [scanLoop, Option.some.injEq] at h
    subst h
    exact hinv
  | cons line rest ih =>
    obtain ⟨s1, hs1⟩ := scanStep_some isPhys (some r) st line
    simp only [scanLoop, hs1] at h
    exact ih s1 (scanStep_claimInv isPhys r st s1 line hne hhdr hterm hinv hs1) h

/-- Every block delivered by the parser, read with the peer pattern, carries the
first claim of its lines when it is physical and none when it is not. -/
theorem parseConf_claimOk (isPhys : Str → Bool) (conf : Str) (allIfs : List parsedIf)
    (globalLines : List Str)
    (h : parseConf isPhys (some peerDescPattern) conf = some (allIfs, globalLines)) :
    ∀ pif ∈ allIfs, claimOk peerDescPattern pif := by
  obtain ⟨st, hst⟩ := scanLoop_some isPhys (some peerDescPattern) (scanLines conf) {}
  simp only [parseConf, hst, Option.some.injEq, Prod.mk.injEq] at h
  have hinv := scanLoop_claimInv isPhys peerDescPattern (scanLines conf) {} st
    (fun s m hm => (peerDescPattern_some s m hm).2.1) peerDescPattern_header
    peerDescPattern_terminator
    ⟨fun pif hp => by simp at hp, fun hc => by simp at hc⟩ hst
  intro pif hp
  rw [← h.1] at hp
  unfold flushCur at hp
  split at hp
  · rename_i hc
    rcases List.mem_append.1 hp with hp | hp
    · exact hinv.1 pif hp
    · simp only [List.mem_singleton] at hp
      subst hp
      exact hinv.2 hc.1
  · exact hinv.1 pif hp

/-- C11. Both kinds read peer claims with the same pattern.  For every block the
parser delivers: when the block is physical, its peer claim is the pair of
submatches of the first of its lines that matches the pattern, so lines after
the first matching line never change it, and it has no peer claim when no line
matches; when the block is not physical it has no peer claim.  The `PeerNode`
and `PeerIf` of every mapping are the first claim of the lines of its block. -/
theorem peer_claim_is_first_match (vh : List Str) (isPhys : Str → Bool) (clabIfs : List Str)
    (devs : List Device) (conf : Str) :
    peerDescRECat9kv = peerDescPattern ∧ peerDescREN9kv = peerDescPattern ∧
    ∃ allIfs globalLines maps out,
      parseConf isPhys (some peerDescPattern) conf = some (allIfs, globalLines) ∧
      rewritePhysCore vh isPhys clabIfs (some peerDescPattern) devs conf = some (maps, out) ∧
      (∀ pif ∈ allIfs,
        (pif.phys = true →
          (∀ (pre : List Str) (line : Str) (post : List Str) (m : Str × Str),
            pif.body = pre ++ line :: post → (∀ l ∈ pre, peerDescPattern l = none) →
            peerDescPattern line = some m → pif.peerNode = m.1 ∧ pif.peerIf = m.2) ∧
          ((∀ l ∈ pif.body, peerDescPattern l = none) →
            pif.peerNode = [] ∧ pif.peerIf = [])) ∧
        (pif.phys = false → pif.peerNode = [] ∧ pif.peerIf = [])) ∧
      (∀ m ∈ maps, ∃ pif ∈ allIfs, pif.phys = true ∧ m.Src = pif.ifname ∧
        pif.body.findSome? peerDescPattern = some (m.PeerNode, m.PeerIf)) := by
  refine ⟨rfl, rfl, ?_⟩
  obtain ⟨allIfs, globalLines, hp, _, hcore⟩ :=
    rewritePhysCore_some vh isPhys clabIfs (some peerDescPattern) devs conf
  have hclaim := parseConf_claimOk isPhys conf allIfs globalLines hp
  refine ⟨allIfs, globalLines, _, _, hp, hcore, ?_, ?_⟩
  · intro pif hm
    have hc := hclaim pif hm
    unfold claimOk firstClaim at hc
    refine ⟨fun hphys => ⟨?_, ?_⟩, fun hphys => ?_⟩
    · intro pre line post m hbody hpre hline
      have hf : pif.body.findSome? peerDescPattern = some m := by
        rw [hbody, List.findSome?_append]
        have h1 : pre.findSome? peerDescPattern = none := by
          rw [List.findSome?_eq_none_iff]
          exact hpre
        rw [h1, List.findSome?_cons, hline]
        rfl
      rw [if_pos hphys, hf] at hc
      exact ⟨congrArg Prod.fst hc, congrArg Prod.snd hc⟩
    · intro hnone
      have hf : pif.body.findSome? peerDescPattern = none := by
        rw [List.findSome?_eq_none_iff]
        exact hnone
      rw [if_pos hphys, hf] at hc
      exact ⟨congrArg Prod.fst hc, congrArg Prod.snd hc⟩
    · rw [if_neg (by rw [hphys]; exact Bool.false_ne_true)] at hc
      exact ⟨congrArg Prod.fst hc, congrArg Prod.snd hc⟩
  · intro m hm
    obtain ⟨e, he, hme⟩ := List.mem_filterMap.1 hm
    obtain ⟨pif, c⟩ := e
    cases c with
    | none => simp [mappingOf] at hme
    | some clab =>
      have hq := (blocksEmitted_kind vh clabIfs allIfs 0 _ he).2 (by simp)
      have hpif : pif ∈ allIfs :=
        (blocksEmitted_sublist vh clabIfs allIfs 0).subset
          (List.mem_map.2 ⟨(pif, some clab), he, rfl⟩)
      simp only [qualifies, decide_eq_true_eq] at hq
      have hpn : pif.peerNode ≠ [] := fun hc => hq.2.1 (Or.inl hc)
      have hc := hclaim pif hpif
      unfold claimOk firstClaim at hc
      rw [if_pos hq.1] at hc
      simp only [mappingOf, Option.map_some', Option.some.injEq] at hme
      subst hme
      refine ⟨pif, hpif, hq.1, rfl, ?_⟩
      cases hf : pif.body.findSome? peerDescPattern with
      | none =>
        exfalso
        rw [hf] at hc
        exact hpn (congrArg Prod.fst hc)
      | some m1 =>
        rw [hf] at hc
        simp only [Option.getD_some] at hc
        rw [← hc]

/-! ## C17: the lookup of a source name -/

/-- The first element of a list with a property, given its position. -/
theorem find_at {α : Type} (P : α → Bool) (l : List α) (j : Nat) (m : α)
    (hj : l[j]? = some m) (hm : P m = true)
    (hbefore : ∀ (i : Nat) (x : α), i < j → l[i]? = some x → P x = false) :
    l.find? P = some m := by
  induction l generalizing j with
  | nil => simp at hj
  | cons a l ih =>
    cases j with
    | zero =>
      simp only [List.getElem?_cons_zero, Option.some.injEq] at hj
      subst hj
      simp [hm]
    | succ j =>
      have ha : P a = false := hbefore 0 a (Nat.succ_pos j) (by simp)
      simp only [List.getElem?_cons_succ] at hj
      rw [List.find?_cons_of_neg _ (by rw [ha]; exact Bool.false_ne_true)]
      exact ih j hj (fun i x hi hx => hbefore (i + 1) x (Nat.succ_lt_succ hi) (by simpa using hx))

/-- The source names of the mappings are interface names of the parser, in source order. -/
theorem blocksEmitted_src_sublist (vh clabIfs : List Str) (ifs : List parsedIf) (k : Nat) :
    (((blocksEmitted vh clabIfs ifs k).filterMap mappingOf).map (fun m => m.Src)).Sublist
      (ifs.map (fun pif => pif.ifname)) := by
  induction ifs generalizing k with
  | nil => simp [blocksEmitted]
  | cons pif rest ih =>
    by_cases hp : pif.phys = true
    · by_cases hq : qualifies vh pif = true
      · cases hc : clabIfs[k]? with
        | none =>
          rw [blocksEmitted_cons_skipped vh clabIfs pif rest k hp (Or.inr hc)]
          exact (ih k).cons _
        | some clab =>
          have hm : mappingOf (pif, some clab)
              = some ⟨clab, pif.ifname, pif.peerNode, pif.peerIf⟩ := rfl
          rw [blocksEmitted_cons_renamed vh clabIfs pif rest k clab hq hc]
          simp only [List.filterMap_cons, hm, List.map_cons]
          exact (ih (k + 1)).cons₂ _
      · have hq0 : qualifies vh pif = false := by simpa using hq
        rw [blocksEmitted_cons_skipped vh clabIfs pif rest k hp (Or.inl hq0)]
        exact (ih k).cons _
    · have hp0 : pif.phys = false := by simpa using hp
      have hm : mappingOf (pif, none) = none := rfl
      rw [blocksEmitted_cons_plain vh clabIfs pif rest k hp0]
      simp only [List.filterMap_cons, hm, List.map_cons]
      exact (ih k).cons _

/-- The lookup `findClabNameByPeer` skips the devices with another hostname. -/
theorem findClabNameByPeer_skip (pre : List Device) (d : Device) (post : List Device)
    (peerIf : Str) (hpre : ∀ x ∈ pre, x.GetHostname ≠ d.GetHostname) :
    findClabNameByPeer (pre ++ d :: post) d.GetHostname peerIf
      = findClabNameByPeer (d :: post) d.GetHostname peerIf := by
  induction pre with
  | nil => rfl
  | cons x pre ih =>
    have hx := hpre x (List.mem_cons_self _ _)
    have e : findClabNameByPeer (x :: (pre ++ d :: post)) d.GetHostname peerIf
        = findClabNameByPeer (pre ++ d :: post) d.GetHostname peerIf := by
      rw [findClabNameByPeer, if_neg hx]
    rw [List.cons_append, e]
    exact ih (fun y hy => hpre y (List.mem_cons_of_mem _ hy))

/-- With pairwise distinct source names, the first mapping named `m.Src`, by clab
or by source name, is a mapping whose clab name is `m.Src` when some mapping
before `m` has that clab name. -/
theorem find_shadowed (P : IfMap → Bool) (maps : List IfMap) (j : Nat) (m : IfMap)
    (hP : ∀ x, P x = true ↔ (x.Clab = m.Src ∨ x.Src = m.Src))
    (hj : maps[j]? = some m) (hsrc : (maps.map (fun x => x.Src)).Nodup)
    (hex : ∃ (i : Nat) (x : IfMap), i < j ∧ maps[i]? = some x ∧ x.Clab = m.Src) :
    ∃ y, maps.find? P = some y ∧ y.Clab = m.Src := by
  induction maps generalizing j with
  | nil => simp at hj
  | cons a l ih =>
    obtain ⟨i, x, hi, hx, hxc⟩ := hex
    cases j with
    | zero => omega
    | succ j =>
      simp only [List.getElem?_cons_succ] at hj
      rw [List.map_cons, List.nodup_cons] at hsrc
      by_cases ha : P a = true
      · refine ⟨a, by simp [ha], ?_⟩
        rcases (hP a).1 ha with h | h
        · exact h
        · exfalso
          apply hsrc.1
          rw [h]
          exact List.mem_map.2 ⟨m, List.getElem?_mem hj, rfl⟩
      · cases i with
        | zero =>
          simp only [List.getElem?_cons_zero, Option.some.injEq] at hx
          subst hx
          exact absurd ((hP a).2 (Or.inl hxc)) ha
        | succ i =>
          simp only [List.getElem?_cons_succ] at hx
          obtain ⟨y, hy, hyc⟩ := ih j hj hsrc.2 ⟨i, x, by omega, hx, hxc⟩
          exact ⟨y, by rw [List.find?_cons_of_neg _ ha]; exact hy, hyc⟩

/-- C17, as stated, fails: the configuration `exConfSwapped` has the pairwise
distinct interface names `Ethernet1/2` and `Ethernet1/1`; `RewritePhys` maps
`Ethernet1/2` to `Ethernet1/1` and `Ethernet1/1` to `Ethernet1/2`, and the
lookup of the source name `Ethernet1/1` returns `Ethernet1/1`, the canonical
name of the other interface, not the `Ethernet1/2` assigned to it. -/
theorem findClabName_prefers_earlier_canonical_name :
    (parseConf isPhysN9kv (some peerDescREN9kv) exConfSwapped).map
        (fun r => r.1.map (fun pif => pif.ifname))
      = some ["Ethernet1/2".toList, "Ethernet1/1".toList] ∧
    (exDevSwapped.RewritePhys []).map Device.GetIfMaps = some exSwappedMaps ∧
    (exDevSwapped.RewritePhys []).map (fun d => findClabName d "Ethernet1/1".toList)
      = some "Ethernet1/1".toList ∧
    (exDevSwapped.RewritePhys []).map
        (fun d => findClabNameByPeer [d] "ha".toList "Ethernet1/1".toList)
      = some "Ethernet1/1".toList := by
  refine ⟨?_, ?_, ?_, ?_⟩ <;> decide!

/-- C17, amended. For every mapping list produced by `rewritePhys` from a
configuration whose interface names are pairwise distinct, the source names of
the mappings are pairwise distinct, and for every mapping `m` whose source name
is not the canonical name of an earlier mapping, `findClabName` on `m.Src`
returns `m.Clab`, and so does `findClabNameByPeer` with the hostname of the
device when no device before it in the list has that hostname.  When the
source name of `m` is the canonical name of an earlier mapping, both lookups
return that canonical name, which is `m.Src` itself. -/
theorem findClabName_of_source_name (b : Base) (isPhys : Str → Bool) (clabIfs : List Str)
    (peerDescRE : Option Regexp) (devs : List Device) :
    ∃ allIfs globalLines b1,
      parseConf isPhys peerDescRE b.Conf = some (allIfs, globalLines) ∧
      b.rewritePhys isPhys clabIfs peerDescRE devs = some b1 ∧
      ((allIfs.map (fun pif => pif.ifname)).Nodup →
        (b1.IfMaps.map (fun m => m.Src)).Nodup ∧
        (∀ (j : Nat) (m : IfMap), b1.IfMaps[j]? = some m →
          (∀ (i : Nat) (x : IfMap), i < j → b1.IfMaps[i]? = some x → x.Clab ≠ m.Src) →
          ∀ d : Device, d.GetIfMaps = b1.IfMaps →
            findClabName d m.Src = m.Clab ∧
            ∀ pre post : List Device, (∀ x ∈ pre, x.GetHostname ≠ d.GetHostname) →
              findClabNameByPeer (pre ++ d :: post) d.GetHostname m.Src = m.Clab) ∧
        (∀ (j : Nat) (m : IfMap), b1.IfMaps[j]? = some m →
          (∃ (i : Nat) (x : IfMap), i < j ∧ b1.IfMaps[i]? = some x ∧ x.Clab = m.Src) →
          ∀ d : Device, d.GetIfMaps = b1.IfMaps →
            findClabName d m.Src = m.Src ∧
            ∀ pre post : List Device, (∀ x ∈ pre, x.GetHostname ≠ d.GetHostname) →
              findClabNameByPeer (pre ++ d :: post) d.GetHostname m.Src = m.Src)) := by
  obtain ⟨allIfs, globalLines, hp, _, hb⟩ := rewritePhys_some b isPhys clabIfs peerDescRE devs
  refine ⟨allIfs, globalLines, _, hp, hb, ?_⟩
  dsimp only
  intro hnodup
  have hsrc : (((blocksEmitted b.validHosts clabIfs allIfs 0).filterMap mappingOf).map
      (fun m => m.Src)).Nodup :=
    hnodup.sublist (blocksEmitted_src_sublist b.validHosts clabIfs allIfs 0)
  refine ⟨hsrc, ?_, ?_⟩
  rotate_left
  · intro j m hj hex d hd
    generalize (blocksEmitted b.validHosts clabIfs allIfs 0).filterMap mappingOf = maps
      at hsrc hj hex hd
    obtain ⟨y, hy, hyc⟩ := find_shadowed
      (fun x => decide (x.Clab = m.Src ∨ x.Src = m.Src)) maps j m (by simp) hj hsrc hex
    obtain ⟨z, hz, hzc⟩ := find_shadowed
      (fun x => decide (x.Src = m.Src ∨ x.Clab = m.Src)) maps j m
      (fun x => by simp only [decide_eq_true_eq]; exact Or.comm) hj hsrc hex
    refine ⟨by simp only [findClabName, hd, hy, hyc], ?_⟩
    intro pre post hpre
    rw [findClabNameByPeer_skip pre d post m.Src hpre]
    simp only [findClabNameByPeer, if_true, findPeerMapping, hd, hz, hzc]
  intro j m hj hclab d hd
  generalize (blocksEmitted b.validHosts clabIfs allIfs 0).filterMap mappingOf = maps
    at hsrc hj hclab hd
  have hfirst : ∀ (i : Nat) (x : IfMap), i < j → maps[i]? = some x →
      decide (x.Clab = m.Src ∨ x.Src = m.Src) = false := by
    intro i x hi hx
    have hjl : j < maps.length := by
      by_contra hc
      rw [List.getElem?_eq_none (by omega)] at hj
      cases hj
    have hil : i < maps.length := by omega
    have hxi : maps[i] = x := by
      rw [List.getElem?_eq_getElem hil] at hx
      exact Option.some.inj hx
    have hmj : maps[j] = m := by
      rw [List.getElem?_eq_getElem hjl] at hj
      exact Option.some.inj hj
    have hpw := List.pairwise_iff_getElem.1 hsrc i j (by simpa using hil) (by simpa using hjl) hi
    simp only [List.getElem_map, hxi, hmj] at hpw
    simp only [decide_eq_false_iff_not, not_or]
    exact ⟨hclab i x hi hx, hpw⟩
  have hfind_clab : maps.find? (fun x => decide (x.Clab = m.Src ∨ x.Src = m.Src)) = some m :=
    find_at _ maps j m hj (by simp) hfirst
  have hfind_src : maps.find? (fun x => decide (x.Src = m.Src ∨ x.Clab = m.Src)) = some m :=
    find_at _ maps j m hj (by simp) (fun i x hi hx => by
      have := hfirst i x hi hx
      simp only [decide_eq_false_iff_not, not_or] at this ⊢
      exact ⟨this.2, this.1⟩)
  refine ⟨by simp only [findClabName, hd, hfind_clab], ?_⟩
  intro pre post hpre
  rw [findClabNameByPeer_skip pre d post m.Src hpre]
  simp only [findClabNameByPeer, if_true, findPeerMapping, hd, hfind_src]

/-! ## C13: surviving peer claims -/

/-- Every link collected is produced by a mapping with a peer claim, on a device
of the list that is run over. -/
theorem collectFrom_linkOfClaim (eqF : Str → Str → Bool) (devs ds : List Device)
    (st : linkState) (hds : ∀ d ∈ ds, d ∈ devs) (h : ∀ l ∈ st.links, linkOfClaim eqF devs l) :
    ∀ l ∈ (collectFrom eqF devs ds st).links, linkOfClaim eqF devs l := by
  unfold collectFrom
  induction ds generalizing st with
  | nil => exact h
  | cons d ds ih =>
    simp only [List.foldl_cons]
    apply ih _ (fun x hx => hds x (List.mem_cons_of_mem _ hx))
    have hd : d ∈ devs := hds d (List.mem_cons_self _ _)
    have key : ∀ (maps : List IfMap) (st : linkState), (∀ m ∈ maps, m ∈ d.GetIfMaps) →
        (∀ l ∈ st.links, linkOfClaim eqF devs l) →
        ∀ l ∈ (maps.foldl (collectStep eqF devs d) st).links, linkOfClaim eqF devs l := by
      intro maps
      induction maps with
      | nil => intro st _ hst; exact hst
      | cons m maps ihm =>
        intro st hsub hst
        simp only [List.foldl_cons]
        apply ihm _ (fun x hx => hsub x (List.mem_cons_of_mem _ hx))
        rcases collectStep_cases eqF devs d st m with he | ⟨p, hp1, hp2, hp3, _, he⟩
        · rw [he]; exact hst
        · rw [he]
          intro l hl
          rcases List.mem_append.1 hl with hl | hl
          · exact hst l hl
          · simp only [List.mem_singleton] at hl
            subst hl
            exact ⟨d, hd, m, hsub m (List.mem_cons_self _ _), p,
              findDeviceByHostname_mem eqF devs _ p hp2, hp1, hp2, hp3, rfl⟩
    exact key d.GetIfMaps st (fun m hm => hm) h

/-- Every link returned by `collectLinks` is produced by a mapping with a peer claim. -/
theorem collectLinks_linkOfClaim (eqF : Str → Str → Bool) (devs : List Device) :
    ∀ l ∈ collectLinks eqF devs, linkOfClaim eqF devs l :=
  collectFrom_linkOfClaim eqF devs devs {} (fun d hd => hd) (fun l hl => by simp at hl)

/-- A mapping that keeps a peer claim through `ResolvePeers` is a mapping of the
initial list, unchanged, whose claim resolves. -/
theorem ResolvePeers_survivor (toLower : Str → Str) (devs : List Device) (d1 : Device)
    (m : IfMap) (hd : d1 ∈ ResolvePeers toLower devs) (hm : m ∈ d1.GetIfMaps)
    (hp : m.PeerNode ≠ []) :
    ∃ d ∈ devs, d1 = resolvedDevice toLower devs d ∧ m ∈ d.GetIfMaps ∧
      peerResolves toLower devs m = true := by
  rw [ResolvePeers_eq] at hd
  obtain ⟨d, hdm, hde⟩ := List.mem_map.1 hd
  subst hde
  simp only [resolvedDevice, GetIfMaps_setIfMaps] at hm
  obtain ⟨m0, hm0, hme⟩ := List.mem_map.1 hm
  refine ⟨d, hdm, rfl, ?_⟩
  unfold resolvedMapping at hme
  split at hme
  · subst hme
    exact absurd rfl hp
  · rename_i hc
    subst hme
    refine ⟨hm0, ?_⟩
    by_contra hr
    exact hc ⟨hp, by simpa using hr⟩

/-- C13, as stated, fails: the only node of the lab `exSelfNodes` describes its
data port as connected to itself; after `ResolvePeers` its mapping keeps the
peer claim, which resolves to the device that owns it, and `collectLinks`
returns a link whose two endpoints are on that one device. -/
theorem ResolvePeers_keeps_self_claim :
    labbuild asciiToLower asciiEqualFold exSelfFiles exSelfNodes
      = some (exSelfDevs,
          [{ Endpoints := ["a:Ethernet1/1".toList, "a:Ethernet1/1".toList] }]) ∧
    (ResolvePeers asciiToLower exSelfDevs).map Device.GetIfMaps
      = [[{ Clab := "Ethernet1/1".toList, Src := "Ethernet1/7".toList,
            PeerNode := "ha".toList, PeerIf := "Ethernet1/7".toList }]] ∧
    lookupHost asciiToLower exSelfDevs "ha".toList = exSelfDevs[0]? ∧
    collectLinks asciiEqualFold (ResolvePeers asciiToLower exSelfDevs)
      = [{ Endpoints := ["a:Ethernet1/1".toList, "a:Ethernet1/1".toList] }] := by
  refine ⟨?_, ?_, ?_, ?_⟩ <;> decide!

/-- C13, amended. A peer claim survives `ResolvePeers` only if it matches an
interface mapping on the device found for its hostname, which may be the
device that owns the mapping: every mapping that keeps a non-empty `PeerNode`
is unchanged, a device of the list is found for its hostname, and that device
has a mapping whose `Clab` or `Src` is its `PeerIf`.  Every link returned by
`collectLinks` has its first endpoint on a device of the list, for a mapping
with a peer claim, and its second endpoint on the device of the list found for
that claim. -/
theorem ResolvePeers_survivors_resolve (toLower : Str → Str) (equalFold : Str → Str → Bool)
    (devs : List Device) :
    (∀ d1 ∈ ResolvePeers toLower devs, ∀ m ∈ d1.GetIfMaps, m.PeerNode ≠ [] →
      ∃ d ∈ devs, m ∈ d.GetIfMaps ∧ d1 = d.setIfMaps d1.GetIfMaps ∧
        ∃ p ∈ devs, lookupHost toLower devs m.PeerNode = some p ∧
          ∃ x ∈ p.GetIfMaps, x.Clab = m.PeerIf ∨ x.Src = m.PeerIf) ∧
    (∀ l ∈ collectLinks equalFold devs,
      ∃ d ∈ devs, ∃ m ∈ d.GetIfMaps, ∃ p ∈ devs, m.PeerNode ≠ [] ∧
        findDeviceByHostname equalFold devs m.PeerNode = some p ∧
        findClabName p m.PeerIf ≠ [] ∧
        l.Endpoints = [d.GetNodeName ++ ":".toList ++ m.Clab,
                       p.GetNodeName ++ ":".toList ++ findClabName p m.PeerIf]) := by
  refine ⟨?_, collectLinks_linkOfClaim equalFold devs⟩
  intro d1 hd1 m hm hp
  obtain ⟨d, hd, he, hmd, hr⟩ := ResolvePeers_survivor toLower devs d1 m hd1 hm hp
  refine ⟨d, hd, hmd, ?_, ?_⟩
  · rw [he]
    simp only [resolvedDevice, GetIfMaps_setIfMaps, setIfMaps_setIfMaps]
  · unfold peerResolves at hr
    cases hl : lookupHost toLower devs m.PeerNode with
    | none => simp [hl] at hr
    | some p =>
      simp only [hl] at hr
      have hpm : p ∈ devs := by
        have := List.mem_of_find?_eq_some hl
        exact List.mem_reverse.1 this
      refine ⟨p, hpm, rfl, ?_⟩
      simp only [interfaceExists, List.any_eq_true, decide_eq_true_eq] at hr
      exact hr

/-! ## C20: the peer resolver and the link collector -/

/-- A write into the mapping slice keeps the hostname and the node name. -/
theorem setIfMaps_names (d : Device) (maps : List IfMap) :
    (d.setIfMaps maps).GetHostname = d.GetHostname ∧
      (d.setIfMaps maps).GetNodeName = d.GetNodeName := by
  cases d <;> exact ⟨rfl, rfl⟩

/-- The devices after `ResolvePeers` are the resolved devices of the initial list. -/
theorem mem_ResolvePeers (toLower : Str → Str) (devs : List Device) (d1 : Device) :
    d1 ∈ ResolvePeers toLower devs ↔ ∃ d ∈ devs, resolvedDevice toLower devs d = d1 := by
  rw [ResolvePeers_eq]
  exact List.mem_map

/-- The clab name found for an interface depends on the interface names only. -/
theorem findClabName_congr (d d1 : Device) (x : Str) (h : ifNames d = ifNames d1) :
    findClabName d x = findClabName d1 x := by
  have e : ∀ d : Device, findClabName d x
      = match (ifNames d).find? (fun p => decide (p.1 = x ∨ p.2 = x)) with
        | some p => p.1
        | none => [] := by
    intro d
    simp only [findClabName, ifNames]
    induction d.GetIfMaps with
    | nil => rfl
    | cons a l ih =>
      by_cases ha : a.Clab = x ∨ a.Src = x
      · simp [List.find?_cons, ha]
      · simp only [List.find?_cons, ha, decide_False, List.map_cons]
        exact ih
  rw [e d, e d1, h]

/-- An interface that exists on a device has a clab name there: the one of the
first mapping with that name. -/
theorem findClabName_of_exists (p : Device) (x : Str) (h : interfaceExists p x = true) :
    ∃ y ∈ p.GetIfMaps, (y.Clab = x ∨ y.Src = x) ∧ findClabName p x = y.Clab := by
  unfold interfaceExists at h
  cases hf : p.GetIfMaps.find? (fun m => decide (m.Clab = x ∨ m.Src = x)) with
  | none =>
    exfalso
    rw [List.find?_eq_none] at hf
    obtain ⟨y, hy, hp⟩ := List.any_eq_true.1 h
    exact hf y hy hp
  | some y =>
    refine ⟨y, List.mem_of_find?_eq_some hf, ?_, by simp only [findClabName, hf]⟩
    have := List.find?_some hf
    simpa using this

/-- The device found by the lookup of `ResolvePeers` is a device of the list
whose lowered hostname is the lowered hostname asked for. -/
theorem lookupHost_some (toLower : Str → Str) (devs : List Device) (h : Str) (p : Device)
    (hl : lookupHost toLower devs h = some p) :
    p ∈ devs ∧ toLower p.GetHostname = toLower h := by
  unfold lookupHost at hl
  refine ⟨List.mem_reverse.1 (List.mem_of_find?_eq_some hl), ?_⟩
  have := List.find?_some hl
  simp only [decide_eq_true_eq] at this
  exact this.2

/-- With hostnames pairwise distinct up to case, the device that
`findDeviceByHostname` finds for the hostname of a device of the list is that device. -/
theorem findDeviceByHostname_unique (equalFold : Str → Str → Bool) (devs : List Device)
    (hsymm : ∀ a b, equalFold a b = true → equalFold b a = true)
    (htrans : ∀ a b c, equalFold a b = true → equalFold b c = true → equalFold a c = true)
    (hdist : devs.Pairwise (fun d1 d2 => equalFold d1.GetHostname d2.GetHostname = false))
    (p : Device) (h : Str) (hp : p ∈ devs) (hph : equalFold p.GetHostname h = true) :
    findDeviceByHostname equalFold devs h = some p := by
  unfold findDeviceByHostname
  cases hf : devs.find? (fun d => equalFold d.GetHostname h) with
  | none =>
    exfalso
    rw [List.find?_eq_none] at hf
    exact hf p hp hph
  | some q =>
    have hq : q ∈ devs := List.mem_of_find?_eq_some hf
    have hqh : equalFold q.GetHostname h = true :=
      @List.find?_some _ (fun d : Device => equalFold d.GetHostname h) q devs hf
    by_cases hqp : q = p
    · rw [hqp]
    · exfalso
      have hR : Symmetric (fun d1 d2 : Device =>
          equalFold d1.GetHostname d2.GetHostname = false) := by
        intro a b hab
        by_contra hc
        have hba : equalFold b.GetHostname a.GetHostname = true := by simpa using hc
        rw [hsymm _ _ hba] at hab
        cases hab
      have := hdist.forall hR hq hp hqp
      rw [htrans _ _ _ hqh (hsymm _ _ hph)] at this
      cases this

/-- The function `ResolvePeers` keeps the node name and the hostname of every
device and the names of every mapping. -/
theorem ResolvePeers_names (toLower : Str → Str) (devs : List Device) (d1 : Device)
    (hd : d1 ∈ ResolvePeers toLower devs) :
    ∃ d ∈ devs, d1 = resolvedDevice toLower devs d ∧ d1.GetNodeName = d.GetNodeName ∧
      d1.GetHostname = d.GetHostname ∧
      ∀ y ∈ d1.GetIfMaps, ∃ y0 ∈ d.GetIfMaps, y.Clab = y0.Clab ∧ y.Src = y0.Src := by
  obtain ⟨d, hdm, hde⟩ := (mem_ResolvePeers toLower devs d1).1 hd
  subst hde
  refine ⟨d, hdm, rfl, (setIfMaps_names d _).2, (setIfMaps_names d _).1, ?_⟩
  intro y hy
  simp only [resolvedDevice, GetIfMaps_setIfMaps] at hy
  obtain ⟨y0, hy0, hye⟩ := List.mem_map.1 hy
  subst hye
  exact ⟨y0, hy0, resolvedMapping_names toLower devs y0⟩

/-- Hostnames that are pairwise distinct up to case stay so through `ResolvePeers`. -/
theorem ResolvePeers_pairwise (toLower : Str → Str) (equalFold : Str → Str → Bool)
    (devs : List Device)
    (hdist : devs.Pairwise (fun d1 d2 => equalFold d1.GetHostname d2.GetHostname = false)) :
    (ResolvePeers toLower devs).Pairwise
      (fun d1 d2 => equalFold d1.GetHostname d2.GetHostname = false) := by
  rw [ResolvePeers_eq, List.pairwise_map]
  refine hdist.imp ?_
  intro a b h
  simp only [resolvedDevice]
  rw [(setIfMaps_names a _).1, (setIfMaps_names b _).1]
  exact h

/-- A mapping that keeps its peer claim through `ResolvePeers` passes both lookups
of `collectLinks`, when `strings.EqualFold` holds of strings with the same
lowered form and the hostnames are pairwise distinct up to case. -/
theorem ResolvePeers_survivor_found (toLower : Str → Str) (equalFold : Str → Str → Bool)
    (devs : List Device)
    (hlow : ∀ a b, toLower a = toLower b → equalFold a b = true)
    (hsymm : ∀ a b, equalFold a b = true → equalFold b a = true)
    (htrans : ∀ a b c, equalFold a b = true → equalFold b c = true → equalFold a c = true)
    (hdist : devs.Pairwise (fun d1 d2 => equalFold d1.GetHostname d2.GetHostname = false))
    (d1 : Device) (m : IfMap) (hd1 : d1 ∈ ResolvePeers toLower devs) (hm : m ∈ d1.GetIfMaps)
    (hp : m.PeerNode ≠ []) :
    ∃ p ∈ ResolvePeers toLower devs,
      findDeviceByHostname equalFold (ResolvePeers toLower devs) m.PeerNode = some p ∧
      ∃ x ∈ p.GetIfMaps, (x.Clab = m.PeerIf ∨ x.Src = m.PeerIf) ∧
        findClabName p m.PeerIf = x.Clab := by
  obtain ⟨d, hd, he, hmd, hr⟩ := ResolvePeers_survivor toLower devs d1 m hd1 hm hp
  unfold peerResolves at hr
  cases hl : lookupHost toLower devs m.PeerNode with
  | none => simp [hl] at hr
  | some p0 =>
    simp only [hl] at hr
    obtain ⟨hp0, hh⟩ := lookupHost_some toLower devs m.PeerNode p0 hl
    have hpm : resolvedDevice toLower devs p0 ∈ ResolvePeers toLower devs :=
      (mem_ResolvePeers toLower devs _).2 ⟨p0, hp0, rfl⟩
    have hhost : (resolvedDevice toLower devs p0).GetHostname = p0.GetHostname :=
      (setIfMaps_names p0 _).1
    have hex : interfaceExists (resolvedDevice toLower devs p0) m.PeerIf = true := by
      rw [interfaceExists_congr _ p0 m.PeerIf (ifNames_resolvedDevice toLower devs p0)]
      exact hr
    refine ⟨resolvedDevice toLower devs p0, hpm, ?_, findClabName_of_exists _ _ hex⟩
    apply findDeviceByHostname_unique equalFold _ hsymm htrans
      (ResolvePeers_pairwise toLower equalFold devs hdist) _ _ hpm
    rw [hhost]
    exact hlow _ _ hh

/-- C20 fails on the code: in the device list `exBarDevs`, built and resolved
from the lab `exBarNodes`, the hostnames are pairwise distinct, `ResolvePeers`
clears nothing, and the mapping of the node `a:Ethernet1/1|b` keeps its peer
claim and passes both lookups of `collectLinks` (the device `c` is found and
the clab name `Ethernet1/1` on it); yet its endpoint
`a:Ethernet1/1|b:Ethernet1/1` occurs in no link of the result: the key of its
link, built by `makeLinkKey` with a `|` that node names may contain, is the
key of the link collected before. -/
theorem collectLinks_misses_resolved_claim :
    (labbuild asciiToLower asciiEqualFold exBarFiles exBarNodes).map Prod.fst = some exBarDevs ∧
    exBarDevs.Pairwise (fun d1 d2 => asciiEqualFold d1.GetHostname d2.GetHostname = false) ∧
    ResolvePeers asciiToLower exBarDevs = exBarDevs ∧
    (ResolvePeers asciiToLower exBarDevs)[2]?.map Device.GetNodeName
      = some "a:Ethernet1/1|b".toList ∧
    (ResolvePeers asciiToLower exBarDevs)[2]?.map Device.GetIfMaps
      = some [{ Clab := "Ethernet1/1".toList, Src := "Ethernet1/7".toList,
                PeerNode := "hd".toList, PeerIf := "Ethernet1/7".toList }] ∧
    (findDeviceByHostname asciiEqualFold (ResolvePeers asciiToLower exBarDevs) "hd".toList).map
      (fun p => (p.GetNodeName, findClabName p "Ethernet1/7".toList))
      = some ("c".toList, "Ethernet1/1".toList) ∧
    (collectLinks asciiEqualFold (ResolvePeers asciiToLower exBarDevs)).filter
      (fun l => decide ("a:Ethernet1/1|b:Ethernet1/1".toList ∈ l.Endpoints)) = [] := by
  refine ⟨?_, ?_, ?_, ?_, ?_, ?_, ?_⟩ <;> decide!

/-- What the two stages share when the key separator does not interfere. The
functions `strings.ToLower` and `strings.EqualFold` are parameters here, and
this statement assumes of them that `EqualFold` is symmetric and transitive
and holds of two strings with the same `ToLower` (true of the ASCII instances
used in the examples), and that the hostnames of the device list are pairwise
distinct for `EqualFold`.  After `ResolvePeers` every mapping that still has a
non-empty `PeerNode` passes the first lookup of `collectLinks` and the device
found has a mapping named `PeerIf`, whose clab name is what the second lookup
returns; when, in addition, no clab name of the list is empty and no node name
and no clab name contains the character `|`, some link of the result joins the
endpoint `nodeName:Clab` of the mapping and the endpoint found for its peer.
Every link of the result has as first endpoint the endpoint of a mapping with a
non-empty `PeerNode`; a mapping with an empty `PeerNode` leaves the list of
links as it is, and an endpoint all of whose mappings have an empty `PeerNode`
is the first endpoint of no link. -/
theorem ResolvePeers_collectLinks_agree (toLower : Str → Str) (equalFold : Str → Str → Bool)
    (devs : List Device)
    (hlow : ∀ a b, toLower a = toLower b → equalFold a b = true)
    (hsymm : ∀ a b, equalFold a b = true → equalFold b a = true)
    (htrans : ∀ a b c, equalFold a b = true → equalFold b c = true → equalFold a c = true)
    (hdist : devs.Pairwise (fun d1 d2 => equalFold d1.GetHostname d2.GetHostname = false)) :
    (∀ d1 ∈ ResolvePeers toLower devs, ∀ m ∈ d1.GetIfMaps, m.PeerNode ≠ [] →
      ∃ p ∈ ResolvePeers toLower devs,
        findDeviceByHostname equalFold (ResolvePeers toLower devs) m.PeerNode = some p ∧
        (∃ x ∈ p.GetIfMaps, (x.Clab = m.PeerIf ∨ x.Src = m.PeerIf) ∧
          findClabName p m.PeerIf = x.Clab) ∧
        ((∀ d ∈ devs, '|' ∉ d.GetNodeName ∧ ∀ y ∈ d.GetIfMaps, y.Clab ≠ [] ∧ '|' ∉ y.Clab) →
          findClabName p m.PeerIf ≠ [] ∧
          ∃ l ∈ collectLinks equalFold (ResolvePeers toLower devs),
            joins (d1.GetNodeName ++ ":".toList ++ m.Clab)
              (p.GetNodeName ++ ":".toList ++ findClabName p m.PeerIf) l = true)) ∧
    (∀ l ∈ collectLinks equalFold (ResolvePeers toLower devs),
      ∃ d1 ∈ ResolvePeers toLower devs, ∃ m ∈ d1.GetIfMaps, m.PeerNode ≠ [] ∧
        l.Endpoints.head? = some (d1.GetNodeName ++ ":".toList ++ m.Clab)) ∧
    (∀ d1 ∈ ResolvePeers toLower devs, ∀ m ∈ d1.GetIfMaps, m.PeerNode = [] →
      ∀ st : linkState, collectStep equalFold (ResolvePeers toLower devs) d1 st m = st) ∧
    (∀ e : Str,
      (∀ d1 ∈ ResolvePeers toLower devs, ∀ m ∈ d1.GetIfMaps,
        d1.GetNodeName ++ ":".toList ++ m.Clab = e → m.PeerNode = []) →
      ∀ l ∈ collectLinks equalFold (ResolvePeers toLower devs), l.Endpoints.head? ≠ some e) := by
  have hlinks : ∀ l ∈ collectLinks equalFold (ResolvePeers toLower devs),
      ∃ d1 ∈ ResolvePeers toLower devs, ∃ m ∈ d1.GetIfMaps, m.PeerNode ≠ [] ∧
        l.Endpoints.head? = some (d1.GetNodeName ++ ":".toList ++ m.Clab) := by
    intro l hl
    obtain ⟨d, hd, m, hm, p, _, hp, _, _, he⟩ :=
      collectLinks_linkOfClaim equalFold (ResolvePeers toLower devs) l hl
    exact ⟨d, hd, m, hm, hp, by rw [he]; rfl⟩
  refine ⟨?_, hlinks, ?_, ?_⟩
  · intro d1 hd1 m hm hp
    obtain ⟨p, hpm, hfind, x, hx, hxn, hxc⟩ :=
      ResolvePeers_survivor_found toLower equalFold devs hlow hsymm htrans hdist d1 m hd1 hm hp
    refine ⟨p, hpm, hfind, ⟨x, hx, hxn, hxc⟩, ?_⟩
    intro hbar
    have hbar1 : ∀ d ∈ ResolvePeers toLower devs,
        '|' ∉ d.GetNodeName ∧ ∀ y ∈ d.GetIfMaps, y.Clab ≠ [] ∧ '|' ∉ y.Clab := by
      intro d hd
      obtain ⟨d0, hd0, _, hn, _, hmaps⟩ := ResolvePeers_names toLower devs d hd
      refine ⟨by rw [hn]; exact (hbar d0 hd0).1, ?_⟩
      intro y hy
      obtain ⟨y0, hy0, hc, _⟩ := hmaps y hy
      rw [hc]
      exact (hbar d0 hd0).2 y0 hy0
    have hne : findClabName p m.PeerIf ≠ [] := by
      rw [hxc]
      exact ((hbar1 p hpm).2 x hx).1
    refine ⟨hne, ?_⟩
    exact collectLinks_joins_exists equalFold (ResolvePeers toLower devs) d1 m p hd1 hm hp
      hfind hne (fun d hd => ⟨(hbar1 d hd).1, fun y hy => ((hbar1 d hd).2 y hy).2⟩)
  · intro d1 _ m _ hp st
    simp only [collectStep, hp, if_true]
  · intro e he l hl hhead
    obtain ⟨d1, hd1, m, hm, hp, hh⟩ := hlinks l hl
    rw [hh] at hhead
    exact hp (he d1 hd1 m hm (Option.some.inj hhead))

/-- The two stages on the two mutually connected nodes of `exPairDevs`, with the
ASCII instances of `strings.ToLower` and `strings.EqualFold`: the mapping of
`spine1` keeps its claim, and a link joins its endpoint and the one of `leaf1`. -/
theorem ResolvePeers_collectLinks_agree_witness :
    exPairDevs.Pairwise (fun d1 d2 => asciiEqualFold d1.GetHostname d2.GetHostname = false) ∧
    ∃ l ∈ collectLinks asciiEqualFold (ResolvePeers asciiToLower exPairDevs),
      joins "spine1:Ethernet1/1".toList "leaf1:Ethernet1/1".toList l = true := by
  have hdist : exPairDevs.Pairwise
      (fun d1 d2 => asciiEqualFold d1.GetHostname d2.GetHostname = false) := by decide!
  refine ⟨hdist, ?_⟩
  obtain ⟨p, _, hfind, _, hB⟩ :=
    (ResolvePeers_collectLinks_agree asciiToLower asciiEqualFold exPairDevs
      (fun a b h => by simp only [asciiEqualFold, h, decide_True])
      (fun a b h => by
        simp only [asciiEqualFold, decide_eq_true_eq] at h ⊢
        exact h.symm)
      (fun a b c h1 h2 => by
        simp only [asciiEqualFold, decide_eq_true_eq] at h1 h2 ⊢
        exact h1.trans h2)
      hdist).1
      (exDevN9kv ["ha", "hb"] "spine1" "ha" "hb" "Ethernet1/7") (by decide!)
      { Clab := "Ethernet1/1".toList, Src := "Ethernet1/7".toList,
        PeerNode := "hb".toList, PeerIf := "Ethernet1/7".toList } (by decide!) (by decide!)
  have hp : findDeviceByHostname asciiEqualFold (ResolvePeers asciiToLower exPairDevs)
      "hb".toList = some (exDevN9kv ["ha", "hb"] "leaf1" "hb" "ha" "Ethernet1/1") := by decide!
  have hpe : p = exDevN9kv ["ha", "hb"] "leaf1" "hb" "ha" "Ethernet1/1" :=
    (Option.some.inj (hfind.symm.trans hp))
  subst hpe
  exact (hB (by decide!)).2

end Clab
